import Mathlib

/-!
# mocksmith: rule evaluation and scenario selection

A shallow embedding of `internal/rules/rules.go` together with the data model
of `internal/config/types.go` and `internal/snapshot/types.go`.

Conventions of the embedding
* Go `string` is `String`; text processing is done on its `List Char`.
* Go `int` (64 bit) is `Int`; additions that may overflow go through `wrapInt`.
* Go `map[string]T` is an association list `List (String × T)`; a lookup
  returns the first entry for the key, a `range` loop visits the entries in
  list order.
* A run-time panic is `Except.error`.
* The package-level `seed` of `rules.go` is passed in and handed back.
-/

namespace Mocksmith

/-! ## Values of type `any` -/

/-- A finite `float64` as `strconv` sees it when it formats with the shortest
precision that round-trips: the sign, the decimal digits `d` (no trailing zero,
empty for zero) and the position `dp` of the decimal point, the value being
`0.d₁d₂… × 10^dp`. -/
structure Float64 where
  neg : Bool
  d : List Nat
  dp : Int

/-- The dynamic values that `encoding/json` and `yaml.v3` decode into an `any`:
`nil`, `bool`, `int` (YAML integers), `float64` (every JSON number), `string`,
`[]any` and `map[string]any`. -/
inductive GoVal where
  | null
  | bool (b : Bool)
  | int (n : Int)
  | float (f : Float64)
  | str (s : String)
  | arr (xs : List GoVal)
  | obj (kvs : List (String × GoVal))

/-- Go's `v != nil` on an interface value. -/
def GoVal.notNil : GoVal → Bool
  | .null => false
  | _ => true

/-! ## Pieces of the Go standard library used by `rules.go` -/

/-- The ASCII digit for `n < 10`. -/
def digitChar (n : Nat) : Char := Char.ofNat (48 + n % 10)

/-- Decimal digits of `n`, most significant first; the first argument bounds
the number of digits. -/
def natDigits : Nat → Nat → List Char
  | 0, _ => []
  | fuel + 1, n =>
    if n < 10 then [digitChar n] else natDigits fuel (n / 10) ++ [digitChar n]

/-- Decimal text of a natural number. -/
def fmtNat (n : Nat) : List Char := natDigits (n + 1) n

/-- Decimal text of a Go `int` under the verb `%v` (`strconv.FormatInt`). -/
def fmtInt : Int → List Char
  | .ofNat n => fmtNat n
  | .negSucc n => '-' :: fmtNat (n + 1)

/-- The function `fmtF` of `strconv/ftoa.go`: digits, then `prec` fraction
digits. -/
def fmtF (neg : Bool) (d : List Nat) (dp : Int) (prec : Nat) : List Char :=
  let sign := if neg then ['-'] else []
  let intPart :=
    if 0 < dp then
      let m := min d.length dp.toNat
      (d.take m).map digitChar ++ List.replicate (dp.toNat - m) '0'
    else ['0']
  let frac :=
    if 0 < prec then
      '.' :: (List.range prec).map (fun i =>
        let j := dp + (i : Int)
        if 0 ≤ j ∧ j < (d.length : Int) then digitChar (d.getD j.toNat 0) else '0')
    else []
  sign ++ intPart ++ frac

/-- The function `fmtE` of `strconv/ftoa.go` with exponent letter `e`. -/
def fmtE (neg : Bool) (d : List Nat) (dp : Int) (prec : Int) : List Char :=
  let sign := if neg then ['-'] else []
  let first := match d with
    | [] => '0'
    | x :: _ => digitChar x
  let more :=
    if 0 < prec then
      let m := min d.length (prec.toNat + 1)
      '.' :: ((d.take m).drop 1).map digitChar ++ List.replicate (prec.toNat + 1 - max m 1) '0'
    else []
  let exp := if d.length = 0 then 0 else dp - 1
  let esign := if exp < 0 then '-' else '+'
  let e := exp.natAbs
  let edigits :=
    if e < 10 then ['0', digitChar e]
    else if e < 100 then [digitChar (e / 10), digitChar (e % 10)]
    else [digitChar (e / 100), digitChar (e / 10 % 10), digitChar (e % 10)]
  sign ++ first :: more ++ 'e' :: esign :: edigits

/-- A `float64` under the verb `%v`, which is `strconv.FormatFloat(f, 'g', -1, 64)`
(`%e` is used if the exponent is less than -4 or greater than or equal to the
precision; for the shortest precision that decision uses 6). -/
def fmtFloat (f : Float64) : List Char :=
  let exp := f.dp - 1
  if exp < -4 ∨ exp ≥ 6 then
    fmtE f.neg f.d f.dp ((f.d.length : Int) - 1)
  else
    fmtF f.neg f.d f.dp ((f.d.length : Int) - f.dp).toNat

/-- Go's `a < b` on strings: lexicographic (code-point order agrees with the
byte order of UTF-8). -/
def strLt : List Char → List Char → Bool
  | _, [] => false
  | [], _ :: _ => true
  | a :: as, b :: bs => a.toNat < b.toNat || (a == b && strLt as bs)

/-- Insert a key/text pair into a list kept in ascending key order. -/
def insertKey (kv : String × List Char) : List (String × List Char) → List (String × List Char)
  | [] => [kv]
  | x :: xs => if strLt kv.1.data x.1.data then kv :: x :: xs else x :: insertKey kv xs

/-- Entries in ascending key order, the order in which `fmt` prints a map. -/
def sortKeys : List (String × List Char) → List (String × List Char)
  | [] => []
  | kv :: rest => insertKey kv (sortKeys rest)

/-- Join texts with single blanks. -/
def joinSp : List (List Char) → List Char
  | [] => []
  | [x] => x
  | x :: y :: rest => x ++ ' ' :: joinSp (y :: rest)

mutual
/-- The text of `fmt.Sprintf("%v", v)`. -/
def fmtV : GoVal → List Char
  | .null => "<nil>".data
  | .bool b => if b then "true".data else "false".data
  | .int n => fmtInt n
  | .float f => fmtFloat f
  | .str s => s.data
  | .arr xs => '[' :: joinSp (fmtVList xs) ++ [']']
  | .obj kvs =>
    "map[".data ++ joinSp ((sortKeys (fmtVFields kvs)).map (fun kv => kv.1.data ++ ':' :: kv.2)) ++ [']']
/-- The texts of the elements of a slice. -/
def fmtVList : List GoVal → List (List Char)
  | [] => []
  | x :: xs => fmtV x :: fmtVList xs
/-- The keys and the texts of the values of a map. -/
def fmtVFields : List (String × GoVal) → List (String × List Char)
  | [] => []
  | (k, v) :: kvs => (k, fmtV v) :: fmtVFields kvs
end

/-- Go's `unicode.IsSpace`. -/
def isSpace (c : Char) : Bool :=
  let n := c.toNat
  (9 ≤ n && n ≤ 13) || n == 32 || n == 0x85 || n == 0xA0 || n == 0x1680 ||
  (0x2000 ≤ n && n ≤ 0x200A) || n == 0x2028 || n == 0x2029 || n == 0x202F ||
  n == 0x205F || n == 0x3000

/-- Drop from both ends the characters satisfying `p` (`strings.Trim`,
`strings.TrimSpace`). -/
def trimBoth (p : Char → Bool) (s : List Char) : List Char :=
  ((s.dropWhile p).reverse.dropWhile p).reverse

/-- The call `strings.ReplaceAll(s, "  ", " ")`: left to right, without overlap. -/
def collapseBlanks : List Char → List Char
  | [] => []
  | [c] => [c]
  | c :: c' :: rest =>
    if c = ' ' ∧ c' = ' ' then ' ' :: collapseBlanks rest
    else c :: collapseBlanks (c' :: rest)

/-- The call `strings.ReplaceAll(s, from, to)` for a one-character `from`. -/
def replaceChar (a : Char) (rep : List Char) (s : List Char) : List Char :=
  s.flatMap (fun c => if c = a then rep else [c])

/-- The call `strings.Split(s, sep)` for a one-character separator. -/
def splitOn (sep : Char) : List Char → List (List Char)
  | [] => [[]]
  | c :: cs =>
    if c = sep then [] :: splitOn sep cs
    else match splitOn sep cs with
      | [] => [[c]]
      | h :: t => (c :: h) :: t

/-- The class `\d` of Go regular expressions: ASCII digits only. -/
def isDigit (c : Char) : Bool := 48 ≤ c.toNat && c.toNat ≤ 57

/-- The number a string of ASCII digits denotes. -/
def decVal (ds : List Char) : Nat := ds.foldl (fun acc c => 10 * acc + (c.toNat - 48)) 0

/-- The largest Go `int`. -/
def maxInt : Int := 2 ^ 63 - 1

/-- The value part of `strconv.Atoi` on an unsigned numeral, the error being
dropped as in `i, _ := strconv.Atoi(m[2])`: a numeral out of range gives the
largest `int`, text that is not a numeral gives 0. -/
def atoi (ds : List Char) : Int :=
  if ds ≠ [] ∧ ds.all isDigit then min (decVal ds : Int) maxInt else 0

/-- The matcher `idxRe = ^(.+)\[(\d+)\]$` applied with `FindStringSubmatch`:
the two groups when the text is `name[digits]`, where `.` excludes the line
feed. -/
def idxRe (seg : List Char) : Option (List Char × List Char) :=
  match seg.reverse with
  | ']' :: r =>
    match r.dropWhile isDigit with
    | '[' :: nameRev =>
      if (r.takeWhile isDigit) ≠ [] ∧ nameRev ≠ [] ∧ nameRev.all (fun c => c ≠ '\n') then
        some (nameRev.reverse, (r.takeWhile isDigit).reverse)
      else none
    | _ => none
  | _ => none

/-- The predicate `validHeaderFieldByte` of `net/textproto`: the token
characters of RFC 7230. -/
def validHeaderFieldByte (c : Char) : Bool :=
  let n := c.toNat
  (48 ≤ n && n ≤ 57) || (65 ≤ n && n ≤ 90) || (97 ≤ n && n ≤ 122) ||
  n == 33 || (35 ≤ n && n ≤ 39) || n == 42 || n == 43 || n == 45 || n == 46 ||
  n == 94 || n == 95 || n == 96 || n == 124 || n == 126

/-- The canonicalising loop of `net/textproto`: upper case at the start and
after each dash, lower case elsewhere. -/
def canonLoop : Bool → List Char → List Char
  | _, [] => []
  | upper, c :: cs =>
    let n := c.toNat
    let c' :=
      if upper ∧ 97 ≤ n ∧ n ≤ 122 then Char.ofNat (n - 32)
      else if ¬upper ∧ 65 ≤ n ∧ n ≤ 90 then Char.ofNat (n + 32)
      else c
    c' :: canonLoop (c' = '-') cs

/-- The function `http.CanonicalHeaderKey`: a key holding a blank or any other
invalid header byte is returned unchanged. -/
def CanonicalHeaderKey (k : String) : String :=
  if k.data.all validHeaderFieldByte then String.mk (canonLoop true k.data) else k

/-- A read `m[k]` of a `map[string][]string` (`url.Values`, `http.Header`): the
nil slice when the key is absent. -/
def valuesGet : List (String × List String) → String → List String
  | [], _ => []
  | (k', vs) :: rest, k => if k' = k then vs else valuesGet rest k

/-- A read `m[k]` of a `map[string]any`: `nil` when the key is absent. -/
def mapGet : List (String × GoVal) → String → GoVal
  | [], _ => .null
  | (k', v) :: rest, k => if k' = k then v else mapGet rest k

/-- Go `int` arithmetic: the 64-bit two's complement value of an integer. -/
def wrapInt (x : Int) : Int := (x + 2 ^ 63) % 2 ^ 64 - 2 ^ 63

/-- The call `strings.TrimPrefix(s, "/")` for a one-character prefix. -/
def trimPrefix (c : Char) : List Char → List Char
  | [] => []
  | x :: xs => if x = c then xs else x :: xs

/-- A piece of a pattern that `compilePath` writes: a literal character (what
`regexp.QuoteMeta` makes the pattern match for a character of the template)
or the group `([^/]+)`. A list of pieces stands for the pattern between `^`
and `$`. -/
inductive Tok where
  | lit (c : Char)
  | group

/-- The ways in which the group `([^/]+)` can match at the start of a text, in
the order in which a greedy repetition tries them: the non-empty prefixes of
the leading run of characters other than `/`, longest first, each with the
text left over. -/
def groupSplits (xs : List Char) : List (List Char × List Char) :=
  (List.range (xs.takeWhile (fun c => c ≠ '/')).length).reverse.map
    (fun n => (xs.take (n + 1), xs.drop (n + 1)))

/-- The match of the pattern `^ toks $` against a whole text, with
backtracking: the texts of the groups, in order. -/
def matchToks : List Tok → List Char → Option (List (List Char))
  | [], xs => if xs = [] then some [] else none
  | .lit c :: ts, xs =>
    match xs with
    | x :: rest => if x = c then matchToks ts rest else none
    | [] => none
  | .group :: ts, xs =>
    (groupSplits xs).findSome? (fun vr => (matchToks ts vr.2).map (fun caps => vr.1 :: caps))

/-- The method `FindStringSubmatch` on a pattern of `compilePath`: `nil` when
the text does not match, else the whole match followed by the groups. -/
def FindStringSubmatch (re : List Tok) (s : String) : Option (List String) :=
  (matchToks re s.data).map (fun caps => s :: caps.map String.mk)

/-- The functions `strings.ToLower` and `strings.ToUpper` on the ASCII letters
(HTTP methods and header names are ASCII). -/
def toLowerChar (c : Char) : Char :=
  if 65 ≤ c.toNat ∧ c.toNat ≤ 90 then Char.ofNat (c.toNat + 32) else c

/-- Upper case of an ASCII letter. -/
def toUpperChar (c : Char) : Char :=
  if 97 ≤ c.toNat ∧ c.toNat ≤ 122 then Char.ofNat (c.toNat - 32) else c

/-- The function `strings.ToLower`. -/
def ToLower (s : String) : String := String.mk (s.data.map toLowerChar)

/-- The function `strings.ToUpper`. -/
def ToUpper (s : String) : String := String.mk (s.data.map toUpperChar)

/-- An assignment `m[k] = v` on a `map[string]string`. -/
def strMapSet : List (String × String) → String → String → List (String × String)
  | [], k, v => [(k, v)]
  | (k', v') :: rest, k, v => if k' = k then (k, v) :: rest else (k', v') :: strMapSet rest k v

/-! ## `internal/config` and `internal/snapshot` -/

/-- The type `config.Cond`: `Eq` is `nil` when `$eq` is not given. -/
structure Cond where
  Eq : GoVal := .null
  In : List GoVal := []

/-- The type `config.MatchRules`. -/
structure MatchRules where
  Query : List (String × Cond) := []
  Headers : List (String × Cond) := []
  Body : List (String × Cond) := []

/-- The type `snapshot.CompiledScenario`. -/
structure CompiledScenario where
  Name : String := ""
  Priority : Int := 0
  Match : Option MatchRules := none
  Status : Int := 0
  Headers : List (String × String) := []
  BodyBytes : String := ""
  BodyIsBase64 : Bool := false
  LatencyMS : Int := 0
  ErrorRatePct : Int := 0
  Weight : Int := 0

/-- The type `snapshot.CompiledRoute`; a compiled request schema is held as
the text it was compiled from. -/
structure CompiledRoute where
  Method : String := ""
  PathTemplate : String := ""
  PathRE : List Tok := []
  ParamNames : List String := []
  Strict : Bool := false
  ReqSchema : Option String := none
  Scenarios : List CompiledScenario := []
  Default : Option CompiledScenario := none

/-- The type `snapshot.MatchContext`; `Body` is `none` for the nil map that an
absent or unparseable request body leaves. -/
structure MatchContext where
  Query : List (String × List String) := []
  Headers : List (String × List String) := []
  Body : Option (List (String × GoVal)) := none

/-! ## `internal/rules/rules.go` -/

/-- The function `fmtAny`: the `%v` text with line feeds trimmed, line feeds and
tabs turned into blanks, double blanks halved once, and white space trimmed. -/
def fmtAny (v : GoVal) : List Char :=
  trimBoth isSpace (collapseBlanks (replaceChar '\t' [' '] (replaceChar '\n' [' ']
    (trimBoth (fun c => c = '\n') (fmtV v)))))

/-- The function `jsonMarshalSafe`; none of the values of `GoVal` has a
`MarshalJSON` method, so the text is always the quoted `fmtAny` text. -/
def jsonMarshalSafe (v : GoVal) : List Char :=
  '"' :: replaceChar '"' ['\\', '"'] (trimBoth isSpace (fmtAny v)) ++ ['"']

/-- The function `toString` of `rules.go`. -/
def toString : GoVal → String
  | .str t => t
  | v => String.mk (trimBoth (fun c => c = '"') (jsonMarshalSafe v))

/-- The function `checkCond`. -/
def checkCond (vals : List String) (c : Cond) : Bool :=
  if c.Eq.notNil ∧ (vals.length = 0 ∨ vals.head? ≠ some (toString c.Eq)) then false
  else if c.In.length > 0 then
    let allowed := c.In.map toString
    let ok := vals.any (fun v => allowed.contains v)
    if ¬ok then false else true
  else true

/-- The loop of `getDot` over the path segments, `cur` being the value
reached so far. -/
def getDotLoop : GoVal → List (List Char) → GoVal
  | cur, [] => cur
  | .obj mm, seg :: rest =>
    match idxRe seg with
    | some (name, digits) =>
      match mapGet mm (String.mk name) with
      | .arr arr =>
        let i := atoi digits
        if i < 0 ∨ i ≥ (arr.length : Int) then .null
        else getDotLoop (arr.getD i.toNat .null) rest
      | _ => .null
    | none => getDotLoop (mapGet mm (String.mk seg)) rest
  | _, _ :: _ => .null

/-- The function `getDot`; a nil map reads as the empty map. -/
def getDot (m : Option (List (String × GoVal))) (path : String) : GoVal :=
  getDotLoop (.obj (m.getD [])) (splitOn '.' path.data)

/-- The function `condsQuery`. -/
def condsQuery (m : List (String × Cond)) (q : List (String × List String)) : Bool :=
  m.all (fun kc => checkCond (valuesGet q kc.1) kc.2)

/-- The function `condsHeader`. -/
def condsHeader (m : List (String × Cond)) (h : List (String × List String)) : Bool :=
  m.all (fun kc => checkCond (valuesGet h (CanonicalHeaderKey kc.1)) kc.2)

/-- The function `condsBody`. -/
def condsBody (m : List (String × Cond)) (b : Option (List (String × GoVal))) : Bool :=
  m.all (fun pc => checkCond [toString (getDot b pc.1)] pc.2)

/-- The function `rulesOK`. -/
def rulesOK (m : Option MatchRules) (ctx : MatchContext) : Bool :=
  match m with
  | none => true
  | some m =>
    condsQuery m.Query ctx.Query && condsHeader m.Headers ctx.Headers &&
      condsBody m.Body ctx.Body

/-- What stops a call short of a result. -/
inductive Fault where
  | divideByZero
  | indexOutOfRange
  | loopBudget

/-- The next value of the package-level `seed`:
`(1103515245*seed + 12345) & 0x7fffffff`. -/
def nextSeed (seed : Int) : Int := (1103515245 * seed + 12345) % 2 ^ 31

/-- The function `randInt`: the draw and the new seed; `%` is Go's truncated
remainder and panics on a zero divisor. -/
def randInt (seed : Int) (n : Int) : Except Fault (Int × Int) :=
  if n = 0 then .error .divideByZero
  else .ok (Int.tmod (nextSeed seed) n, nextSeed seed)

/-- The first loop of `weightedPick`: the sum of the weights, a weight `≤ 0`
counting as 1. -/
def weightSum (list : List CompiledScenario) : Int :=
  list.foldl (fun sum s => wrapInt (sum + (if s.Weight ≤ 0 then 1 else s.Weight))) 0

/-- The second loop of `weightedPick`: the first scenario at which the running
total of the weights as stored exceeds the draw `n`. -/
def weightedWalk (n : Int) : Int → List CompiledScenario → Option CompiledScenario
  | _, [] => none
  | acc, s :: rest =>
    if n < wrapInt (acc + s.Weight) then some s
    else weightedWalk n (wrapInt (acc + s.Weight)) rest

/-- The function `weightedPick`, with the seed before and after. -/
def weightedPick (seed : Int) (list : List CompiledScenario) :
    Except Fault (CompiledScenario × Int) :=
  match randInt seed (weightSum list) with
  | .error e => .error e
  | .ok (n, seed') =>
    match weightedWalk n 0 list with
    | some s => .ok (s, seed')
    | none =>
      match list with
      | [] => .error .indexOutOfRange
      | s :: _ => .ok (s, seed')

/-- One insertion of the stable sort: `s` goes in front of the first scenario
whose priority is not smaller. -/
def insertByPriority (s : CompiledScenario) : List CompiledScenario → List CompiledScenario
  | [] => [s]
  | t :: ts => if t.Priority < s.Priority then t :: insertByPriority s ts else s :: t :: ts

/-- The call `sort.SliceStable(scs, func(i, j) { scs[i].Priority < scs[j].Priority })`. -/
def sortSliceStable : List CompiledScenario → List CompiledScenario
  | [] => []
  | s :: rest => insertByPriority s (sortSliceStable rest)

/-- The `for i := 0; i < len(scs);` loop of `PickScenario` on the part of the
sorted slice from `i` on: `some` is the `return weightedPick(candidates)`,
`none` is leaving the loop. The first argument bounds the number of rounds. -/
def pickLoop (ctx : MatchContext) (seed : Int) :
    Nat → List CompiledScenario → Except Fault (Option (CompiledScenario × Int))
  | _, [] => .ok none
  | 0, _ :: _ => .error .loopBudget
  | fuel + 1, s :: rest =>
    let p := s.Priority
    let group := s :: rest.takeWhile (fun t => t.Priority = p)
    let candidates := group.filter (fun t => rulesOK t.Match ctx)
    if candidates.length > 0 then
      match weightedPick seed candidates with
      | .error e => .error e
      | .ok r => .ok (some r)
    else pickLoop ctx seed fuel (rest.dropWhile (fun t => t.Priority = p))

/-- The built-in scenario that `PickScenario` returns last. -/
def fallback : CompiledScenario := { Name := "fallback", Status := 200, BodyBytes := "{}" }

/-- The function `PickScenario`, with the seed before and after. -/
def PickScenario (seed : Int) (rt : CompiledRoute) (ctx : MatchContext) :
    Except Fault (CompiledScenario × Int) :=
  let scs := sortSliceStable rt.Scenarios
  match pickLoop ctx seed scs.length scs with
  | .error e => .error e
  | .ok (some r) => .ok r
  | .ok none =>
    match rt.Default with
    | some d => .ok (d, seed)
    | none =>
      match scs with
      | s :: _ => .ok (s, seed)
      | [] => .ok (fallback, seed)

/-! ## Specification-side notions -/

/-- The mathematical sum of the stored weights. -/
def totalWeight (list : List CompiledScenario) : Int := (list.map (fun s => s.Weight)).sum

/-- The sum of the first `k` stored weights. -/
def runningWeight (list : List CompiledScenario) (k : Nat) : Int := totalWeight (list.take k)

/-- `k` is the smallest index at which the running total of the weights exceeds `n`. -/
def IsLeastIndex (list : List CompiledScenario) (n : Int) (k : Nat) : Prop :=
  n < runningWeight list (k + 1) ∧ ∀ j, j < k → runningWeight list (j + 1) ≤ n

instance (list : List CompiledScenario) (n : Int) (k : Nat) : Decidable (IsLeastIndex list n k) := by
  unfold IsLeastIndex
  infer_instance

/-- Priorities ascend along the list. -/
def Ascending (l : List CompiledScenario) : Prop :=
  l.Pairwise (fun a b => a.Priority ≤ b.Priority)

/-- The matching scenarios of priority `p`, in the order of the configuration. -/
def matchingAt (ctx : MatchContext) (p : Int) (l : List CompiledScenario) : List CompiledScenario :=
  l.filter (fun t => rulesOK t.Match ctx && decide (t.Priority = p))

/-- The list in which every weight `≤ 0` has been replaced by 1. -/
def normalizeWeights (list : List CompiledScenario) : List CompiledScenario :=
  list.map (fun s => if s.Weight ≤ 0 then { s with Weight := 1 } else s)

mutual
/-- Every slice inside the value is shorter than `2^63`, as the length of a Go
slice is an `int`. -/
def GoVal.fits : GoVal → Bool
  | .arr xs => decide ((xs.length : Int) ≤ maxInt) && fitsList xs
  | .obj kvs => fitsFields kvs
  | _ => true
/-- The elements of a slice fit. -/
def fitsList : List GoVal → Bool
  | [] => true
  | x :: xs => x.fits && fitsList xs
/-- The values of a map fit. -/
def fitsFields : List (String × GoVal) → Bool
  | [] => true
  | (_, v) :: kvs => v.fits && fitsFields kvs
end

/-- One segment of a dotted path as the specification words it: on an object,
a segment `name[i]` is element `i` of the array stored under `name` and a plain
segment is a key lookup; there is no value when the current value is not an
object, the value under `name` is not an array, or `i` is outside the array. -/
def stepValue (cur : GoVal) (seg : List Char) : GoVal :=
  match cur, idxRe seg with
  | .obj fields, some (name, digits) =>
    match mapGet fields (String.mk name) with
    | .arr xs => (xs.get? (decVal digits)).getD .null
    | _ => .null
  | .obj fields, none => mapGet fields (String.mk seg)
  | _, _ => .null

/-- Decimal digits of `n` as numbers, most significant first; the first
argument bounds the number of digits. -/
def natDigitList : Nat → Nat → List Nat
  | 0, _ => []
  | fuel + 1, n => if n < 10 then [n] else natDigitList fuel (n / 10) ++ [n % 10]

/-- The `float64` that `encoding/json` decodes from the integer literal `n`, for
`|n| ≤ 2^53` (such an integer is a `float64` exactly, and its shortest decimal
is its digits without the trailing zeros). -/
def float64OfInt (n : Int) : Float64 :=
  let ds := natDigitList (n.natAbs + 1) n.natAbs
  if n = 0 then ⟨false, [], 0⟩
  else ⟨decide (n < 0), (ds.reverse.dropWhile (fun d => d = 0)).reverse, ds.length⟩

/-- The value of a JSON number with integer value `n`. -/
def jsonNumber (n : Int) : GoVal := .float (float64OfInt n)

/-- A weight as the first loop of `weightedPick` counts it. -/
def normWeight (s : CompiledScenario) : Int := if s.Weight ≤ 0 then 1 else s.Weight

/-- The mathematical sum of the weights, a weight `≤ 0` counting as 1. -/
def normTotal (list : List CompiledScenario) : Int := (list.map normWeight).sum

/-! ## Concrete inputs for the evaluations below -/

/-- A scenario without match rules, weight `2^62`, priority 100. -/
def heavy (name : String) : CompiledScenario :=
  { Name := name, Priority := 100, Weight := 4611686018427387904 }

/-- Four always-matching scenarios whose weights sum to `2^64`. -/
def rtOverflow : CompiledRoute :=
  { Scenarios := [heavy "a", heavy "b", heavy "c", heavy "d"] }

/-- A scenario that requires the query parameter `market` to equal `IN`. -/
def scMarket : CompiledScenario :=
  { Name := "market", Priority := 1, Weight := 1,
    Match := some { Query := [("market", { Eq := .str "IN" })] } }

/-- Two scenarios of priority 5 without match rules, weights 1 and 3. -/
def scOne : CompiledScenario := { Name := "one", Priority := 5, Weight := 1 }

/-- The second scenario of priority 5. -/
def scThree : CompiledScenario := { Name := "three", Priority := 5, Weight := 3 }

/-- A default scenario. -/
def scDefault : CompiledScenario := { Name := "default", Priority := 999999, Status := 200 }

/-- The route of the selector example: priority 1 (conditional), priority 5
(weights 1 and 3), and a default. -/
def rtExample : CompiledRoute :=
  { Scenarios := [scMarket, scOne, scThree], Default := some scDefault }

/-- A request without query, headers or body. -/
def ctxEmpty : MatchContext := {}

/-- Two candidates with weights 1 and `2^63 - 1`: the weights are positive and
their sum is `2^63`. -/
def listWide : List CompiledScenario :=
  [{ Name := "first", Weight := 1 }, { Name := "second", Weight := 9223372036854775807 }]

/-- Two candidates, the first with a negative weight. -/
def listNeg : List CompiledScenario :=
  [{ Name := "A", Weight := -1 }, { Name := "B", Weight := 1 }]

/-- A scenario that requires the header `x-debug` to equal `1`. -/
def scDebug : CompiledScenario :=
  { Name := "debug", Priority := 1, Status := 500, Weight := 1,
    Match := some { Headers := [("x-debug", { Eq := .str "1" })] } }

/-- A route all of whose scenarios are conditional, with a default. -/
def rtGuarded : CompiledRoute :=
  { Scenarios := [scMarket, scDebug], Default := some scDefault }

/-- A route without default: priorities 7, 3, 3 in this order, all conditional. -/
def rtNoDefault : CompiledRoute :=
  { Scenarios := [{ scMarket with Name := "p7", Priority := 7 },
                  { scDebug with Name := "p3a", Priority := 3 },
                  { scMarket with Name := "p3b", Priority := 3 }] }

/-- A request whose JSON body is `{"name":"x"}`: it has no `user`. -/
def ctxNoUser : MatchContext := { Body := some [("name", .str "x")] }

/-- The condition `{"$eq": "<nil>"}`. -/
def condNilText : Cond := { Eq := .str "<nil>" }

/-- The condition `{"$in": [null]}`. -/
def condInNull : Cond := { In := [.null] }

/-- The body `{"user":{"id":2}}` as `encoding/json` decodes it. -/
def bodyUser : List (String × GoVal) := [("user", .obj [("id", .float ⟨false, [2], 1⟩)])]

/-- The body `{"items":[{"sku":"a"},{"sku":"b"}]}`. -/
def bodyItems : List (String × GoVal) :=
  [("items", .arr [.obj [("sku", .str "a")], .obj [("sku", .str "b")]])]

/-- A request whose JSON body is `{"n":1000000}`. -/
def ctxMillion : MatchContext := { Body := some [("n", jsonNumber 1000000)] }

/-- The scenarios returned by `k` sequential calls of `PickScenario`, each call
starting from the seed the previous one left, and the seed after the last. -/
def pickMany (rt : CompiledRoute) (ctx : MatchContext) :
    Nat → Int → Except Fault (List CompiledScenario × Int)
  | 0, seed => .ok ([], seed)
  | k + 1, seed =>
    match PickScenario seed rt ctx with
    | .error e => .error e
    | .ok (s, seed') =>
      match pickMany rt ctx k seed' with
      | .error e => .error e
      | .ok (rest, seed'') => .ok (s :: rest, seed'')

/-! ## `encoding/json` -/

/-- A hexadecimal digit, lower case. -/
def hexDigit (n : Nat) : Char :=
  if n % 16 < 10 then Char.ofNat (48 + n % 16) else Char.ofNat (87 + n % 16)

/-- The escape `\u00XX` or `\uXXXX` of a code point below `2^16`. -/
def jsonUnicodeEscape (n : Nat) : List Char :=
  ['\\', 'u', hexDigit (n / 4096), hexDigit (n / 256), hexDigit (n / 16), hexDigit n]

/-- One character of a string as `encoding/json` writes it with HTML escaping
on (the default of `json.Marshal`). -/
def jsonEscapeChar (c : Char) : List Char :=
  let n := c.toNat
  if c = '"' then ['\\', '"']
  else if c = '\\' then ['\\', '\\']
  else if n = 8 then ['\\', 'b']
  else if n = 12 then ['\\', 'f']
  else if c = '\n' then ['\\', 'n']
  else if c = '\r' then ['\\', 'r']
  else if c = '\t' then ['\\', 't']
  else if n < 32 ∨ c = '<' ∨ c = '>' ∨ c = '&' ∨ n = 0x2028 ∨ n = 0x2029 then
    jsonUnicodeEscape n
  else [c]

/-- A string as `encoding/json` writes it. -/
def jsonString (s : List Char) : List Char :=
  '"' :: s.flatMap jsonEscapeChar ++ ['"']

/-- A `float64` as `encoding/json` writes it: `%e` form below `1e-6` and from
`1e21` on, with a two-digit exponent `e-09` shortened to `e-9`; `%f` form
otherwise, both with the shortest precision. -/
def jsonFloat (f : Float64) : List Char :=
  if f.d.length ≠ 0 ∧ (f.dp ≤ -6 ∨ f.dp ≥ 22) then
    let b := fmtE f.neg f.d f.dp ((f.d.length : Int) - 1)
    match b.reverse with
    | x :: '0' :: sgn :: 'e' :: rest =>
      if sgn = '-' ∨ sgn = '+' then (x :: sgn :: 'e' :: rest).reverse else b
    | _ => b
  else fmtF f.neg f.d f.dp ((f.d.length : Int) - f.dp).toNat

/-- Join texts with commas. -/
def joinComma : List (List Char) → List Char
  | [] => []
  | [x] => x
  | x :: y :: rest => x ++ ',' :: joinComma (y :: rest)

mutual
/-- The text of `json.Marshal(v)`; the members of an object are written in
ascending key order. -/
def jsonMarshal : GoVal → List Char
  | .null => "null".data
  | .bool b => if b then "true".data else "false".data
  | .int n => fmtInt n
  | .float f => jsonFloat f
  | .str s => jsonString s.data
  | .arr xs => '[' :: joinComma (jsonMarshalList xs) ++ [']']
  | .obj kvs =>
    '{' :: joinComma ((sortKeys (jsonMarshalFields kvs)).map
      (fun kv => jsonString kv.1.data ++ ':' :: kv.2)) ++ ['}']
/-- The texts of the elements of a slice. -/
def jsonMarshalList : List GoVal → List (List Char)
  | [] => []
  | x :: xs => jsonMarshal x :: jsonMarshalList xs
/-- The keys and the texts of the members of an object. -/
def jsonMarshalFields : List (String × GoVal) → List (String × List Char)
  | [] => []
  | (k, v) :: kvs => (k, jsonMarshal v) :: jsonMarshalFields kvs
end

/-! ## `internal/config/types.go` -/

/-- The type `config.RateLimitCfg`. -/
structure RateLimitCfg where
  RequestsPerMinute : Int := 0

/-- The type `config.SchemasCfg`. -/
structure SchemasCfg where
  RequestJSONSchema : String := ""
  ResponseJSONSchema : String := ""

/-- The type `config.ScenarioCfg`. -/
structure ScenarioCfg where
  Name : String := ""
  Priority : Int := 0
  Match : Option MatchRules := none
  Status : Int := 0
  Headers : List (String × String) := []
  Body : GoVal := .null
  BodyBase64 : String := ""
  LatencyMS : Int := 0
  ErrorRatePct : Int := 0
  Weight : Int := 0

/-- The type `config.RouteCfg`. -/
structure RouteCfg where
  Method : String := ""
  PathTemplate : String := ""
  Strict : Bool := false
  Schemas : Option SchemasCfg := none
  Scenarios : List ScenarioCfg := []
  Default : Option ScenarioCfg := none

/-- The type `config.Config`. -/
structure Config where
  Project : String := ""
  BaseURL : String := ""
  APIKey : String := ""
  RateLimit : Option RateLimitCfg := none
  Env : List (String × String) := []
  Routes : List RouteCfg := []

/-- The type `snapshot.Snapshot`; the key set is held as the list of its keys. -/
structure Snapshot where
  Project : String := ""
  Env : List (String × String) := []
  APIKeys : List String := []
  RateLimit : Int := 0
  Routes : List CompiledRoute := []

/-! ## `internal/compile/build.go` -/

/-- The test `strings.HasPrefix(p, ":")`. -/
def isParam : List Char → Bool
  | ':' :: _ => true
  | _ => false

/-- What the loop of `compilePath` writes for one part: the group for a
parameter, the escaped text for a literal. -/
def partToks (p : List Char) : List Tok :=
  if isParam p then [.group] else p.map .lit

/-- What the loop of `compilePath` appends to `names` for one part. -/
def partNames (p : List Char) : List String :=
  if isParam p then [String.mk (p.drop 1)] else []

/-- The loop of `compilePath` over the parts, a `/` after every part but the
last. -/
def compileParts : List (List Char) → List Tok × List String
  | [] => ([], [])
  | [p] => (partToks p, partNames p)
  | p :: q :: rest =>
    (partToks p ++ .lit '/' :: (compileParts (q :: rest)).1,
      partNames p ++ (compileParts (q :: rest)).2)

/-- The function `compilePath`: the pattern `^/ ... $` and the parameter names. -/
def compilePath (tpl : String) : List Tok × List String :=
  (.lit '/' :: (compileParts (splitOn '/' (trimPrefix '/' tpl.data))).1,
    (compileParts (splitOn '/' (trimPrefix '/' tpl.data))).2)

/-- The function `ifZero`. -/
def ifZero (v alt : Int) : Int := if v = 0 then alt else v

/-- The function `ifEmpty`. -/
def ifEmpty (v alt : String) : String :=
  if trimBoth isSpace v.data = [] then alt else v

/-- The body of the loop over `rc.Scenarios` in `Build`. -/
def buildScenario (sc : ScenarioCfg) : CompiledScenario :=
  { Name := sc.Name
    Priority := if sc.Priority = 0 then 100 else sc.Priority
    Match := sc.Match
    Status := sc.Status
    Headers := sc.Headers
    BodyBytes := String.mk (jsonMarshal sc.Body)
    BodyIsBase64 := decide (sc.BodyBase64 ≠ "")
    LatencyMS := sc.LatencyMS
    ErrorRatePct := sc.ErrorRatePct
    Weight := if sc.Weight = 0 then 1 else sc.Weight }

/-- The compiled default scenario of `Build`. -/
def buildDefault (d : ScenarioCfg) : CompiledScenario :=
  { Name := ifEmpty d.Name "default"
    Priority := 999999
    Status := ifZero d.Status 200
    Headers := d.Headers
    BodyBytes := String.mk (jsonMarshal d.Body)
    LatencyMS := d.LatencyMS }

/-- The error of `Build`: the method and path template of the route whose
request schema does not compile. -/
structure BuildError where
  Method : String
  PathTemplate : String

/-- The compilation of the request schema of a route in `Build`; `compiles`
tells whether the JSON-Schema compiler accepts a schema text. -/
def buildSchema (compiles : String → Bool) (rc : RouteCfg) : Except BuildError (Option String) :=
  match rc.Schemas with
  | some sch =>
    if trimBoth isSpace sch.RequestJSONSchema.data ≠ [] then
      if compiles sch.RequestJSONSchema then .ok (some sch.RequestJSONSchema)
      else .error ⟨rc.Method, rc.PathTemplate⟩
    else .ok none
  | none => .ok none

/-- The body of the loop over `cfg.Routes` in `Build`. -/
def buildRoute (compiles : String → Bool) (rc : RouteCfg) : Except BuildError CompiledRoute :=
  match buildSchema compiles rc with
  | .error e => .error e
  | .ok sch =>
    .ok { Method := ToUpper rc.Method
          PathTemplate := rc.PathTemplate
          PathRE := (compilePath rc.PathTemplate).1
          ParamNames := (compilePath rc.PathTemplate).2
          Strict := rc.Strict
          ReqSchema := sch
          Scenarios := rc.Scenarios.map buildScenario
          Default := rc.Default.map buildDefault }

/-- The loop over `cfg.Routes` in `Build`: the first failing route ends it. -/
def buildRoutes (compiles : String → Bool) : List RouteCfg → Except BuildError (List CompiledRoute)
  | [] => .ok []
  | rc :: rest =>
    match buildRoute compiles rc with
    | .error e => .error e
    | .ok cr =>
      match buildRoutes compiles rest with
      | .error e => .error e
      | .ok crs => .ok (cr :: crs)

/-- The function `Build`. -/
def Build (compiles : String → Bool) (cfg : Config) : Except BuildError Snapshot :=
  let project := if cfg.Project = "" then "demo" else cfg.Project
  let rpm : Int :=
    match cfg.RateLimit with
    | some rl => if rl.RequestsPerMinute > 0 then rl.RequestsPerMinute else 0
    | none => 0
  match buildRoutes compiles cfg.Routes with
  | .error e => .error e
  | .ok routes =>
    .ok { Project := project, Env := cfg.Env, APIKeys := [cfg.APIKey], RateLimit := rpm,
          Routes := routes }

/-- Segment-wise comparison of the parts of a template with the segments of a
path, as the specification words it: as many segments as parts, a literal part
equal to its segment, a parameter part taking its segment as value, which must
not be empty; the values in template order. -/
def matchSegs : List (List Char) → List (List Char) → Option (List (List Char))
  | [], [] => some []
  | p :: ps, s :: ss =>
    if isParam p then
      if s ≠ [] then (matchSegs ps ss).map (fun caps => s :: caps) else none
    else if s = p then matchSegs ps ss else none
  | _, _ => none

/-- The specified matcher of a template: the path starts with `/` and its
segments, the texts between the `/`, match the parts of the template. -/
def matchTemplate (tpl : String) (path : List Char) : Option (List (List Char)) :=
  match path with
  | '/' :: rest => matchSegs (splitOn '/' (trimPrefix '/' tpl.data)) (splitOn '/' rest)
  | _ => none

/-- What may follow a part in a pattern of `compilePath`: the end, or the `/`
before the next part. -/
def EndOrSlash (ts : List Tok) : Prop := ts = [] ∨ ∃ ts', ts = Tok.lit '/' :: ts'

/-- What the specification asks of a part and its segment: a parameter takes a
non-empty segment, a literal part equals its segment. -/
def SegmentFits (p s : List Char) : Prop :=
  if isParam p then s ≠ [] else s = p

/-- The segments at the parameter positions of a template, in template order. -/
def paramValues : List (List Char) → List (List Char) → List (List Char)
  | p :: ps, s :: ss => if isParam p then s :: paramValues ps ss else paramValues ps ss
  | _, _ => []

/-- The number of groups of a pattern. -/
def groupCount : List Tok → Nat
  | [] => 0
  | .group :: ts => groupCount ts + 1
  | .lit _ :: ts => groupCount ts

/-- The loop `for i, name := range cr.ParamNames { params[name] = m[i+1] }` of
`handleRuntime`, from index `i` on; reading `m` past its end is a panic. -/
def bindParamsFrom (m : List String) :
    Nat → List String → List (String × String) → Except Fault (List (String × String))
  | _, [], params => .ok params
  | i, name :: rest, params =>
    match m.get? (i + 1) with
    | none => .error .indexOutOfRange
    | some v => bindParamsFrom m (i + 1) rest (strMapSet params name v)

/-- The parameters that `handleRuntime` binds for a match `m` of a route. -/
def bindParams (names : List String) (m : List String) : Except Fault (List (String × String)) :=
  bindParamsFrom m 0 names []

/-- The route loop of `handleRuntime`: the first route of the request's method
whose pattern matches the path, with the bound parameters. -/
def matchRoute (method path : String) :
    List CompiledRoute → Except Fault (Option (CompiledRoute × List (String × String)))
  | [] => .ok none
  | cr :: rest =>
    if cr.Method ≠ method then matchRoute method path rest
    else
      match FindStringSubmatch cr.PathRE path with
      | some m =>
        match bindParams cr.ParamNames m with
        | .error e => .error e
        | .ok params => .ok (some (cr, params))
      | none => matchRoute method path rest

/-- A configuration with the route `GET /widgets/:id`. -/
def cfgWidgets : Config :=
  { Project := "shop", APIKey := "k1",
    Routes := [{ Method := "get", PathTemplate := "/widgets/:id",
                 Scenarios := [{ Name := "ok", Body := .obj [("id", .str "{{params.id}}")] }] }] }

/-! ## `internal/templating/templating.go` -/

/-- The scan of `strings.ReplaceAll(s, old, new)` for a non-empty `old`, left
to right without overlap; the first argument counts the characters of a match
of `old` still to be passed over. -/
def replaceFrom (old new : List Char) : Nat → List Char → List Char
  | _, [] => []
  | skip + 1, _ :: cs => replaceFrom old new skip cs
  | 0, c :: cs =>
    if old.isPrefixOf (c :: cs) then new ++ replaceFrom old new (old.length - 1) cs
    else c :: replaceFrom old new 0 cs

/-- The function `strings.ReplaceAll`; an empty `old` matches before every
character and at the end. -/
def ReplaceAll (s old new : String) : String :=
  if old.data = [] then String.mk (new.data ++ s.data.flatMap (fun c => c :: new.data))
  else String.mk (replaceFrom old.data new.data 0 s.data)

/-- The assignments to `repl` in `RenderTokens`, in program order, the entries
of each ranged-over map in list order; `now` is the text of
`time.Now().UTC().Format(time.RFC3339)`. In the pieces of a key the braces are
written as the escapes `\x7b` (for `{`) and `\x7d` (for `}`). -/
def replEntries (now : String) (params : List (String × String))
    (query header : List (String × List String)) (env : List (String × String))
    (body : Option (List (String × GoVal))) : List (String × String) :=
  [("{{now.iso}}", now)]
    ++ params.map (fun kv => ("\x7b\x7bparams." ++ kv.1 ++ "\x7d\x7d", kv.2))
    ++ query.filterMap
        (fun kv => kv.2.head?.map (fun v => ("\x7b\x7bquery." ++ kv.1 ++ "\x7d\x7d", v)))
    ++ header.filterMap
        (fun kv => kv.2.head?.map (fun v => ("\x7b\x7bheader." ++ ToLower kv.1 ++ "\x7d\x7d", v)))
    ++ env.map (fun kv => ("\x7b\x7benv." ++ kv.1 ++ "\x7d\x7d", kv.2))
    ++ (match body with
        | some b => [("{{body}}", String.mk (jsonMarshal (.obj b)))]
        | none => [])

/-- The map `repl` that `RenderTokens` builds. -/
def replMap (now : String) (params : List (String × String))
    (query header : List (String × List String)) (env : List (String × String))
    (body : Option (List (String × GoVal))) : List (String × String) :=
  (replEntries now params query header env body).foldl (fun m kv => strMapSet m kv.1 kv.2) []

/-- The loop `for k, v := range repl { out = strings.ReplaceAll(out, k, v) }` on
the entries in the order given. -/
def applyRepl (entries : List (String × String)) (s : String) : String :=
  entries.foldl (fun out kv => ReplaceAll out kv.1 kv.2) s

/-- The function `RenderTokens`; `order` is the order in which the `range` over
the map `repl` yields its entries, and `now` the text of the current time. -/
def RenderTokens (order : List (String × String) → List (String × String)) (now : String)
    (s : String) (params : List (String × String))
    (query header : List (String × List String)) (env : List (String × String))
    (body : Option (List (String × GoVal))) : String :=
  applyRepl (order (replMap now params query header env body)) s

/-- An order of iteration over a map: some arrangement of its entries. -/
def IterOrder (order : List (String × String) → List (String × String)) : Prop :=
  ∀ m, (order m).Perm m

/-- A configuration whose route has a scenario with absent weight and priority,
one with weight 5 and priority 7, and a default with a blank name and absent
status. -/
def cfgDefaults : Config :=
  { Routes := [{ Method := "post", PathTemplate := "/orders",
                 Scenarios := [{ Name := "plain" }, { Name := "vip", Weight := 5, Priority := 7 }],
                 Default := some { Name := "  ", Body := .str "none" } }] }

/-- The table that `Build` returns for `cfgDefaults`. -/
def snapDefaults : Snapshot :=
  match Build (fun _ => true) cfgDefaults with
  | .ok snap => snap
  | .error _ => {}

/-- A text is blank: it holds white space only. -/
def isBlank (s : String) : Bool := s.data.all isSpace

/-! ## `internal/server/server.go` -/

/-- The call `strings.Contains(s, sub)`. -/
def containsSub (sub : List Char) : List Char → Bool
  | [] => sub.isEmpty
  | c :: cs => sub.isPrefixOf (c :: cs) || containsSub sub cs

/-- A decoder, `json.Unmarshal` or `yaml.Unmarshal`, applied to a document and
to the configuration value it decodes into: the value after the call, and
whether the call returned no error. -/
def Decoder : Type := String → Config → Config × Bool

/-- What `handleImport` reads of a request: whether the body could be read, the
`content-type` header, and the body. -/
structure ImportRequest where
  ReadOK : Bool := true
  ContentType : String := ""
  Body : String := ""

/-- The decoding of the document in `handleImport`: YAML when the content type
says so, else JSON and, when that fails, YAML into the same value; `none` is
the 400 response. -/
def decodeImport (jsonUnmarshal yamlUnmarshal : Decoder) (req : ImportRequest) : Option Config :=
  if containsSub "yaml".data (ToLower req.ContentType).data ∨
      containsSub "yml".data (ToLower req.ContentType).data then
    if (yamlUnmarshal req.Body {}).2 then some (yamlUnmarshal req.Body {}).1 else none
  else if (jsonUnmarshal req.Body {}).2 then some (jsonUnmarshal req.Body {}).1
  else if (yamlUnmarshal req.Body (jsonUnmarshal req.Body {}).1).2 then
    some (yamlUnmarshal req.Body (jsonUnmarshal req.Body {}).1).1
  else none

/-- The function `handleImport` on the active table `s.snap`: the active table
after the call and the status of the response. -/
def handleImport (jsonUnmarshal yamlUnmarshal : Decoder) (compiles : String → Bool)
    (active : Snapshot) (req : ImportRequest) : Snapshot × Nat :=
  if req.ReadOK = false then (active, 400)
  else
    match decodeImport jsonUnmarshal yamlUnmarshal req with
    | none => (active, 400)
    | some cfg =>
      match Build compiles cfg with
      | .error _ => (active, 400)
      | .ok snap => (snap, 200)

/-- The middleware `requireRuntimeKey`: the table it loads from `s.snap`, and
the status with which it aborts the request, if it does; `allow` is the answer
of the rate limiter. -/
def requireRuntimeKey (active : Snapshot) (key : String) (allow : Bool) : Snapshot × Option Nat :=
  (active,
    if active.APIKeys.contains key = false then some 401
    else if active.RateLimit > 0 ∧ allow = false then some 429
    else none)

/-- The start of `handleRuntime`: the table it loads from `s.snap` and the
route it resolves in that table. -/
def handleRuntimeRoute (active : Snapshot) (method path : String) :
    Snapshot × Except Fault (Option (CompiledRoute × List (String × String))) :=
  (active,
    matchRoute (ToUpper method) (String.mk ('/' :: trimPrefix '/' path.data)) active.Routes)

/-- The tables one request sees: the one its key was checked against and, when
the request was not aborted, the one it was handled with. -/
structure RequestView where
  Checked : Snapshot
  Status : Option Nat
  Used : Option Snapshot

/-- A runtime request on a server whose active table is `active`, with the
imports that the server handles between the middleware and the handler of the
request. -/
def serveRequest (jsonUnmarshal yamlUnmarshal : Decoder) (compiles : String → Bool)
    (active : Snapshot) (between : List ImportRequest) (key : String) (allow : Bool)
    (method path : String) : RequestView :=
  let checked := requireRuntimeKey active key allow
  match checked.2 with
  | some status => ⟨checked.1, some status, none⟩
  | none =>
    let active' := between.foldl
      (fun s req => (handleImport jsonUnmarshal yamlUnmarshal compiles s req).1) active
    ⟨checked.1, none, some (handleRuntimeRoute active' method path).1⟩

/-- The table with which `main` starts the server. -/
def snapInitial : Snapshot :=
  { Project := "demo", Env := [("market", "IN")], APIKeys := ["DEMO_KEY"], RateLimit := 60 }

/-- A decoder that reads the document `widgets` as `cfgWidgets` and fails on
every other document. -/
def decodeWidgets : Decoder :=
  fun doc cfg => if doc = "widgets" then (cfgWidgets, true) else (cfg, false)

/-- A configuration whose route has a request schema. -/
def cfgSchema : Config :=
  { Project := "p", Routes := [{ Method := "post", PathTemplate := "/orders",
                                 Schemas := some { RequestJSONSchema := "\x7bnot a schema" } }] }

/-! ## Specification-side notions for templates -/

/-- A piece of a template text: a stretch of plain text, or a token, written
`{{name}}`. -/
inductive Item where
  | text (c : List Char)
  | token (name : List Char)

/-- The text of a piece. -/
def Item.render : Item → List Char
  | .text c => c
  | .token n => '{' :: '{' :: n ++ ['}', '}']

/-- The text of a sequence of pieces. -/
def renderItems (items : List Item) : List Char := items.flatMap Item.render

/-- Plain text holds no `{{` and does not end in `{`. -/
def plainText : List Char → Bool
  | [] => true
  | c :: cs =>
    (c != '{' || (match cs with
      | [] => false
      | d :: _ => d != '{')) && plainText cs

/-- A name without braces. -/
def braceFree (n : List Char) : Bool := n.all (fun c => c != '{' && c != '}')

/-- A piece is well formed: plain text, or a token with a name without braces. -/
def Item.wellFormed : Item → Bool
  | .text c => plainText c
  | .token n => braceFree n

/-- The key under which the token `name` stands in the map `repl`. -/
def tokenKey (name : List Char) : String := String.mk ('{' :: '{' :: name ++ ['}', '}'])

/-- The replacement of the token `name` by the text `v` in one piece. -/
def substOne (name v : List Char) : Item → Item
  | .token n => if n = name then .text v else .token n
  | .text c => .text c

/-- The replacement of every token that has a value by its value. -/
def substAll (value : List Char → Option String) : Item → Item
  | .token n =>
    match value n with
    | some v => .text v.data
    | none => .token n
  | .text c => .text c

/-- A read `m[k]` of a `map[string]string` with a presence flag: the first
entry for the key. -/
def strMapGet : List (String × String) → String → Option String
  | [], _ => none
  | (k', v) :: rest, k => if k' = k then some v else strMapGet rest k

/-- The value of the last entry for a key in a list of pairs; in a map, whose
keys are distinct, the value of the key. -/
def lookupLast : List (String × String) → String → Option String
  | [], _ => none
  | (k', v) :: rest, k =>
    match lookupLast rest k with
    | some w => some w
    | none => if k' = k then some v else none

/-- What is left of a text after a given prefix. -/
def stripPre : List Char → List Char → Option (List Char)
  | [], n => some n
  | _ :: _, [] => none
  | c :: cs, x :: xs => if c = x then stripPre cs xs else none

/-- The first values of the keys of a `map[string][]string` that have a value. -/
def firstValues (m : List (String × List String)) : List (String × String) :=
  m.filterMap (fun kv => kv.2.head?.map (fun v => (kv.1, v)))

/-- The header names in lower case with their first values. -/
def headerValues (header : List (String × List String)) : List (String × String) :=
  (firstValues header).map (fun kv => (ToLower kv.1, kv.2))

/-- The value of a token name of the class `cls` (`params.`, `query.`, ...):
the value of the rest of the name among the pairs of that class. -/
def classValue (cls : String) (pairs : List (String × String)) (n : List Char) : Option String :=
  match stripPre cls.data n with
  | some k => lookupLast pairs (String.mk k)
  | none => none

/-- The first of two optional values that is present. -/
def orElseOpt (a b : Option String) : Option String :=
  match a with
  | some w => some w
  | none => b

/-- The value of a token name, as the specification lists the token classes:
`body` (the JSON text of the body, when there is one), `env.k`, `header.k`
(first value, name in lower case), `query.k` (first value), `params.k`,
`now.iso`; no value for any other name. -/
def tokenValue (now : String) (params : List (String × String))
    (query header : List (String × List String)) (env : List (String × String))
    (body : Option (List (String × GoVal))) (n : List Char) : Option String :=
  orElseOpt (if n = "body".data then body.map (fun b => String.mk (jsonMarshal (.obj b))) else none)
    (orElseOpt (classValue "env." env n)
      (orElseOpt (classValue "header." (headerValues header) n)
        (orElseOpt (classValue "query." (firstValues query) n)
          (orElseOpt (classValue "params." params n)
            (if n = "now.iso".data then some now else none)))))

/-- Names without braces and values that are plain text. -/
def plainPairs (pairs : List (String × String)) : Bool :=
  pairs.all (fun kv => braceFree kv.1.data && plainText kv.2.data)

/-- The inputs of a rendering have token names without braces and values that
are plain text. -/
def plainInputs (now : String) (params : List (String × String))
    (query header : List (String × List String)) (env : List (String × String))
    (body : Option (List (String × GoVal))) : Bool :=
  plainText now.data && plainPairs params && plainPairs (firstValues query) &&
    plainPairs (firstValues header) && plainPairs env &&
    (match body with
     | some b => plainText (jsonMarshal (.obj b))
     | none => true)

/-- A name has an upper-case ASCII letter. -/
def hasUpper (s : String) : Bool := s.data.any (fun c => 65 ≤ c.toNat && c.toNat ≤ 90)

/-! ## The key of a runtime request -/

/-- The call `c.GetHeader(name)` of gin, which is `http.Header.Get`: the first
value under the canonical form of the name, the empty text when the header is
absent or has no value. -/
def GetHeader (h : List (String × List String)) (name : String) : String :=
  match valuesGet h (CanonicalHeaderKey name) with
  | [] => ""
  | v :: _ => v

/-- A configuration without `api_key` and with a rate limit. -/
def cfgOpen : Config :=
  { Project := "open", RateLimit := some { RequestsPerMinute := 30 },
    Routes := [{ Method := "get", PathTemplate := "/ping" }] }

/-- The table that `Build` returns for `cfgOpen`. -/
def snapOpen : Snapshot :=
  match Build (fun _ => true) cfgOpen with
  | .ok snap => snap
  | .error _ => {}

/-! ## Theorems -/

/-! ### Weighted selection -/

theorem wrapInt_of_range (x : Int) (h1 : -2 ^ 63 ≤ x) (h2 : x < 2 ^ 63) : wrapInt x = x := by
  unfold wrapInt
  omega

theorem totalWeight_cons (s : CompiledScenario) (l : List CompiledScenario) :
    totalWeight (s :: l) = s.Weight + totalWeight l := by
  simp [totalWeight]

theorem totalWeight_pos {l : List CompiledScenario} (hpos : ∀ s ∈ l, 0 < s.Weight) (hne : l ≠ []) :
    0 < totalWeight l := by
  induction l with
  | nil => exact absurd rfl hne
  | cons s l ih =>
    rw [totalWeight_cons]
    have hs := hpos s (List.mem_cons_self _ _)
    by_cases hl : l = []
    · subst hl; simpa [totalWeight] using hs
    · have := ih (fun t ht => hpos t (List.mem_cons_of_mem _ ht)) hl
      omega

theorem totalWeight_nonneg {l : List CompiledScenario} (hpos : ∀ s ∈ l, 0 < s.Weight) :
    0 ≤ totalWeight l := by
  by_cases hl : l = []
  · subst hl; simp [totalWeight]
  · exact le_of_lt (totalWeight_pos hpos hl)

theorem runningWeight_zero (l : List CompiledScenario) : runningWeight l 0 = 0 := by
  simp [runningWeight, totalWeight]

theorem runningWeight_cons_succ (s : CompiledScenario) (l : List CompiledScenario) (k : Nat) :
    runningWeight (s :: l) (k + 1) = s.Weight + runningWeight l k := by
  simp [runningWeight, totalWeight]

theorem weightSum_foldl {l : List CompiledScenario} (hpos : ∀ s ∈ l, 0 < s.Weight) :
    ∀ acc : Int, 0 ≤ acc → acc + totalWeight l < 2 ^ 63 →
      l.foldl (fun sum s => wrapInt (sum + (if s.Weight ≤ 0 then 1 else s.Weight))) acc
        = acc + totalWeight l := by
  induction l with
  | nil => intro acc _ _; simp [totalWeight]
  | cons s l ih =>
    intro acc h0 hlt
    have hs := hpos s (List.mem_cons_self _ _)
    have hl : ∀ t ∈ l, 0 < t.Weight := fun t ht => hpos t (List.mem_cons_of_mem _ ht)
    have hnn := totalWeight_nonneg hl
    rw [totalWeight_cons] at hlt ⊢
    have hif : (if s.Weight ≤ 0 then (1 : Int) else s.Weight) = s.Weight := by
      rw [if_neg (by omega)]
    simp only [List.foldl_cons, hif]
    rw [wrapInt_of_range _ (by omega) (by omega), ih hl _ (by omega) (by omega)]
    omega

theorem weightSum_eq_total {l : List CompiledScenario} (hpos : ∀ s ∈ l, 0 < s.Weight)
    (hT : totalWeight l < 2 ^ 63) : weightSum l = totalWeight l := by
  have := weightSum_foldl hpos 0 (le_refl _) (by simpa using hT)
  simpa [weightSum] using this

theorem weightedWalk_spec (n : Int) : ∀ (l : List CompiledScenario) (acc : Int),
    (∀ s ∈ l, 0 < s.Weight) → 0 ≤ acc → acc + totalWeight l < 2 ^ 63 →
    acc ≤ n → n < acc + totalWeight l →
    ∃ k, ∃ hk : k < l.length, weightedWalk n acc l = some (l.get ⟨k, hk⟩) ∧
      n < acc + runningWeight l (k + 1) ∧ ∀ j, j < k → acc + runningWeight l (j + 1) ≤ n := by
  intro l
  induction l with
  | nil =>
    intro acc _ _ _ h1 h2
    simp [totalWeight] at h2
    omega
  | cons s l ih =>
    intro acc hpos h0 hlt h1 h2
    have hs := hpos s (List.mem_cons_self _ _)
    have hl : ∀ t ∈ l, 0 < t.Weight := fun t ht => hpos t (List.mem_cons_of_mem _ ht)
    have hnn := totalWeight_nonneg hl
    rw [totalWeight_cons] at hlt h2
    have hw : wrapInt (acc + s.Weight) = acc + s.Weight :=
      wrapInt_of_range _ (by omega) (by omega)
    by_cases hn : n < acc + s.Weight
    · refine ⟨0, by simp, ?_, ?_, ?_⟩
      · simp [weightedWalk, hw, hn]
      · rw [runningWeight_cons_succ, runningWeight_zero]; omega
      · intro j hj; omega
    · obtain ⟨k, hk, hwalk, hlt', hmin⟩ :=
        ih (acc + s.Weight) hl (by omega) (by omega) (by omega) (by omega)
      refine ⟨k + 1, by simpa using hk, ?_, ?_, ?_⟩
      · simp only [weightedWalk, hw, if_neg hn, hwalk]
        simp
      · rw [runningWeight_cons_succ]; omega
      · intro j hj
        rw [runningWeight_cons_succ]
        cases j with
        | zero => rw [runningWeight_zero]; omega
        | succ j => have := hmin j (by omega); omega

/-! ### The stable sort and the walk over priority groups -/

theorem mem_insertByPriority {x s : CompiledScenario} {l : List CompiledScenario} :
    x ∈ insertByPriority s l ↔ x = s ∨ x ∈ l := by
  induction l with
  | nil => simp [insertByPriority]
  | cons t ts ih =>
    unfold insertByPriority
    split
    · simp only [List.mem_cons, ih]; tauto
    · simp only [List.mem_cons]

theorem mem_sortSliceStable {x : CompiledScenario} {l : List CompiledScenario} :
    x ∈ sortSliceStable l ↔ x ∈ l := by
  induction l with
  | nil => simp [sortSliceStable]
  | cons t ts ih => simp only [sortSliceStable, mem_insertByPriority, ih, List.mem_cons]

theorem length_insertByPriority (s : CompiledScenario) (l : List CompiledScenario) :
    (insertByPriority s l).length = l.length + 1 := by
  induction l with
  | nil => simp [insertByPriority]
  | cons t ts ih =>
    unfold insertByPriority
    split <;> simp [ih]

theorem ascending_insertByPriority (s : CompiledScenario) {l : List CompiledScenario}
    (h : Ascending l) : Ascending (insertByPriority s l) := by
  induction l with
  | nil => simp [insertByPriority, Ascending]
  | cons t ts ih =>
    unfold Ascending at h ih ⊢
    rw [List.pairwise_cons] at h
    unfold insertByPriority
    split
    · rename_i hlt
      rw [List.pairwise_cons]
      refine ⟨?_, ih h.2⟩
      intro x hx
      rcases mem_insertByPriority.mp hx with rfl | hx
      · exact le_of_lt hlt
      · exact h.1 x hx
    · rename_i hge
      have hst : s.Priority ≤ t.Priority := not_lt.mp hge
      rw [List.pairwise_cons, List.pairwise_cons]
      refine ⟨?_, h⟩
      intro x hx
      rcases List.mem_cons.mp hx with rfl | hx
      · exact hst
      · exact le_trans hst (h.1 x hx)

theorem ascending_sortSliceStable (l : List CompiledScenario) : Ascending (sortSliceStable l) := by
  induction l with
  | nil => simp [sortSliceStable, Ascending]
  | cons t ts ih => exact ascending_insertByPriority t ih

/-- Stability: a filter that selects within one priority sees the same list
before and after an insertion. -/
theorem filter_insertByPriority (q : CompiledScenario → Bool) (p : Int)
    (hq : ∀ t, q t = true → t.Priority = p) (s : CompiledScenario) (l : List CompiledScenario) :
    (insertByPriority s l).filter q = (s :: l).filter q := by
  induction l with
  | nil => simp [insertByPriority]
  | cons t ts ih =>
    unfold insertByPriority
    split
    · rename_i hlt
      rw [List.filter_cons, ih]
      by_cases hs : q s = true
      · have ht : ¬ (q t = true) := by
          intro ht
          have h1 := hq s hs
          have h2 := hq t ht
          omega
        simp [List.filter_cons, hs, ht]
      · by_cases ht : q t = true <;> simp [List.filter_cons, hs, ht]
    · rfl

/-- Stability of the sort, seen through a filter that selects within one
priority. -/
theorem filter_sortSliceStable (q : CompiledScenario → Bool) (p : Int)
    (hq : ∀ t, q t = true → t.Priority = p) (l : List CompiledScenario) :
    (sortSliceStable l).filter q = l.filter q := by
  induction l with
  | nil => simp [sortSliceStable]
  | cons t ts ih =>
    rw [sortSliceStable, filter_insertByPriority q p hq, List.filter_cons, List.filter_cons, ih]

theorem matchingAt_sortSliceStable (ctx : MatchContext) (p : Int) (l : List CompiledScenario) :
    matchingAt ctx p (sortSliceStable l) = matchingAt ctx p l := by
  unfold matchingAt
  apply filter_sortSliceStable _ p
  intro t ht
  simp only [Bool.and_eq_true, decide_eq_true_eq] at ht
  exact ht.2

theorem takeWhile_eq_filter_of_ascending (s : CompiledScenario) :
    ∀ rest : List CompiledScenario, Ascending (s :: rest) →
      rest.takeWhile (fun t => decide (t.Priority = s.Priority))
        = rest.filter (fun t => decide (t.Priority = s.Priority)) := by
  intro rest
  induction rest with
  | nil => intro _; rfl
  | cons r rs ih =>
    intro h
    unfold Ascending at h ih
    rw [List.pairwise_cons, List.pairwise_cons] at h
    have hs : Ascending (s :: rs) := by
      unfold Ascending
      rw [List.pairwise_cons]
      exact ⟨fun x hx => h.1 x (List.mem_cons_of_mem _ hx), h.2.2⟩
    by_cases hr : r.Priority = s.Priority
    · simp only [List.takeWhile_cons, List.filter_cons, hr, decide_True, if_true]
      rw [← ih hs]
    · have hlt : s.Priority < r.Priority :=
        lt_of_le_of_ne (h.1 r (List.mem_cons_self _ _)) (Ne.symm hr)
      simp only [List.takeWhile_cons, List.filter_cons, hr, decide_False, Bool.false_eq_true,
        if_false]
      symm
      rw [List.filter_eq_nil_iff]
      intro x hx
      have := h.2.1 x hx
      simp only [decide_eq_true_eq]
      omega

theorem ascending_dropWhile (q : CompiledScenario → Bool) {l : List CompiledScenario}
    (h : Ascending l) : Ascending (l.dropWhile q) :=
  List.Pairwise.sublist (List.dropWhile_sublist q) h

theorem pickLoop_none (ctx : MatchContext) (seed : Int) :
    ∀ (fuel : Nat) (l : List CompiledScenario), l.length ≤ fuel →
      (∀ t ∈ l, rulesOK t.Match ctx = false) → pickLoop ctx seed fuel l = .ok none := by
  intro fuel
  induction fuel with
  | zero =>
    intro l hl _
    have : l = [] := List.length_eq_zero.mp (Nat.le_zero.mp hl)
    subst this
    rfl
  | succ fuel ih =>
    intro l hl hno
    cases l with
    | nil => rfl
    | cons s rest =>
      have hcand : (s :: rest.takeWhile (fun t => decide (t.Priority = s.Priority))).filter
          (fun t => rulesOK t.Match ctx) = [] := by
        rw [List.filter_eq_nil_iff]
        intro x hx
        have hx' : x ∈ s :: rest := by
          rcases List.mem_cons.mp hx with rfl | hx
          · exact List.mem_cons_self _ _
          · exact List.mem_cons_of_mem _ ((List.takeWhile_sublist _).subset hx)
        simp [hno x hx']
      simp only [pickLoop, hcand, List.length_nil, gt_iff_lt, lt_self_iff_false, if_false]
      apply ih
      · have := (List.dropWhile_sublist (fun t => decide (t.Priority = s.Priority))
          (l := rest)).length_le
        simp only [List.length_cons] at hl
        omega
      · intro t ht
        exact hno t (List.mem_cons_of_mem _ ((List.dropWhile_sublist _).subset ht))

theorem group_candidates_eq (ctx : MatchContext) (s : CompiledScenario)
    (rest : List CompiledScenario) (h : Ascending (s :: rest)) :
    (s :: rest.takeWhile (fun t => decide (t.Priority = s.Priority))).filter
        (fun t => rulesOK t.Match ctx) = matchingAt ctx s.Priority (s :: rest) := by
  rw [takeWhile_eq_filter_of_ascending s rest h]
  have : s :: rest.filter (fun t => decide (t.Priority = s.Priority))
      = (s :: rest).filter (fun t => decide (t.Priority = s.Priority)) := by
    simp [List.filter_cons]
  rw [this, List.filter_filter]
  rfl

theorem pickLoop_some (ctx : MatchContext) (seed : Int) :
    ∀ (fuel : Nat) (l : List CompiledScenario), l.length ≤ fuel → Ascending l →
      ∀ m, m ∈ l → rulesOK m.Match ctx = true →
      (∀ t ∈ l, rulesOK t.Match ctx = true → m.Priority ≤ t.Priority) →
      pickLoop ctx seed fuel l =
        match weightedPick seed (matchingAt ctx m.Priority l) with
        | .error e => .error e
        | .ok r => .ok (some r) := by
  intro fuel
  induction fuel with
  | zero =>
    intro l hl _ m hm
    have : l = [] := List.length_eq_zero.mp (Nat.le_zero.mp hl)
    subst this
    cases hm
  | succ fuel ih =>
    intro l hl hasc m hm hmok hmin
    cases l with
    | nil => cases hm
    | cons s rest =>
      have hgrp := group_candidates_eq ctx s rest hasc
      have hsm : s.Priority ≤ m.Priority := by
        rcases List.mem_cons.mp hm with rfl | hm'
        · exact le_refl _
        · exact (List.pairwise_cons.mp hasc).1 m hm'
      by_cases hc : matchingAt ctx s.Priority (s :: rest) = []
      · -- no candidate in this group: go on with the next group
        have hne : m.Priority ≠ s.Priority := by
          intro heq
          have : m ∈ matchingAt ctx s.Priority (s :: rest) := by
            unfold matchingAt
            rw [List.mem_filter]
            exact ⟨hm, by simp [hmok, heq]⟩
          rw [hc] at this
          cases this
        have hsplit : rest = rest.takeWhile (fun t => decide (t.Priority = s.Priority))
            ++ rest.dropWhile (fun t => decide (t.Priority = s.Priority)) :=
          (List.takeWhile_append_dropWhile _ rest).symm
        have hpre : ∀ t ∈ s :: rest.takeWhile (fun t => decide (t.Priority = s.Priority)),
            t.Priority = s.Priority := by
          intro t ht
          rcases List.mem_cons.mp ht with rfl | ht
          · rfl
          · simpa using List.mem_takeWhile_imp ht
        have hm' : m ∈ rest.dropWhile (fun t => decide (t.Priority = s.Priority)) := by
          have : m ∈ s :: rest := hm
          rw [hsplit, ← List.cons_append, List.mem_append] at this
          rcases this with h1 | h2
          · exact absurd (hpre m h1) hne
          · exact h2
        have hfil : matchingAt ctx m.Priority (s :: rest)
            = matchingAt ctx m.Priority
                (rest.dropWhile (fun t => decide (t.Priority = s.Priority))) := by
          unfold matchingAt
          conv_lhs => rw [hsplit, ← List.cons_append, List.filter_append]
          have : (s :: rest.takeWhile (fun t => decide (t.Priority = s.Priority))).filter
              (fun t => rulesOK t.Match ctx && decide (t.Priority = m.Priority)) = [] := by
            rw [List.filter_eq_nil_iff]
            intro t ht
            have := hpre t ht
            simp only [Bool.and_eq_true, decide_eq_true_eq, not_and]
            intro _ h2
            exact hne (by omega)
          rw [this, List.nil_append]
        have hlen := (List.dropWhile_sublist (fun t => decide (t.Priority = s.Priority))
          (l := rest)).length_le
        simp only [List.length_cons] at hl
        have hrec := ih (rest.dropWhile (fun t => decide (t.Priority = s.Priority)))
          (by omega) (ascending_dropWhile _ (List.Pairwise.of_cons hasc)) m hm' hmok
          (fun t ht hok => hmin t
            (List.mem_cons_of_mem _ ((List.dropWhile_sublist _).subset ht)) hok)
        simp only [pickLoop, hgrp, hc, List.length_nil, gt_iff_lt, lt_self_iff_false, if_false]
        rw [hrec, hfil]
      · -- this group has a candidate: its priority is the least matching one
        obtain ⟨c, hcmem⟩ := List.exists_mem_of_ne_nil _ hc
        have hc' := hcmem
        unfold matchingAt at hc'
        rw [List.mem_filter] at hc'
        simp only [Bool.and_eq_true, decide_eq_true_eq] at hc'
        have hmc := hmin c hc'.1 hc'.2.1
        have heq : m.Priority = s.Priority := by omega
        have hpos : (matchingAt ctx s.Priority (s :: rest)).length > 0 :=
          List.length_pos.mpr hc
        simp only [pickLoop, hgrp, hpos, if_true, heq]

theorem exists_min_matching (q : CompiledScenario → Bool) :
    ∀ l : List CompiledScenario, (∃ s ∈ l, q s = true) →
      ∃ m ∈ l, q m = true ∧ ∀ t ∈ l, q t = true → m.Priority ≤ t.Priority := by
  intro l
  induction l with
  | nil => rintro ⟨s, hs, _⟩; cases hs
  | cons a l ih =>
    rintro ⟨s, hs, hq⟩
    by_cases hl : ∃ s ∈ l, q s = true
    · obtain ⟨m, hm, hqm, hmin⟩ := ih hl
      by_cases ha : q a = true ∧ a.Priority < m.Priority
      · refine ⟨a, List.mem_cons_self _ _, ha.1, ?_⟩
        intro t ht hqt
        rcases List.mem_cons.mp ht with rfl | ht
        · exact le_refl _
        · have := hmin t ht hqt; omega
      · refine ⟨m, List.mem_cons_of_mem _ hm, hqm, ?_⟩
        intro t ht hqt
        rcases List.mem_cons.mp ht with rfl | ht
        · by_contra hlt
          exact ha ⟨hqt, by omega⟩
        · exact hmin t ht hqt
    · have hsa : s = a := by
        rcases List.mem_cons.mp hs with rfl | hs'
        · rfl
        · exact absurd ⟨s, hs', hq⟩ hl
      subst hsa
      refine ⟨s, List.mem_cons_self _ _, hq, ?_⟩
      intro t ht hqt
      rcases List.mem_cons.mp ht with rfl | ht
      · exact le_refl _
      · exact absurd ⟨t, ht, hqt⟩ hl

/-- When some scenario matches, `PickScenario` is `weightedPick` on the matching
scenarios of the least matching priority, in the order of the configuration. -/
theorem PickScenario_eq_weightedPick (seed : Int) (rt : CompiledRoute) (ctx : MatchContext)
    (m : CompiledScenario) (hm : m ∈ rt.Scenarios) (hok : rulesOK m.Match ctx = true)
    (hmin : ∀ t ∈ rt.Scenarios, rulesOK t.Match ctx = true → m.Priority ≤ t.Priority) :
    PickScenario seed rt ctx = weightedPick seed (matchingAt ctx m.Priority rt.Scenarios) := by
  have h := pickLoop_some ctx seed (sortSliceStable rt.Scenarios).length
    (sortSliceStable rt.Scenarios) (le_refl _) (ascending_sortSliceStable _) m
    (mem_sortSliceStable.mpr hm) hok
    (fun t ht => hmin t (mem_sortSliceStable.mp ht))
  rw [matchingAt_sortSliceStable] at h
  unfold PickScenario
  simp only [h]
  cases weightedPick seed (matchingAt ctx m.Priority rt.Scenarios) <;> rfl

/-- When no scenario matches, the loop of `PickScenario` is left without a pick. -/
theorem PickScenario_no_match (seed : Int) (rt : CompiledRoute) (ctx : MatchContext)
    (hno : ∀ t ∈ rt.Scenarios, rulesOK t.Match ctx = false) :
    PickScenario seed rt ctx =
      match rt.Default with
      | some d => .ok (d, seed)
      | none =>
        match sortSliceStable rt.Scenarios with
        | s :: _ => .ok (s, seed)
        | [] => .ok (fallback, seed) := by
  have h := pickLoop_none ctx seed (sortSliceStable rt.Scenarios).length
    (sortSliceStable rt.Scenarios) (le_refl _)
    (fun t ht => hno t (mem_sortSliceStable.mp ht))
  unfold PickScenario
  simp only [h]

theorem weightedWalk_mem (n : Int) : ∀ (l : List CompiledScenario) (acc : Int)
    (s : CompiledScenario), weightedWalk n acc l = some s → s ∈ l := by
  intro l
  induction l with
  | nil => intro acc s h; simp [weightedWalk] at h
  | cons a l ih =>
    intro acc s h
    unfold weightedWalk at h
    split at h
    · cases h; exact List.mem_cons_self _ _
    · exact List.mem_cons_of_mem _ (ih _ s h)

/-- When the computed total is not zero, `weightedPick` returns an element of
its list and the next seed. -/
theorem weightedPick_mem (seed : Int) (l : List CompiledScenario) (h : weightSum l ≠ 0) :
    ∃ s, s ∈ l ∧ weightedPick seed l = .ok (s, nextSeed seed) := by
  have hne : l ≠ [] := by
    rintro rfl
    exact h rfl
  unfold weightedPick randInt
  simp only [h, if_false]
  cases hw : weightedWalk (Int.tmod (nextSeed seed) (weightSum l)) 0 l with
  | some s => exact ⟨s, weightedWalk_mem _ _ _ _ hw, rfl⟩
  | none =>
    cases l with
    | nil => exact absurd rfl hne
    | cons a l => exact ⟨a, List.mem_cons_self _ _, rfl⟩

/-- C1 as stated fails: with four always-matching scenarios of weight `2^62`
the total wraps around to zero and `PickScenario` stops with a division by zero
instead of returning a scenario. -/
theorem PickScenario_overflow_no_result :
    (∃ s ∈ rtOverflow.Scenarios, rulesOK s.Match ctxEmpty = true) ∧
      PickScenario 0 rtOverflow ctxEmpty = .error Fault.divideByZero :=
  ⟨⟨heavy "a", List.mem_cons_self _ _, by decide⟩, by rfl⟩

/-- C1 (amended): if at least one scenario of the route matches the context, and
the total that `weightedPick` computes for the matching scenarios of a priority
is never zero, then for every seed `PickScenario` returns a scenario of the
route that matches the context and whose priority is the least among the
matching scenarios. -/
theorem PickScenario_min_priority_match (seed : Int) (rt : CompiledRoute) (ctx : MatchContext)
    (hmatch : ∃ s ∈ rt.Scenarios, rulesOK s.Match ctx = true)
    (hsum : ∀ m ∈ rt.Scenarios, rulesOK m.Match ctx = true →
      weightSum (matchingAt ctx m.Priority rt.Scenarios) ≠ 0) :
    ∃ s, PickScenario seed rt ctx = .ok (s, nextSeed seed) ∧ s ∈ rt.Scenarios ∧
      rulesOK s.Match ctx = true ∧
      ∀ t ∈ rt.Scenarios, rulesOK t.Match ctx = true → s.Priority ≤ t.Priority := by
  obtain ⟨m, hm, hok, hmin⟩ :=
    exists_min_matching (fun t => rulesOK t.Match ctx) rt.Scenarios hmatch
  obtain ⟨s, hs, hpick⟩ := weightedPick_mem seed _ (hsum m hm hok)
  refine ⟨s, ?_, ?_⟩
  · rw [PickScenario_eq_weightedPick seed rt ctx m hm hok hmin, hpick]
  · unfold matchingAt at hs
    rw [List.mem_filter] at hs
    simp only [Bool.and_eq_true, decide_eq_true_eq] at hs
    refine ⟨hs.1, hs.2.1, ?_⟩
    intro t ht htok
    rw [hs.2.2]
    exact hmin t ht htok

/-- C1, an instance: the example route on a request without parameters. -/
theorem PickScenario_min_priority_match_witness :
    (∃ s ∈ rtExample.Scenarios, rulesOK s.Match ctxEmpty = true) ∧
    (∀ m ∈ rtExample.Scenarios, rulesOK m.Match ctxEmpty = true →
      weightSum (matchingAt ctxEmpty m.Priority rtExample.Scenarios) ≠ 0) ∧
    ∃ s, PickScenario 7 rtExample ctxEmpty = .ok (s, nextSeed 7) ∧ s ∈ rtExample.Scenarios ∧
      rulesOK s.Match ctxEmpty = true ∧
      ∀ t ∈ rtExample.Scenarios, rulesOK t.Match ctxEmpty = true → s.Priority ≤ t.Priority :=
  ⟨⟨scOne, List.mem_cons_of_mem _ (List.mem_cons_self _ _), by decide⟩, by decide,
    PickScenario_min_priority_match 7 rtExample ctxEmpty
      ⟨scOne, List.mem_cons_of_mem _ (List.mem_cons_self _ _), by decide⟩ (by decide)⟩

theorem runningWeight_succ : ∀ (l : List CompiledScenario) (i : Nat) (hi : i < l.length),
    runningWeight l (i + 1) = runningWeight l i + (l.get ⟨i, hi⟩).Weight := by
  intro l
  induction l with
  | nil => intro i hi; simp at hi
  | cons a l ih =>
    intro i hi
    cases i with
    | zero => simp [runningWeight, totalWeight]
    | succ i =>
      have hi' : i < l.length := by simpa using hi
      rw [runningWeight_cons_succ, runningWeight_cons_succ, ih i hi']
      simp only [List.get_eq_getElem, List.getElem_cons_succ]
      omega

theorem runningWeight_of_length_le (l : List CompiledScenario) (k : Nat) (h : l.length ≤ k) :
    runningWeight l k = totalWeight l := by
  unfold runningWeight
  rw [List.take_of_length_le h]

theorem runningWeight_le_succ {l : List CompiledScenario} (hpos : ∀ s ∈ l, 0 < s.Weight)
    (k : Nat) : runningWeight l k ≤ runningWeight l (k + 1) := by
  by_cases hk : k < l.length
  · rw [runningWeight_succ l k hk]
    have := hpos _ (List.get_mem l k hk)
    omega
  · rw [runningWeight_of_length_le l k (by omega), runningWeight_of_length_le l (k + 1) (by omega)]

theorem runningWeight_mono {l : List CompiledScenario} (hpos : ∀ s ∈ l, 0 < s.Weight) :
    Monotone (runningWeight l) :=
  monotone_nat_of_le_succ (runningWeight_le_succ hpos)

theorem runningWeight_le_total {l : List CompiledScenario} (hpos : ∀ s ∈ l, 0 < s.Weight)
    (k : Nat) : runningWeight l k ≤ totalWeight l := by
  rw [← runningWeight_of_length_le l (max k l.length) (le_max_right _ _)]
  exact runningWeight_mono hpos (le_max_left _ _)

theorem isLeastIndex_iff {l : List CompiledScenario} (hpos : ∀ s ∈ l, 0 < s.Weight)
    (n : Int) (hn : 0 ≤ n) (i : Nat) :
    IsLeastIndex l n i ↔ runningWeight l i ≤ n ∧ n < runningWeight l (i + 1) := by
  unfold IsLeastIndex
  constructor
  · rintro ⟨h1, h2⟩
    refine ⟨?_, h1⟩
    cases i with
    | zero => rw [runningWeight_zero]; exact hn
    | succ j => exact h2 j (by omega)
  · rintro ⟨h1, h2⟩
    refine ⟨h2, ?_⟩
    intro j hj
    exact le_trans (runningWeight_mono hpos (by omega : j + 1 ≤ i)) h1

/-- C2 as stated fails: with weights 1 and `2^63 - 1` the draw 12345 lies below
the total `2^63` and the smallest index whose running total exceeds it is 1,
but the running total wraps around and `weightedPick` returns the candidate at
index 0. -/
theorem weightedPick_wraps_on_wide_weights :
    listWide ≠ [] ∧ (∀ s ∈ listWide, 0 < s.Weight) ∧
      (0 : Int) ≤ 12345 ∧ 12345 < totalWeight listWide ∧ IsLeastIndex listWide 12345 1 ∧
      weightSum listWide = -9223372036854775808 ∧
      Int.tmod (nextSeed 0) (weightSum listWide) = 12345 ∧
      weightedWalk 12345 0 listWide = none ∧
      weightedPick 0 listWide = .ok ({ Name := "first", Weight := 1 }, 12345) := by
  refine ⟨by simp [listWide], by decide, by decide, by decide, by decide, by decide, by decide,
    by rfl, by rfl⟩

/-- C2 (amended): for a non-empty candidate list whose weights are positive and
sum to `T < 2^63`: for every draw `n` in `[0, T)` the walk of `weightedPick`
returns the candidate at the smallest index `k` with `w_0 + ... + w_k > n`;
`weightedPick` returns that candidate for its own draw `nextSeed seed mod T`;
each index `i` is the smallest such index for exactly `w_i` of the `T` draw
values; and `PickScenario` hands `weightedPick` the matching scenarios of the
group in the order of the route's configuration. -/
theorem weightedPick_least_index (seed : Int) (list : List CompiledScenario)
    (hne : list ≠ []) (hpos : ∀ s ∈ list, 0 < s.Weight) (hT : totalWeight list < 2 ^ 63) :
    (∀ n : Int, 0 ≤ n → n < totalWeight list →
      ∃ k, ∃ hk : k < list.length, IsLeastIndex list n k ∧
        weightedWalk n 0 list = some (list.get ⟨k, hk⟩)) ∧
    (∃ k, ∃ hk : k < list.length,
      IsLeastIndex list (nextSeed seed % totalWeight list) k ∧
        weightedPick seed list = .ok (list.get ⟨k, hk⟩, nextSeed seed)) ∧
    (∀ i, ∀ hi : i < list.length,
      ((Finset.Ico (0 : Int) (totalWeight list)).filter (fun n => IsLeastIndex list n i)).card
        = ((list.get ⟨i, hi⟩).Weight).toNat) ∧
    (∀ (rt : CompiledRoute) (ctx : MatchContext) (m : CompiledScenario),
      m ∈ rt.Scenarios → rulesOK m.Match ctx = true →
      (∀ t ∈ rt.Scenarios, rulesOK t.Match ctx = true → m.Priority ≤ t.Priority) →
      PickScenario seed rt ctx
        = weightedPick seed (rt.Scenarios.filter
            (fun t => rulesOK t.Match ctx && decide (t.Priority = m.Priority)))) := by
  have hTpos := totalWeight_pos hpos hne
  have hwalk : ∀ n : Int, 0 ≤ n → n < totalWeight list →
      ∃ k, ∃ hk : k < list.length, IsLeastIndex list n k ∧
        weightedWalk n 0 list = some (list.get ⟨k, hk⟩) := by
    intro n h0 h1
    obtain ⟨k, hk, hw, hlt, hmin⟩ :=
      weightedWalk_spec n list 0 hpos (le_refl _) (by omega) h0 (by omega)
    refine ⟨k, hk, ⟨by omega, ?_⟩, hw⟩
    intro j hj
    have := hmin j hj
    omega
  refine ⟨hwalk, ?_, ?_, ?_⟩
  · have hseed : 0 ≤ nextSeed seed := by unfold nextSeed; omega
    have hmod0 : 0 ≤ nextSeed seed % totalWeight list := Int.emod_nonneg _ (by omega)
    have hmod1 : nextSeed seed % totalWeight list < totalWeight list :=
      Int.emod_lt_of_pos _ hTpos
    obtain ⟨k, hk, hleast, hw⟩ := hwalk _ hmod0 hmod1
    refine ⟨k, hk, hleast, ?_⟩
    have hsum := weightSum_eq_total hpos hT
    have htmod : Int.tmod (nextSeed seed) (totalWeight list)
        = nextSeed seed % totalWeight list := Int.tmod_eq_emod hseed (le_of_lt hTpos)
    unfold weightedPick randInt
    rw [hsum]
    simp only [ne_of_gt hTpos, if_false, htmod, hw]
  · intro i hi
    have hset : (Finset.Ico (0 : Int) (totalWeight list)).filter
        (fun n => IsLeastIndex list n i)
        = Finset.Ico (runningWeight list i) (runningWeight list (i + 1)) := by
      ext n
      simp only [Finset.mem_filter, Finset.mem_Ico]
      constructor
      · rintro ⟨⟨h0, _⟩, hl⟩
        exact (isLeastIndex_iff hpos n h0 i).mp hl
      · rintro ⟨h1, h2⟩
        have hp0 : 0 ≤ runningWeight list i := by
          have := runningWeight_mono hpos (Nat.zero_le i)
          rwa [runningWeight_zero] at this
        have hpT := runningWeight_le_total hpos (i + 1)
        have h0 : 0 ≤ n := by omega
        exact ⟨⟨h0, by omega⟩, (isLeastIndex_iff hpos n h0 i).mpr ⟨h1, h2⟩⟩
    rw [hset, Int.card_Ico, runningWeight_succ list i hi]
    congr 1
    omega
  · intro rt ctx m hm hok hmin
    exact PickScenario_eq_weightedPick seed rt ctx m hm hok hmin

/-- C2, an instance: the candidates of weight 1 and 3. -/
theorem weightedPick_least_index_witness :
    [scOne, scThree] ≠ [] ∧ (∀ s ∈ [scOne, scThree], 0 < s.Weight) ∧
    totalWeight [scOne, scThree] < 2 ^ 63 ∧
    ∃ k, ∃ hk : k < [scOne, scThree].length,
      IsLeastIndex [scOne, scThree] (nextSeed 7 % totalWeight [scOne, scThree]) k ∧
        weightedPick 7 [scOne, scThree] = .ok ([scOne, scThree].get ⟨k, hk⟩, nextSeed 7) :=
  ⟨by simp, by decide, by decide,
    (weightedPick_least_index 7 [scOne, scThree] (by simp) (by decide) (by decide)).2.1⟩

/-- C3: the code at the candidates with weights `-1` and `1` and seed 0. The
total counts the first weight as 1 (total 2, draw 1), but the walk adds the
weight as stored (`-1`, then `0`), never exceeds the draw and falls back to
the first candidate `A`; on the list with the weight replaced by 1 the same
draw gives `B`. -/
theorem weightedPick_walk_uses_stored_weight :
    weightSum listNeg = 2 ∧ Int.tmod (nextSeed 0) 2 = 1 ∧
      weightedWalk 1 0 listNeg = none ∧
      weightedPick 0 listNeg = .ok ({ Name := "A", Weight := -1 }, 12345) ∧
      weightedPick 0 (normalizeWeights listNeg) = .ok ({ Name := "B", Weight := 1 }, 12345) := by
  refine ⟨by decide, by decide, by rfl, by rfl, by rfl⟩

/-- C4: on a route with a default scenario `d`, if no scenario of the route
matches the context then `PickScenario` returns exactly `d` and leaves the seed
untouched, whatever the seed and the weights; and the default takes no part in
the priority groups: in any context in which some scenario matches, the result
is the one of the same route without default. -/
theorem PickScenario_default_last_resort (seed : Int) (rt : CompiledRoute) (ctx : MatchContext)
    (d : CompiledScenario) (hd : rt.Default = some d)
    (hno : ∀ t ∈ rt.Scenarios, rulesOK t.Match ctx = false) :
    PickScenario seed rt ctx = .ok (d, seed) ∧
    ∀ ctx' : MatchContext, (∃ s ∈ rt.Scenarios, rulesOK s.Match ctx' = true) →
      PickScenario seed rt ctx' = PickScenario seed { rt with Default := none } ctx' := by
  constructor
  · rw [PickScenario_no_match seed rt ctx hno, hd]
  · intro ctx' hmatch
    obtain ⟨m, hm, hok, hmin⟩ :=
      exists_min_matching (fun t => rulesOK t.Match ctx') rt.Scenarios hmatch
    rw [PickScenario_eq_weightedPick seed rt ctx' m hm hok hmin,
      PickScenario_eq_weightedPick seed { rt with Default := none } ctx' m hm hok hmin]

/-- C4, an instance: a route whose scenarios are all conditional, on a request
without parameters. -/
theorem PickScenario_default_last_resort_witness :
    rtGuarded.Default = some scDefault ∧
    (∀ t ∈ rtGuarded.Scenarios, rulesOK t.Match ctxEmpty = false) ∧
    PickScenario 7 rtGuarded ctxEmpty = .ok (scDefault, 7) :=
  ⟨rfl, by decide,
    (PickScenario_default_last_resort 7 rtGuarded ctxEmpty scDefault rfl (by decide)).1⟩

/-- C5: on a route without default and with at least one scenario, if no
scenario matches the context then `PickScenario` returns (seed untouched) the
scenario `s` of the configured list such that every scenario before it has a
larger priority value and every scenario after it has a priority value at
least as large: the first scenario of the smallest priority value. -/
theorem PickScenario_lowest_priority (seed : Int) (rt : CompiledRoute) (ctx : MatchContext)
    (hd : rt.Default = none) (hne : rt.Scenarios ≠ [])
    (hno : ∀ t ∈ rt.Scenarios, rulesOK t.Match ctx = false) :
    ∃ pre s post, rt.Scenarios = pre ++ s :: post ∧
      (∀ t ∈ pre, s.Priority < t.Priority) ∧ (∀ t ∈ post, s.Priority ≤ t.Priority) ∧
      PickScenario seed rt ctx = .ok (s, seed) := by
  cases hsort : sortSliceStable rt.Scenarios with
  | nil =>
    obtain ⟨a, ha⟩ := List.exists_mem_of_ne_nil _ hne
    have := mem_sortSliceStable.mpr ha
    rw [hsort] at this
    cases this
  | cons x xs =>
    have hasc := ascending_sortSliceStable rt.Scenarios
    rw [hsort] at hasc
    have hxmin : ∀ t ∈ rt.Scenarios, x.Priority ≤ t.Priority := by
      intro t ht
      have ht' := mem_sortSliceStable.mpr ht
      rw [hsort] at ht'
      rcases List.mem_cons.mp ht' with rfl | ht'
      · exact le_refl _
      · exact (List.pairwise_cons.mp hasc).1 t ht'
    have hfil := filter_sortSliceStable (fun t => decide (t.Priority = x.Priority)) x.Priority
      (fun t ht => by simpa using ht) rt.Scenarios
    rw [hsort, List.filter_cons] at hfil
    simp only [decide_True, if_true] at hfil
    obtain ⟨pre, post, hsplit, hpre, _, _⟩ := List.filter_eq_cons_iff.mp hfil.symm
    refine ⟨pre, x, post, hsplit, ?_, ?_, ?_⟩
    · intro t ht
      have h1 := hxmin t (by rw [hsplit]; exact List.mem_append_left _ ht)
      have h2 := hpre t ht
      simp only [decide_eq_true_eq] at h2
      omega
    · intro t ht
      exact hxmin t (by rw [hsplit]; exact List.mem_append_right _ (List.mem_cons_of_mem _ ht))
    · rw [PickScenario_no_match seed rt ctx hno, hd, hsort]

/-- C5, an instance: priorities 7, 3, 3 without default and without a match;
the first scenario of priority 3 is returned. -/
theorem PickScenario_lowest_priority_witness :
    rtNoDefault.Default = none ∧ rtNoDefault.Scenarios ≠ [] ∧
    (∀ t ∈ rtNoDefault.Scenarios, rulesOK t.Match ctxEmpty = false) ∧
    ∃ pre s post, rtNoDefault.Scenarios = pre ++ s :: post ∧
      (∀ t ∈ pre, s.Priority < t.Priority) ∧ (∀ t ∈ post, s.Priority ≤ t.Priority) ∧
      PickScenario 7 rtNoDefault ctxEmpty = .ok (s, 7) :=
  ⟨rfl, by simp [rtNoDefault], by decide,
    PickScenario_lowest_priority 7 rtNoDefault ctxEmpty rfl (by simp [rtNoDefault]) (by decide)⟩

/-! ### Rule evaluation -/

theorem notNil_eq_false_iff (v : GoVal) : v.notNil = false ↔ v = .null := by
  cases v <;> simp [GoVal.notNil]

/-- C6: `rulesOK m ctx` holds exactly when `m` is absent or every condition of
the three maps holds (`checkCond`) on the query values under its key, on the
header values under the canonical form of its key, and on the text of the body
value at its dotted path; the result is the same for every order in which the
entries of the maps are visited; and an absent rule tree matches every
context. -/
theorem rulesOK_iff_all_conditions (m : Option MatchRules) (ctx : MatchContext) :
    (rulesOK m ctx = true ↔
      m = none ∨ ∃ r, m = some r ∧
        (∀ kc ∈ r.Query, checkCond (valuesGet ctx.Query kc.1) kc.2 = true) ∧
        (∀ kc ∈ r.Headers,
          checkCond (valuesGet ctx.Headers (CanonicalHeaderKey kc.1)) kc.2 = true) ∧
        (∀ pc ∈ r.Body, checkCond [toString (getDot ctx.Body pc.1)] pc.2 = true)) ∧
    (∀ r r' : MatchRules, r.Query.Perm r'.Query → r.Headers.Perm r'.Headers →
      r.Body.Perm r'.Body → rulesOK (some r) ctx = rulesOK (some r') ctx) ∧
    rulesOK none ctx = true := by
  refine ⟨?_, ?_, rfl⟩
  · cases m with
    | none => simp [rulesOK]
    | some r =>
      simp only [rulesOK, condsQuery, condsHeader, condsBody, Bool.and_eq_true,
        List.all_eq_true, false_or, Option.some.injEq, reduceCtorEq]
      constructor
      · rintro ⟨⟨h1, h2⟩, h3⟩
        exact ⟨r, rfl, h1, h2, h3⟩
      · rintro ⟨r', hr, h1, h2, h3⟩
        subst hr
        exact ⟨⟨h1, h2⟩, h3⟩
  · intro r r' hq hh hb
    rw [Bool.eq_iff_iff]
    simp only [rulesOK, condsQuery, condsHeader, condsBody, Bool.and_eq_true,
      List.all_eq_true]
    constructor
    · rintro ⟨⟨h1, h2⟩, h3⟩
      exact ⟨⟨fun x hx => h1 x (hq.mem_iff.mpr hx), fun x hx => h2 x (hh.mem_iff.mpr hx)⟩,
        fun x hx => h3 x (hb.mem_iff.mpr hx)⟩
    · rintro ⟨⟨h1, h2⟩, h3⟩
      exact ⟨⟨fun x hx => h1 x (hq.mem_iff.mp hx), fun x hx => h2 x (hh.mem_iff.mp hx)⟩,
        fun x hx => h3 x (hb.mem_iff.mp hx)⟩

/-- A field without values fails every condition that declares `$eq` or a
non-empty `$in`: the case of an absent query parameter or header. -/
theorem checkCond_no_values (c : Cond) (h : c.Eq ≠ .null ∨ c.In ≠ []) :
    checkCond [] c = false := by
  unfold checkCond
  by_cases he : c.Eq.notNil = true
  · simp [he]
  · have hnull : c.Eq = .null := (notNil_eq_false_iff _).mp (by simpa using he)
    have hin : c.In ≠ [] := by
      rcases h with h | h
      · exact absurd hnull h
      · exact h
    have hlen : c.In.length > 0 := List.length_pos.mpr hin
    simp [he, hlen]

/-- C7: the code on a JSON body without `user`. The path `user.id` resolves to
`nil`, `condsBody` hands `checkCond` the one-element list holding the text
`<nil>` of that `nil`, and the conditions `$eq: "<nil>"` and `$in: [null]`
hold, so the scenario matches; the same conditions on an absent query
parameter or header fail. -/
theorem condsBody_matches_missing_value :
    getDot ctxNoUser.Body "user.id" = GoVal.null ∧ toString GoVal.null = "<nil>" ∧
      rulesOK (some { Body := [("user.id", condNilText)] }) ctxNoUser = true ∧
      rulesOK (some { Body := [("user.id", condInNull)] }) ctxNoUser = true ∧
      rulesOK (some { Query := [("user.id", condNilText)] }) ctxNoUser = false ∧
      rulesOK (some { Headers := [("user.id", condInNull)] }) ctxNoUser = false := by
  refine ⟨by rfl, by decide, by decide, by decide, by decide, by decide⟩

/-- C8: `checkCond vals c` holds exactly when (`$eq` is not given, or `vals` is
not empty and its first value is the text of `$eq`) and (`$in` is empty, or
some value of `vals` is the text of some element of `$in`). -/
theorem checkCond_iff (vals : List String) (c : Cond) :
    checkCond vals c = true ↔
      (c.Eq = .null ∨ ∃ v rest, vals = v :: rest ∧ v = toString c.Eq) ∧
      (c.In = [] ∨ ∃ v ∈ vals, ∃ a ∈ c.In, v = toString a) := by
  have hin : (c.In = [] ∨ ∃ v ∈ vals, ∃ a ∈ c.In, v = toString a) ↔
      (if c.In.length > 0 then
        (if ¬((vals.any (fun v => (c.In.map toString).contains v)) = true) then false else true)
       else true) = true := by
    by_cases hl : c.In = []
    · simp [hl]
    · have hlen : c.In.length > 0 := List.length_pos.mpr hl
      simp only [hl, false_or, hlen, if_true]
      by_cases hany : (vals.any (fun v => (c.In.map toString).contains v)) = true
      · simp only [hany, not_true_eq_false, if_false, iff_true]
        rw [List.any_eq_true] at hany
        obtain ⟨v, hv, hcont⟩ := hany
        rw [List.contains_iff_exists_mem_beq] at hcont
        obtain ⟨w, hw, hwv⟩ := hcont
        rw [beq_iff_eq] at hwv
        subst hwv
        rw [List.mem_map] at hw
        have hcont := hw
        obtain ⟨a, ha, hav⟩ := hcont
        exact ⟨v, hv, a, ha, hav.symm⟩
      · simp only [hany, not_false_eq_true, if_true, Bool.false_eq_true, iff_false]
        rintro ⟨v, hv, a, ha, hav⟩
        apply hany
        rw [List.any_eq_true]
        refine ⟨v, hv, ?_⟩
        rw [List.contains_iff_exists_mem_beq]
        exact ⟨v, List.mem_map.mpr ⟨a, ha, hav.symm⟩, by simp⟩
  unfold checkCond
  by_cases he : c.Eq.notNil = true
  · have hnn : c.Eq ≠ .null := by
      intro h
      rw [h] at he
      simp [GoVal.notNil] at he
    cases vals with
    | nil => simp [he, hnn]
    | cons v rest =>
      by_cases hv : v = toString c.Eq
      · have h1 : ¬(c.Eq.notNil = true ∧ ((v :: rest).length = 0 ∨
            (v :: rest).head? ≠ some (toString c.Eq))) := by
          simp [hv]
        rw [if_neg h1, ← hin]
        simp [hnn, hv]
      · have h1 : (c.Eq.notNil = true ∧ ((v :: rest).length = 0 ∨
            (v :: rest).head? ≠ some (toString c.Eq))) := by
          simp [he, hv]
        rw [if_pos h1]
        simp [hnn, hv]
  · have hnull : c.Eq = .null := (notNil_eq_false_iff _).mp (by simpa using he)
    have h1 : ¬(c.Eq.notNil = true ∧ (vals.length = 0 ∨
        vals.head? ≠ some (toString c.Eq))) := fun h => he h.1
    rw [if_neg h1, ← hin]
    simp [hnull]

/-! ### Dotted paths -/

theorem dropWhile_append_of_all {α : Type} (p : α → Bool) :
    ∀ (l1 l2 : List α), (∀ x ∈ l1, p x = true) → (l1 ++ l2).dropWhile p = l2.dropWhile p := by
  intro l1
  induction l1 with
  | nil => intro l2 _; rfl
  | cons a l ih =>
    intro l2 h
    rw [List.cons_append, List.dropWhile_cons, h a (List.mem_cons_self _ _)]
    exact ih l2 (fun x hx => h x (List.mem_cons_of_mem _ hx))

theorem takeWhile_append_of_all {α : Type} (p : α → Bool) :
    ∀ (l1 l2 : List α), (∀ x ∈ l1, p x = true) →
      (l1 ++ l2).takeWhile p = l1 ++ l2.takeWhile p := by
  intro l1
  induction l1 with
  | nil => intro l2 _; rfl
  | cons a l ih =>
    intro l2 h
    rw [List.cons_append, List.takeWhile_cons, h a (List.mem_cons_self _ _)]
    simp only [if_true, List.cons_append]
    rw [ih l2 (fun x hx => h x (List.mem_cons_of_mem _ hx))]

/-- The matcher accepts every text of the form `name[digits]`. -/
theorem idxRe_of_form (name digits : List Char) (hn : name ≠ [])
    (hnl : ∀ c ∈ name, c ≠ '\n') (hd : digits ≠ []) (hdig : ∀ c ∈ digits, isDigit c = true) :
    idxRe (name ++ '[' :: digits ++ [']']) = some (name, digits) := by
  have hrev : (name ++ '[' :: digits ++ [']']).reverse
      = ']' :: (digits.reverse ++ '[' :: name.reverse) := by
    simp
  have hall : ∀ x ∈ digits.reverse, isDigit x = true :=
    fun x hx => hdig x (List.mem_reverse.mp hx)
  have hdrop : (digits.reverse ++ '[' :: name.reverse).dropWhile isDigit
      = '[' :: name.reverse := by
    rw [dropWhile_append_of_all isDigit _ _ hall, List.dropWhile_cons]
    have : isDigit '[' = false := by decide
    simp [this]
  have htake : (digits.reverse ++ '[' :: name.reverse).takeWhile isDigit
      = digits.reverse := by
    rw [takeWhile_append_of_all isDigit _ _ hall, List.takeWhile_cons]
    have : isDigit '[' = false := by decide
    simp [this]
  unfold idxRe
  rw [hrev]
  simp only [hdrop, htake]
  have h1 : digits.reverse ≠ [] := by simpa using hd
  have h2 : name.reverse ≠ [] := by simpa using hn
  have h3 : name.reverse.all (fun c => decide (c ≠ '\n')) = true := by
    rw [List.all_eq_true]
    intro c hc
    simpa using hnl c (List.mem_reverse.mp hc)
  simp only [ne_eq, h1, not_false_eq_true, h2, h3, and_self, if_true, List.reverse_reverse]

/-- The matcher accepts only texts of the form `name[digits]`. -/
theorem idxRe_form (seg name digits : List Char) (h : idxRe seg = some (name, digits)) :
    seg = name ++ '[' :: digits ++ [']'] ∧ name ≠ [] ∧ (∀ c ∈ name, c ≠ '\n') ∧
      digits ≠ [] ∧ ∀ c ∈ digits, isDigit c = true := by
  unfold idxRe at h
  split at h
  · rename_i r hr
    split at h
    · rename_i nameRev hdrop
      split at h
      · rename_i hcond
        obtain ⟨h1, h2, h3⟩ := hcond
        simp only [Option.some.injEq, Prod.mk.injEq] at h
        obtain ⟨hname, hdigits⟩ := h
        have hr' : r = r.takeWhile isDigit ++ '[' :: nameRev := by
          conv_lhs => rw [← List.takeWhile_append_dropWhile isDigit r, hdrop]
        have hseg : seg = (']' :: r).reverse := by rw [← hr, List.reverse_reverse]
        refine ⟨?_, ?_, ?_, ?_, ?_⟩
        · rw [hseg, hr', ← hname, ← hdigits]
          simp
        · rw [← hname]; simpa using h2
        · intro c hc
          rw [← hname] at hc
          rw [List.all_eq_true] at h3
          simpa using h3 c (List.mem_reverse.mp hc)
        · rw [← hdigits]; simpa using h1
        · intro c hc
          rw [← hdigits] at hc
          exact List.mem_takeWhile_imp (List.mem_reverse.mp hc)
      · cases h
    · cases h
  · cases h

theorem fits_mapGet (k : String) : ∀ kvs : List (String × GoVal),
    fitsFields kvs = true → (mapGet kvs k).fits = true := by
  intro kvs
  induction kvs with
  | nil => intro _; simp [mapGet, GoVal.fits]
  | cons kv kvs ih =>
    obtain ⟨k', v⟩ := kv
    intro h
    simp only [fitsFields, Bool.and_eq_true] at h
    unfold mapGet
    split
    · exact h.1
    · exact ih h.2

theorem fits_get? : ∀ (xs : List GoVal) (i : Nat),
    fitsList xs = true → ((xs.get? i).getD .null).fits = true := by
  intro xs
  induction xs with
  | nil => intro i _; simp [GoVal.fits]
  | cons x xs ih =>
    intro i h
    simp only [fitsList, Bool.and_eq_true] at h
    cases i with
    | zero => simpa using h.1
    | succ i => simpa using ih i h.2

theorem foldl_stepValue_null (segs : List (List Char)) :
    segs.foldl stepValue .null = .null := by
  induction segs with
  | nil => rfl
  | cons seg rest ih => simpa [stepValue] using ih

theorem atoi_digits (ds : List Char) (hne : ds ≠ []) (hd : ∀ c ∈ ds, isDigit c = true) :
    atoi ds = min (decVal ds : Int) maxInt := by
  unfold atoi
  rw [if_pos]
  exact ⟨hne, List.all_eq_true.mpr hd⟩

/-- The loop of `getDot` with its early returns is the left fold of the
specified step over the segments. -/
theorem getDotLoop_eq_foldl : ∀ (segs : List (List Char)) (cur : GoVal),
    cur.fits = true → getDotLoop cur segs = segs.foldl stepValue cur := by
  intro segs
  induction segs with
  | nil => intro cur _; cases cur <;> rfl
  | cons seg rest ih =>
    intro cur hfit
    cases cur with
    | obj mm =>
      simp only [GoVal.fits] at hfit
      rw [List.foldl_cons]
      unfold getDotLoop stepValue
      cases hre : idxRe seg with
      | none =>
        simp only
        exact ih _ (fits_mapGet _ mm hfit)
      | some nd =>
        obtain ⟨name, digits⟩ := nd
        obtain ⟨_, _, _, hdne, hdig⟩ := idxRe_form seg name digits hre
        have hfield := fits_mapGet (String.mk name) mm hfit
        simp only
        cases hget : mapGet mm (String.mk name) with
        | arr xs =>
          rw [hget] at hfield
          simp only [GoVal.fits, Bool.and_eq_true, decide_eq_true_eq] at hfield
          obtain ⟨hlen, hxs⟩ := hfield
          simp only
          rw [atoi_digits digits hdne hdig]
          have hmax : (0 : Int) ≤ maxInt := by decide
          by_cases hi : (decVal digits : Int) < (xs.length : Int)
          · have hmin : min (decVal digits : Int) maxInt = (decVal digits : Int) :=
              min_eq_left (by omega)
            have hi' : decVal digits < xs.length := by exact_mod_cast hi
            rw [hmin, if_neg (by omega)]
            have hgd : xs.getD ((decVal digits : Int)).toNat .null
                = (xs.get? (decVal digits)).getD .null := by
              simp [List.getD_eq_getElem?_getD]
            rw [hgd]
            exact ih _ (fits_get? xs _ hxs)
          · have hge : min (decVal digits : Int) maxInt ≥ (xs.length : Int) :=
              le_min (by omega) hlen
            rw [if_pos (Or.inr hge)]
            have hnone : xs.get? (decVal digits) = none := by
              rw [List.get?_eq_none]
              have : (xs.length : Int) ≤ (decVal digits : Int) := by omega
              exact_mod_cast this
            rw [hnone]
            simp only [Option.getD_none]
            exact (foldl_stepValue_null rest).symm
        | null => simp only; exact (foldl_stepValue_null rest).symm
        | bool b => simp only; exact (foldl_stepValue_null rest).symm
        | int n => simp only; exact (foldl_stepValue_null rest).symm
        | float f => simp only; exact (foldl_stepValue_null rest).symm
        | str s => simp only; exact (foldl_stepValue_null rest).symm
        | obj o => simp only; exact (foldl_stepValue_null rest).symm
    | null => simpa [getDotLoop, stepValue] using (foldl_stepValue_null rest).symm
    | bool b => simpa [getDotLoop, stepValue] using (foldl_stepValue_null rest).symm
    | int n => simpa [getDotLoop, stepValue] using (foldl_stepValue_null rest).symm
    | float f => simpa [getDotLoop, stepValue] using (foldl_stepValue_null rest).symm
    | str s => simpa [getDotLoop, stepValue] using (foldl_stepValue_null rest).symm
    | arr xs => simpa [getDotLoop, stepValue] using (foldl_stepValue_null rest).symm

/-- C9: for every JSON body (its slices shorter than `2^63`, as every Go slice
is) and every dotted path `getDot` returns (it is a total function) the value
reached by applying the specified step to the dot-separated segments in
order, starting from the body; a segment is an indexed one exactly when it has
the form `name[digits]` with a non-empty name free of line feeds; and on
`{"user":{"id":2}}` the path `user.id` yields the number 2, on a body without
`user` it yields no value. -/
theorem getDot_follows_path (body : Option (List (String × GoVal))) (path : String)
    (hfit : (GoVal.obj (body.getD [])).fits = true) :
    getDot body path = (splitOn '.' path.data).foldl stepValue (.obj (body.getD [])) ∧
    (∀ name digits : List Char, name ≠ [] → (∀ c ∈ name, c ≠ '\n') → digits ≠ [] →
      (∀ c ∈ digits, isDigit c = true) →
      idxRe (name ++ '[' :: digits ++ [']']) = some (name, digits)) ∧
    (∀ seg name digits : List Char, idxRe seg = some (name, digits) →
      seg = name ++ '[' :: digits ++ [']'] ∧ name ≠ [] ∧ (∀ c ∈ name, c ≠ '\n') ∧
        digits ≠ [] ∧ ∀ c ∈ digits, isDigit c = true) ∧
    getDot (some bodyUser) "user.id" = .float ⟨false, [2], 1⟩ ∧
    getDot (some [("name", .str "x")]) "user.id" = .null ∧
    getDot none "user.id" = .null :=
  ⟨getDotLoop_eq_foldl _ _ hfit, idxRe_of_form, idxRe_form, rfl, rfl, rfl⟩

/-- C9, an instance: the second element of an array of objects. -/
theorem getDot_follows_path_witness :
    (GoVal.obj ((some bodyItems).getD [])).fits = true ∧
    getDot (some bodyItems) "items[1].sku"
      = (splitOn '.' "items[1].sku".data).foldl stepValue (.obj ((some bodyItems).getD [])) ∧
    getDot (some bodyItems) "items[1].sku" = .str "b" ∧
    getDot (some bodyItems) "items[2].sku" = .null ∧
    getDot (some bodyItems) "items.sku" = .null :=
  ⟨by decide, (getDot_follows_path (some bodyItems) "items[1].sku" (by decide)).1,
    rfl, rfl, rfl⟩

/-! ### Comparison on string forms -/

/-- The function `toString` is the identity on strings. -/
theorem toString_str (s : String) : toString (.str s) = s := rfl

/-- The function `toString` renders the booleans as `true` and `false`. -/
theorem toString_bool (b : Bool) : toString (.bool b) = if b then "true" else "false" := by
  cases b <;> decide

/-- C10: the code at the number one million. Strings, booleans, the number 1
and a Go `int` come out as the claim says, and numeric 1 matches the text `1`;
but the JSON number 1000000 is a `float64`, `%v` prints it as `1e+06`, so a
condition `$eq: 1000000` rejects the field value `1000000` that the condition
`$eq: "1000000"` accepts, and a body field holding the number 1000000 does not
match the condition on the text `1000000`. -/
theorem toString_million_exponent_form :
    toString (.str "1") = "1" ∧ toString (jsonNumber 1) = "1" ∧
      toString (.int 1000000) = "1000000" ∧ toString (jsonNumber 999999) = "999999" ∧
      checkCond ["1"] { Eq := jsonNumber 1 } = true ∧
      jsonNumber 1000000 = .float ⟨false, [1], 7⟩ ∧
      toString (jsonNumber 1000000) = "1e+06" ∧
      checkCond ["1000000"] { Eq := jsonNumber 1000000 } = false ∧
      checkCond ["1000000"] { Eq := .str "1000000" } = true ∧
      checkCond ["1000000"] { In := [jsonNumber 1000000] } = false ∧
      checkCond ["1000000"] { In := [.str "1000000"] } = true ∧
      rulesOK (some { Body := [("n", { Eq := .str "1000000" })] }) ctxMillion = false := by
  refine ⟨by rfl, by decide, by decide, by decide, by decide, by rfl, by decide, by decide,
    by decide, by decide, by decide, by decide⟩

/-! ### The total of `weightedPick` within the `int` range -/

theorem normWeight_pos (s : CompiledScenario) : 1 ≤ normWeight s := by
  unfold normWeight
  split <;> omega

theorem normTotal_cons (s : CompiledScenario) (l : List CompiledScenario) :
    normTotal (s :: l) = normWeight s + normTotal l := by
  simp [normTotal]

theorem length_le_normTotal (l : List CompiledScenario) : (l.length : Int) ≤ normTotal l := by
  induction l with
  | nil => simp [normTotal]
  | cons s l ih =>
    rw [normTotal_cons]
    have := normWeight_pos s
    simp only [List.length_cons, Nat.cast_add, Nat.cast_one]
    omega

theorem normTotal_filter_le (q : CompiledScenario → Bool) (l : List CompiledScenario) :
    normTotal (l.filter q) ≤ normTotal l := by
  induction l with
  | nil => simp
  | cons s l ih =>
    have := normWeight_pos s
    rw [List.filter_cons]
    split
    · rw [normTotal_cons, normTotal_cons]; omega
    · rw [normTotal_cons]; omega

theorem weightSum_foldl_norm (l : List CompiledScenario) :
    ∀ acc : Int, 0 ≤ acc → acc + normTotal l < 2 ^ 63 →
      l.foldl (fun sum s => wrapInt (sum + (if s.Weight ≤ 0 then 1 else s.Weight))) acc
        = acc + normTotal l := by
  induction l with
  | nil => intro acc _ _; simp [normTotal]
  | cons s l ih =>
    intro acc h0 hlt
    have hs := normWeight_pos s
    have hl : (0 : Int) ≤ normTotal l := le_trans (by omega) (length_le_normTotal l)
    rw [normTotal_cons] at hlt ⊢
    have hw : (if s.Weight ≤ 0 then (1 : Int) else s.Weight) = normWeight s := rfl
    simp only [List.foldl_cons, hw]
    rw [wrapInt_of_range _ (by omega) (by omega), ih _ (by omega) (by omega)]
    omega

/-- Within the `int` range the total that `weightedPick` computes is the sum of
the weights with each weight `≤ 0` counted as 1. -/
theorem weightSum_eq_normTotal (l : List CompiledScenario) (h : normTotal l < 2 ^ 63) :
    weightSum l = normTotal l := by
  have := weightSum_foldl_norm l 0 (le_refl _) (by simpa using h)
  simpa [weightSum] using this

/-- If the weights of a route sum within the `int` range, no group of matching
scenarios has a computed total of zero. -/
theorem weightSum_matchingAt_ne_zero (rt : CompiledRoute) (ctx : MatchContext)
    (h : normTotal rt.Scenarios < 2 ^ 63) :
    ∀ m ∈ rt.Scenarios, rulesOK m.Match ctx = true →
      weightSum (matchingAt ctx m.Priority rt.Scenarios) ≠ 0 := by
  intro m hm hok
  have hle : normTotal (matchingAt ctx m.Priority rt.Scenarios) ≤ normTotal rt.Scenarios :=
    normTotal_filter_le _ _
  have hmem : m ∈ matchingAt ctx m.Priority rt.Scenarios := by
    unfold matchingAt
    rw [List.mem_filter]
    exact ⟨hm, by simp [hok]⟩
  have hlen : 0 < (matchingAt ctx m.Priority rt.Scenarios).length :=
    List.length_pos_of_mem hmem
  have := length_le_normTotal (matchingAt ctx m.Priority rt.Scenarios)
  rw [weightSum_eq_normTotal _ (by omega)]
  omega

/-! ### The text of a Go `int` -/

theorem trimBoth_of_none (p : Char → Bool) (s : List Char) (h : ∀ c ∈ s, p c = false) :
    trimBoth p s = s := by
  have hdrop : ∀ l : List Char, (∀ c ∈ l, p c = false) → l.dropWhile p = l := by
    intro l hl
    cases l with
    | nil => rfl
    | cons a l => rw [List.dropWhile_cons, hl a (List.mem_cons_self _ _)]; simp
  unfold trimBoth
  rw [hdrop s h, hdrop s.reverse (fun c hc => h c (List.mem_reverse.mp hc)), List.reverse_reverse]

theorem replaceChar_of_not_mem (a : Char) (rep s : List Char) (h : ∀ c ∈ s, c ≠ a) :
    replaceChar a rep s = s := by
  unfold replaceChar
  induction s with
  | nil => rfl
  | cons c s ih =>
    rw [List.flatMap_cons, if_neg (h c (List.mem_cons_self _ _)),
      ih (fun x hx => h x (List.mem_cons_of_mem _ hx))]
    rfl

theorem collapseBlanks_of_no_blank : ∀ s : List Char, (∀ c ∈ s, c ≠ ' ') →
    collapseBlanks s = s := by
  intro s
  induction s with
  | nil => intro _; rfl
  | cons c s ih =>
    intro h
    cases s with
    | nil => rfl
    | cons c' rest =>
      have hc : c ≠ ' ' := h c (List.mem_cons_self _ _)
      unfold collapseBlanks
      rw [if_neg (fun hh => hc hh.1), ih (fun x hx => h x (List.mem_cons_of_mem _ hx))]

theorem trimBoth_quoted (s : List Char) (h : ∀ c ∈ s, c ≠ '"') :
    trimBoth (fun c => decide (c = '"')) ('"' :: s ++ ['"']) = s := by
  have hdrop : ∀ l : List Char, (∀ c ∈ l, c ≠ '"') →
      (l ++ ['"']).dropWhile (fun c => decide (c = '"')) = if l = [] then [] else l ++ ['"'] := by
    intro l hl
    cases l with
    | nil => simp
    | cons a l =>
      have := hl a (List.mem_cons_self _ _)
      simp [List.dropWhile_cons, this]
  have hdrop' : ∀ l : List Char, (∀ c ∈ l, c ≠ '"') →
      l.dropWhile (fun c => decide (c = '"')) = l := by
    intro l hl
    cases l with
    | nil => rfl
    | cons a l =>
      have := hl a (List.mem_cons_self _ _)
      simp [List.dropWhile_cons, this]
  unfold trimBoth
  rw [List.cons_append, List.dropWhile_cons]
  simp only [decide_True, if_true]
  rw [hdrop s h]
  by_cases hs : s = []
  · simp [hs]
  · rw [if_neg hs, List.reverse_append, List.reverse_singleton, List.singleton_append,
      List.dropWhile_cons]
    simp only [decide_True, if_true]
    rw [hdrop' s.reverse (fun c hc => h c (List.mem_reverse.mp hc)), List.reverse_reverse]

theorem isDigit_digitChar (k : Nat) : isDigit (digitChar k) = true := by
  unfold digitChar
  have h : k % 10 < 10 := Nat.mod_lt _ (by decide)
  interval_cases (k % 10) <;> decide

theorem natDigits_digits : ∀ (fuel n : Nat), ∀ c ∈ natDigits fuel n, isDigit c = true := by
  intro fuel
  induction fuel with
  | zero => intro n c hc; simp [natDigits] at hc
  | succ fuel ih =>
    intro n c hc
    unfold natDigits at hc
    split at hc
    · rw [List.mem_singleton] at hc
      rw [hc]; exact isDigit_digitChar n
    · rw [List.mem_append, List.mem_singleton] at hc
      rcases hc with hc | hc
      · exact ih _ c hc
      · rw [hc]; exact isDigit_digitChar n

/-- A character of the text of an `int` is a digit or the minus sign. -/
theorem fmtInt_chars (n : Int) : ∀ c ∈ fmtInt n, isDigit c = true ∨ c = '-' := by
  intro c hc
  cases n with
  | ofNat k => exact Or.inl (natDigits_digits _ _ c hc)
  | negSucc k =>
    unfold fmtInt at hc
    rcases List.mem_cons.mp hc with h | h
    · exact Or.inr h
    · exact Or.inl (natDigits_digits _ _ c h)

theorem plain_char_facts (c : Char) (h : isDigit c = true ∨ c = '-') :
    isSpace c = false ∧ c ≠ '\n' ∧ c ≠ '\t' ∧ c ≠ ' ' ∧ c ≠ '"' := by
  rcases h with h | h
  · unfold isDigit at h
    simp only [Bool.and_eq_true, decide_eq_true_eq] at h
    refine ⟨?_, ?_, ?_, ?_, ?_⟩
    · unfold isSpace
      simp only [Bool.or_eq_false_iff, Bool.and_eq_false_imp, decide_eq_true_eq,
        decide_eq_false_iff_not, beq_eq_false_iff_ne, ne_eq]
      omega
    all_goals
      intro hc
      rw [hc] at h
      revert h
      decide
  · subst h
    decide

/-- The function `toString` renders a Go `int` as its decimal text. -/
theorem toString_int (n : Int) : toString (.int n) = String.mk (fmtInt n) := by
  have hc := fun c hc => plain_char_facts c (fmtInt_chars n c hc)
  have h1 : trimBoth (fun c => decide (c = '\n')) (fmtInt n) = fmtInt n :=
    trimBoth_of_none _ _ (fun c h => by simpa using (hc c h).2.1)
  have h2 : replaceChar '\n' [' '] (fmtInt n) = fmtInt n :=
    replaceChar_of_not_mem _ _ _ (fun c h => (hc c h).2.1)
  have h3 : replaceChar '\t' [' '] (fmtInt n) = fmtInt n :=
    replaceChar_of_not_mem _ _ _ (fun c h => (hc c h).2.2.1)
  have h4 : collapseBlanks (fmtInt n) = fmtInt n :=
    collapseBlanks_of_no_blank _ (fun c h => (hc c h).2.2.2.1)
  have h5 : trimBoth isSpace (fmtInt n) = fmtInt n :=
    trimBoth_of_none _ _ (fun c h => (hc c h).1)
  have h6 : replaceChar '"' ['\\', '"'] (fmtInt n) = fmtInt n :=
    replaceChar_of_not_mem _ _ _ (fun c h => (hc c h).2.2.2.2)
  have h7 := trimBoth_quoted (fmtInt n) (fun c h => (hc c h).2.2.2.2)
  simp only [toString, jsonMarshalSafe, fmtAny, fmtV, h1, h2, h3, h4, h5, h6]
  rw [h7]

/-! ### Safety of the weighted pick and the built-in random source -/

theorem nextSeed_nonneg (seed : Int) : 0 ≤ nextSeed seed := by
  unfold nextSeed
  omega

theorem nextSeed_lt (seed : Int) : nextSeed seed < 2 ^ 31 := by
  unfold nextSeed
  omega

theorem randInt_range (seed n : Int) (hn : 0 < n) :
    ∃ d, randInt seed n = .ok (d, nextSeed seed) ∧ 0 ≤ d ∧ d < n := by
  refine ⟨Int.tmod (nextSeed seed) n, ?_, ?_, ?_⟩
  · unfold randInt
    rw [if_neg (by omega)]
  · rw [Int.tmod_eq_emod (nextSeed_nonneg seed) (le_of_lt hn)]
    exact Int.emod_nonneg _ (by omega)
  · rw [Int.tmod_eq_emod (nextSeed_nonneg seed) (le_of_lt hn)]
    exact Int.emod_lt_of_pos _ hn

/-- C19: on a non-empty candidate list whose weights (a weight `≤ 0` counted
as 1) sum below `2^63`, the total that `weightedPick` computes is that sum, is
at least the number of candidates and positive; `randInt` on a positive `n`
returns a draw in `[0, n)` for every seed; `weightedPick` returns an element of
the list; and `PickScenario` calls `weightedPick` on a non-empty list when some
scenario matches and returns without a draw when none does. -/
theorem weightedPick_safe (seed : Int) (list : List CompiledScenario) (hne : list ≠ [])
    (hrange : normTotal list < 2 ^ 63) :
    weightSum list = normTotal list ∧ (list.length : Int) ≤ weightSum list ∧
    0 < weightSum list ∧
    (∀ s n : Int, 0 < n → ∃ d, randInt s n = .ok (d, nextSeed s) ∧ 0 ≤ d ∧ d < n) ∧
    (∃ s, s ∈ list ∧ weightedPick seed list = .ok (s, nextSeed seed)) ∧
    (∀ (rt : CompiledRoute) (ctx : MatchContext),
      ((∃ s ∈ rt.Scenarios, rulesOK s.Match ctx = true) →
        ∃ cands, cands ≠ [] ∧ PickScenario seed rt ctx = weightedPick seed cands) ∧
      ((∀ t ∈ rt.Scenarios, rulesOK t.Match ctx = false) →
        ∃ s, PickScenario seed rt ctx = .ok (s, seed))) := by
  have hsum := weightSum_eq_normTotal list hrange
  have hlen := length_le_normTotal list
  have hpos : 0 < list.length := List.length_pos.mpr hne
  have hpos' : (0 : Int) < (list.length : Int) := by exact_mod_cast hpos
  refine ⟨hsum, by omega, by omega, randInt_range, weightedPick_mem seed list (by omega), ?_⟩
  intro rt ctx
  constructor
  · intro hmatch
    obtain ⟨m, hm, hok, hmin⟩ :=
      exists_min_matching (fun t => rulesOK t.Match ctx) rt.Scenarios hmatch
    refine ⟨matchingAt ctx m.Priority rt.Scenarios, ?_,
      PickScenario_eq_weightedPick seed rt ctx m hm hok hmin⟩
    have hmem : m ∈ matchingAt ctx m.Priority rt.Scenarios := by
      unfold matchingAt
      rw [List.mem_filter]
      exact ⟨hm, by simp [hok]⟩
    exact List.ne_nil_of_mem hmem
  · intro hno
    rw [PickScenario_no_match seed rt ctx hno]
    cases rt.Default with
    | some d => exact ⟨d, rfl⟩
    | none =>
      cases sortSliceStable rt.Scenarios with
      | nil => exact ⟨fallback, rfl⟩
      | cons s _ => exact ⟨s, rfl⟩

/-- C19, an instance: the candidates with weights `-1` and `1`. -/
theorem weightedPick_safe_witness :
    listNeg ≠ [] ∧ normTotal listNeg < 2 ^ 63 ∧ weightSum listNeg = normTotal listNeg ∧
    (listNeg.length : Int) ≤ weightSum listNeg ∧ 0 < weightSum listNeg ∧
    ∃ s, s ∈ listNeg ∧ weightedPick 7 listNeg = .ok (s, nextSeed 7) :=
  ⟨by simp [listNeg], by decide,
    (weightedPick_safe 7 listNeg (by simp [listNeg]) (by decide)).1,
    (weightedPick_safe 7 listNeg (by simp [listNeg]) (by decide)).2.1,
    (weightedPick_safe 7 listNeg (by simp [listNeg]) (by decide)).2.2.1,
    (weightedPick_safe 7 listNeg (by simp [listNeg]) (by decide)).2.2.2.2.1⟩

/-! ### Proportions under the built-in random source -/

theorem nextSeed_mod_four (seed : Int) : nextSeed seed % 4 = (seed % 4 + 1) % 4 := by
  unfold nextSeed
  omega

theorem pickMany_add (rt : CompiledRoute) (ctx : MatchContext) :
    ∀ (j k : Nat) (seed : Int) (r1 : List CompiledScenario) (s1 : Int)
      (r2 : List CompiledScenario) (s2 : Int),
      pickMany rt ctx j seed = .ok (r1, s1) → pickMany rt ctx k s1 = .ok (r2, s2) →
      pickMany rt ctx (j + k) seed = .ok (r1 ++ r2, s2) := by
  intro j
  induction j with
  | zero =>
    intro k seed r1 s1 r2 s2 h1 h2
    simp only [pickMany, Except.ok.injEq, Prod.mk.injEq] at h1
    obtain ⟨rfl, rfl⟩ := h1
    simpa using h2
  | succ j ih =>
    intro k seed r1 s1 r2 s2 h1 h2
    rw [show j + 1 + k = (j + k) + 1 by omega]
    unfold pickMany at h1 ⊢
    cases hp : PickScenario seed rt ctx with
    | error e => rw [hp] at h1; cases h1
    | ok r =>
      obtain ⟨s, seed'⟩ := r
      rw [hp] at h1
      simp only at h1 ⊢
      cases hm : pickMany rt ctx j seed' with
      | error e => rw [hm] at h1; cases h1
      | ok q =>
        obtain ⟨rest, seed''⟩ := q
        rw [hm] at h1
        simp only [Except.ok.injEq, Prod.mk.injEq] at h1
        obtain ⟨rfl, rfl⟩ := h1
        rw [ih k seed' rest seed'' r2 s2 hm h2]
        rfl

/-- One call on the route of C17: the draw is `nextSeed seed mod 4`, draw 0
gives the scenario of weight 1 and the draws 1, 2, 3 the one of weight 3. -/
theorem PickScenario_one_three (seed : Int) (rt : CompiledRoute) (ctx : MatchContext)
    (s1 a b : CompiledScenario) (hrt : rt.Scenarios = [s1, a, b])
    (hs1 : rulesOK s1.Match ctx = false)
    (ha : a.Priority = 5) (hb : b.Priority = 5)
    (hma : rulesOK a.Match ctx = true) (hmb : rulesOK b.Match ctx = true)
    (hwa : a.Weight = 1) (hwb : b.Weight = 3) :
    PickScenario seed rt ctx = .ok (if nextSeed seed % 4 = 0 then a else b, nextSeed seed) := by
  have hm : a ∈ rt.Scenarios := by rw [hrt]; simp
  have hmin : ∀ t ∈ rt.Scenarios, rulesOK t.Match ctx = true → a.Priority ≤ t.Priority := by
    intro t ht hok
    rw [hrt] at ht
    simp only [List.mem_cons, List.mem_singleton, List.not_mem_nil, or_false] at ht
    rcases ht with rfl | rfl | rfl
    · rw [hs1] at hok; cases hok
    · exact le_refl _
    · omega
  rw [PickScenario_eq_weightedPick seed rt ctx a hm hma hmin]
  have hcand : matchingAt ctx a.Priority rt.Scenarios = [a, b] := by
    unfold matchingAt
    rw [hrt]
    simp [List.filter_cons, hs1, hma, hmb, ha, hb]
  rw [hcand]
  have hsum : weightSum [a, b] = 4 := by
    simp only [weightSum, List.foldl_cons, List.foldl_nil, hwa, hwb]
    decide
  have hseed := nextSeed_nonneg seed
  have htmod : Int.tmod (nextSeed seed) 4 = nextSeed seed % 4 :=
    Int.tmod_eq_emod hseed (by omega)
  have h1 : wrapInt (0 + 1) = 1 := by decide
  have h4 : wrapInt (1 + 3) = 4 := by decide
  have hlt : nextSeed seed % 4 < 4 := Int.emod_lt_of_pos _ (by omega)
  have hge : 0 ≤ nextSeed seed % 4 := Int.emod_nonneg _ (by omega)
  unfold weightedPick randInt
  rw [hsum]
  simp only [show (4 : Int) ≠ 0 by omega, if_false, htmod, weightedWalk, hwa, hwb, h1, h4]
  by_cases h0 : nextSeed seed % 4 = 0
  · simp [h0]
  · have : ¬ (nextSeed seed % 4 < 1) := by omega
    simp [h0, this, hlt]

/-- C17: on a route with a non-matching scenario of priority 1, two matching
scenarios of priority 5 with weights 1 and 3 in this order, and a default, for
every seed and every `N` the `4N` sequential calls of `PickScenario` starting
from that seed all return, the scenario of weight 1 exactly `N` times and the
one of weight 3 exactly `3N` times, and nothing else is returned. -/
theorem PickScenario_quarter_three_quarters (rt : CompiledRoute) (ctx : MatchContext)
    (s1 a b d : CompiledScenario) (hrt : rt.Scenarios = [s1, a, b])
    (_hd : rt.Default = some d) (hp1 : s1.Priority = 1)
    (hs1 : rulesOK s1.Match ctx = false)
    (ha : a.Priority = 5) (hb : b.Priority = 5)
    (hma : rulesOK a.Match ctx = true) (hmb : rulesOK b.Match ctx = true)
    (hwa : a.Weight = 1) (hwb : b.Weight = 3) (seed : Int) (N : Nat) :
    ∃ results seed', pickMany rt ctx (4 * N) seed = .ok (results, seed') ∧
      results.countP (fun r => decide (r.Weight = 1)) = N ∧
      results.countP (fun r => decide (r.Weight = 3)) = 3 * N ∧
      ∀ r ∈ results, (r = a ∨ r = b) ∧ r.Priority ≠ s1.Priority := by
  have hone := fun s => PickScenario_one_three s rt ctx s1 a b hrt hs1 ha hb hma hmb hwa hwb
  have hblock : ∀ s : Int, ∃ res s', pickMany rt ctx 4 s = .ok (res, s') ∧
      res.countP (fun r => decide (r.Weight = 1)) = 1 ∧
      res.countP (fun r => decide (r.Weight = 3)) = 3 ∧
      ∀ r ∈ res, (r = a ∨ r = b) ∧ r.Priority ≠ s1.Priority := by
    intro s
    have e1 := nextSeed_mod_four s
    have e2 := nextSeed_mod_four (nextSeed s)
    have e3 := nextSeed_mod_four (nextSeed (nextSeed s))
    have e4 := nextSeed_mod_four (nextSeed (nextSeed (nextSeed s)))
    have hr : 0 ≤ nextSeed s % 4 ∧ nextSeed s % 4 < 4 :=
      ⟨Int.emod_nonneg _ (by omega), Int.emod_lt_of_pos _ (by omega)⟩
    refine ⟨[if nextSeed s % 4 = 0 then a else b,
        if nextSeed (nextSeed s) % 4 = 0 then a else b,
        if nextSeed (nextSeed (nextSeed s)) % 4 = 0 then a else b,
        if nextSeed (nextSeed (nextSeed (nextSeed s))) % 4 = 0 then a else b],
      nextSeed (nextSeed (nextSeed (nextSeed s))), ?_, ?_, ?_, ?_⟩
    · simp only [pickMany, hone]
    · have h : nextSeed s % 4 = 0 ∨ nextSeed s % 4 = 1 ∨ nextSeed s % 4 = 2 ∨
          nextSeed s % 4 = 3 := by omega
      rcases h with h | h | h | h <;>
        simp [h, e2, e3, e4, hwa, hwb, List.countP_cons]
    · have h : nextSeed s % 4 = 0 ∨ nextSeed s % 4 = 1 ∨ nextSeed s % 4 = 2 ∨
          nextSeed s % 4 = 3 := by omega
      rcases h with h | h | h | h <;>
        simp [h, e2, e3, e4, hwa, hwb, List.countP_cons]
    · intro r hr'
      have hab : ∀ x : Int, ((if x = 0 then a else b) = a ∨ (if x = 0 then a else b) = b) ∧
          (if x = 0 then a else b).Priority ≠ s1.Priority := by
        intro x
        by_cases hx : x = 0
        · simp only [hx, if_true, true_or, true_and]; omega
        · simp only [hx, if_false, or_true, true_and]; omega
      simp only [List.mem_cons, List.mem_singleton, List.not_mem_nil, or_false] at hr'
      rcases hr' with rfl | rfl | rfl | rfl <;> exact hab _
  induction N generalizing seed with
  | zero => exact ⟨[], seed, rfl, rfl, rfl, fun r hr => by cases hr⟩
  | succ N ih =>
    obtain ⟨res, s', hrun, hc1, hc3, hmem⟩ := hblock seed
    obtain ⟨rest, s'', hrun', hc1', hc3', hmem'⟩ := ih s'
    refine ⟨res ++ rest, s'', ?_, ?_, ?_, ?_⟩
    · rw [show 4 * (N + 1) = 4 + 4 * N by omega]
      exact pickMany_add rt ctx 4 (4 * N) seed res s' rest s'' hrun hrun'
    · rw [List.countP_append, hc1, hc1']; omega
    · rw [List.countP_append, hc3, hc3']; omega
    · intro r hr
      rcases List.mem_append.mp hr with h | h
      · exact hmem r h
      · exact hmem' r h

/-- C17, an instance: the example route, a request without parameters, seed 7
and eight calls. -/
theorem PickScenario_quarter_three_quarters_witness :
    rtExample.Scenarios = [scMarket, scOne, scThree] ∧ rtExample.Default = some scDefault ∧
    scMarket.Priority = 1 ∧ rulesOK scMarket.Match ctxEmpty = false ∧
    scOne.Priority = 5 ∧ scThree.Priority = 5 ∧
    rulesOK scOne.Match ctxEmpty = true ∧ rulesOK scThree.Match ctxEmpty = true ∧
    scOne.Weight = 1 ∧ scThree.Weight = 3 ∧
    ∃ results seed', pickMany rtExample ctxEmpty (4 * 2) 7 = .ok (results, seed') ∧
      results.countP (fun r => decide (r.Weight = 1)) = 2 ∧
      results.countP (fun r => decide (r.Weight = 3)) = 3 * 2 ∧
      ∀ r ∈ results, (r = scOne ∨ r = scThree) ∧ r.Priority ≠ scMarket.Priority :=
  ⟨rfl, rfl, rfl, by decide, rfl, rfl, by decide, by decide, rfl, rfl,
    PickScenario_quarter_three_quarters rtExample ctxEmpty scMarket scOne scThree scDefault
      rfl rfl rfl (by decide) rfl rfl (by decide) (by decide) rfl rfl 7 2⟩

/-! ### The path matcher -/

theorem splitOn_ne_nil (sep : Char) (xs : List Char) : splitOn sep xs ≠ [] := by
  cases xs with
  | nil => simp [splitOn]
  | cons c cs =>
    unfold splitOn
    split
    · simp
    · split <;> simp

/-- The first piece of a split and what follows it. -/
theorem splitOn_eq (sep : Char) : ∀ xs : List Char,
    splitOn sep xs = xs.takeWhile (fun c => c ≠ sep) ::
      (match xs.dropWhile (fun c => c ≠ sep) with
       | [] => []
       | _ :: rest => splitOn sep rest) := by
  intro xs
  induction xs with
  | nil => simp [splitOn]
  | cons c cs ih =>
    by_cases hc : c = sep
    · subst hc
      simp [splitOn]
    · have hne := splitOn_ne_nil sep cs
      rw [splitOn, if_neg hc, ih]
      simp [List.takeWhile_cons, List.dropWhile_cons, hc]

theorem splitOn_no_sep (sep : Char) : ∀ (n : Nat) (xs : List Char), xs.length ≤ n →
    ∀ p ∈ splitOn sep xs, ∀ c ∈ p, c ≠ sep := by
  intro n
  induction n with
  | zero =>
    intro xs hlen p hp c hc
    have : xs = [] := List.length_eq_zero.mp (Nat.le_zero.mp hlen)
    subst this
    simp [splitOn] at hp
    subst hp
    cases hc
  | succ n ih =>
    intro xs hlen p hp c hc
    rw [splitOn_eq] at hp
    rcases List.mem_cons.mp hp with rfl | hp
    · simpa using List.mem_takeWhile_imp hc
    · cases hd : xs.dropWhile (fun c => c ≠ sep) with
      | nil => rw [hd] at hp; cases hp
      | cons y rest =>
        rw [hd] at hp
        have hl : (xs.dropWhile (fun c => c ≠ sep)).length ≤ xs.length :=
          (List.dropWhile_sublist _).length_le
        rw [hd] at hl
        simp only [List.length_cons] at hl
        exact ih rest (by omega) p hp c hc

theorem matchToks_lits (ts : List Tok) : ∀ (p ys : List Char),
    matchToks (p.map Tok.lit ++ ts) (p ++ ys) = matchToks ts ys := by
  intro p
  induction p with
  | nil => intro ys; rfl
  | cons c p ih =>
    intro ys
    simp only [List.map_cons, List.cons_append, matchToks, if_true]
    exact ih ys

theorem matchToks_lits_none (ts : List Tok) : ∀ (p xs : List Char), ¬ p <+: xs →
    matchToks (p.map Tok.lit ++ ts) xs = none := by
  intro p
  induction p with
  | nil => intro xs h; exact absurd (List.nil_prefix) h
  | cons c p ih =>
    intro xs h
    cases xs with
    | nil => simp [matchToks]
    | cons x xs =>
      simp only [List.map_cons, List.cons_append, matchToks]
      by_cases hx : x = c
      · subst hx
        rw [if_pos rfl]
        apply ih
        intro hp
        exact h ((List.cons_prefix_cons).mpr ⟨rfl, hp⟩)
      · rw [if_neg hx]

theorem matchToks_after_nonslash {ts : List Tok} (h : EndOrSlash ts) (c : Char) (hc : c ≠ '/')
    (rest : List Char) : matchToks ts (c :: rest) = none := by
  rcases h with rfl | ⟨ts', rfl⟩
  · simp [matchToks]
  · simp [matchToks, hc]

theorem takeWhile_append_dropWhile_run (xs : List Char) :
    xs = xs.takeWhile (fun c => c ≠ '/') ++ xs.dropWhile (fun c => c ≠ '/') :=
  (List.takeWhile_append_dropWhile _ xs).symm

theorem take_takeWhile_length (p : Char → Bool) : ∀ xs : List Char,
    xs.take (xs.takeWhile p).length = xs.takeWhile p := by
  intro xs
  induction xs with
  | nil => rfl
  | cons x xs ih =>
    by_cases hx : p x = true
    · simp [List.takeWhile_cons, hx, ih]
    · simp [List.takeWhile_cons, hx]

theorem drop_takeWhile_length (p : Char → Bool) : ∀ xs : List Char,
    xs.drop (xs.takeWhile p).length = xs.dropWhile p := by
  intro xs
  induction xs with
  | nil => rfl
  | cons x xs ih =>
    by_cases hx : p x = true
    · simp [List.takeWhile_cons, List.dropWhile_cons, hx, ih]
    · simp [List.takeWhile_cons, List.dropWhile_cons, hx]

theorem matchToks_group_eq (ts : List Tok) (xs : List Char) :
    matchToks (Tok.group :: ts) xs =
      (groupSplits xs).findSome?
        (fun vr => (matchToks ts vr.2).map (fun caps => vr.1 :: caps)) := by
  rw [matchToks]

theorem matchToks_group {ts : List Tok} (h : EndOrSlash ts) (xs : List Char) :
    matchToks (Tok.group :: ts) xs =
      if xs.takeWhile (fun c => c ≠ '/') ≠ [] then
        (matchToks ts (xs.dropWhile (fun c => c ≠ '/'))).map
          (fun caps => xs.takeWhile (fun c => c ≠ '/') :: caps)
      else none := by
  rw [matchToks_group_eq]
  unfold groupSplits
  have htake0 := take_takeWhile_length (fun c => decide (c ≠ '/')) xs
  have hdrop0 := drop_takeWhile_length (fun c => decide (c ≠ '/')) xs
  have hxs := takeWhile_append_dropWhile_run xs
  generalize xs.dropWhile (fun c => decide (c ≠ '/')) = d at htake0 hdrop0 hxs ⊢
  have hrunslash : ∀ c ∈ xs.takeWhile (fun c => decide (c ≠ '/')), c ≠ '/' := by
    intro c hc
    simpa using List.mem_takeWhile_imp hc
  generalize xs.takeWhile (fun c => decide (c ≠ '/')) = run at htake0 hdrop0 hxs hrunslash ⊢
  cases hn : run.length with
  | zero =>
    have : run = [] := List.length_eq_zero.mp hn
    simp [this]
  | succ n =>
    have hne : run ≠ [] := by
      intro h0; rw [h0] at hn; simp at hn
    rw [if_pos hne, List.range_succ, List.reverse_append, List.reverse_singleton,
      List.singleton_append, List.map_cons, List.findSome?_cons]
    rw [hn] at htake0 hdrop0
    simp only [htake0, hdrop0]
    cases hfirst : matchToks ts d with
    | some caps => rfl
    | none =>
      simp only [Option.map_none']
      rw [List.findSome?_eq_none_iff]
      intro vr hvr
      rw [List.mem_map] at hvr
      obtain ⟨k, hk, rfl⟩ := hvr
      rw [List.mem_reverse, List.mem_range] at hk
      have hdropk : xs.drop (k + 1) = run.drop (k + 1) ++ d := by
        conv_lhs => rw [hxs]
        rw [List.drop_append_of_le_length (by omega)]
      cases hrd : run.drop (k + 1) with
      | nil =>
        have := List.drop_eq_nil_iff.mp hrd
        omega
      | cons c rest =>
        have hcmem : c ∈ run := by
          have : c ∈ run.drop (k + 1) := by rw [hrd]; exact List.mem_cons_self _ _
          exact (List.drop_sublist _ _).subset this
        have hc : c ≠ '/' := hrunslash c hcmem
        simp only [hdropk, hrd, List.cons_append, matchToks_after_nonslash h c hc,
          Option.map_none']

theorem dropWhile_head_not (p : Char → Bool) : ∀ (xs : List Char) (y : Char) (r : List Char),
    xs.dropWhile p = y :: r → p y = false := by
  intro xs
  induction xs with
  | nil => intro y r h; cases h
  | cons x xs ih =>
    intro y r h
    by_cases hx : p x = true
    · rw [List.dropWhile_cons, if_pos hx] at h
      exact ih y r h
    · rw [List.dropWhile_cons, if_neg hx] at h
      cases h
      simpa using hx

theorem prefix_takeWhile (q : Char → Bool) : ∀ (p xs : List Char),
    (∀ c ∈ p, q c = true) → p <+: xs → p <+: xs.takeWhile q := by
  intro p
  induction p with
  | nil => intro xs _ _; exact List.nil_prefix
  | cons c p ih =>
    intro xs hq hp
    cases xs with
    | nil => exact absurd hp (by simp)
    | cons x xs =>
      obtain ⟨rfl, hp'⟩ := List.cons_prefix_cons.mp hp
      rw [List.takeWhile_cons, if_pos (hq c (List.mem_cons_self _ _))]
      exact List.cons_prefix_cons.mpr
        ⟨rfl, ih xs (fun d hd => hq d (List.mem_cons_of_mem _ hd)) hp'⟩

theorem matchToks_literal_part {ts : List Tok} (h : EndOrSlash ts) (p : List Char)
    (hp : ∀ c ∈ p, c ≠ '/') (xs : List Char) :
    matchToks (p.map Tok.lit ++ ts) xs =
      if xs.takeWhile (fun c => c ≠ '/') = p then
        matchToks ts (xs.dropWhile (fun c => c ≠ '/'))
      else none := by
  by_cases hrun : xs.takeWhile (fun c => c ≠ '/') = p
  · rw [if_pos hrun]
    conv_lhs => rw [takeWhile_append_dropWhile_run xs, hrun]
    exact matchToks_lits ts p _
  · rw [if_neg hrun]
    by_cases hpre : p <+: xs
    · have hpr := prefix_takeWhile (fun c => decide (c ≠ '/')) p xs
        (fun c hc => by simpa using hp c hc) hpre
      obtain ⟨e, he⟩ := hpr
      cases e with
      | nil => exact absurd (by simpa using he.symm) hrun
      | cons c e' =>
        have hcmem : c ∈ xs.takeWhile (fun c => decide (c ≠ '/')) := by
          rw [← he]; simp
        have hc : c ≠ '/' := by simpa using List.mem_takeWhile_imp hcmem
        conv_lhs => rw [takeWhile_append_dropWhile_run xs, ← he, List.append_assoc]
        rw [matchToks_lits, List.cons_append]
        exact matchToks_after_nonslash h c hc _
    · exact matchToks_lits_none ts p xs hpre

theorem matchToks_part {ts : List Tok} (h : EndOrSlash ts) (p : List Char)
    (hp : ∀ c ∈ p, c ≠ '/') (xs : List Char) :
    matchToks (partToks p ++ ts) xs =
      if isParam p then
        if xs.takeWhile (fun c => c ≠ '/') ≠ [] then
          (matchToks ts (xs.dropWhile (fun c => c ≠ '/'))).map
            (fun caps => xs.takeWhile (fun c => c ≠ '/') :: caps)
        else none
      else if xs.takeWhile (fun c => c ≠ '/') = p then
        matchToks ts (xs.dropWhile (fun c => c ≠ '/'))
      else none := by
  unfold partToks
  by_cases hparam : isParam p = true
  · simp only [hparam, if_true, List.singleton_append]
    exact matchToks_group h xs
  · simp only [hparam, Bool.false_eq_true, if_false]
    exact matchToks_literal_part h p hp xs

/-- The pattern written for the parts of a template matches a text exactly when
the parts match the segments of the text, with the same group values. -/
theorem matchToks_compileParts : ∀ parts : List (List Char), parts ≠ [] →
    (∀ p ∈ parts, ∀ c ∈ p, c ≠ '/') → ∀ xs : List Char,
    matchToks (compileParts parts).1 xs = matchSegs parts (splitOn '/' xs) := by
  intro parts
  induction parts with
  | nil => intro h; exact absurd rfl h
  | cons p ps ih =>
    intro _ hns xs
    have hp := hns p (List.mem_cons_self _ _)
    rw [splitOn_eq]
    cases ps with
    | nil =>
      have hstep := matchToks_part (Or.inl rfl) p hp xs
      rw [List.append_nil] at hstep
      simp only [compileParts, hstep, matchSegs]
      cases hd : xs.dropWhile (fun c => decide (c ≠ '/')) with
      | nil => simp [matchToks, matchSegs]
      | cons y r =>
        have := splitOn_ne_nil '/' r
        cases hs : splitOn '/' r with
        | nil => exact absurd hs this
        | cons s ss => simp [matchToks, matchSegs, hs]
    | cons q rest =>
      have hstep := matchToks_part (Or.inr ⟨(compileParts (q :: rest)).1, rfl⟩) p hp xs
      have ih' := ih (by simp) (fun p' hp' => hns p' (List.mem_cons_of_mem _ hp'))
      simp only [compileParts, hstep, matchSegs]
      cases hd : xs.dropWhile (fun c => decide (c ≠ '/')) with
      | nil => simp [matchToks, matchSegs]
      | cons y r =>
        have hy : y = '/' := by
          have := dropWhile_head_not _ xs y r hd
          simpa using this
        subst hy
        simp only [matchToks, if_true, ih' r]

theorem matchSegs_eq_some_iff : ∀ (parts segs caps : List (List Char)),
    matchSegs parts segs = some caps ↔
      List.Forall₂ SegmentFits parts segs ∧ caps = paramValues parts segs := by
  intro parts
  induction parts with
  | nil =>
    intro segs caps
    cases segs with
    | nil => simp [matchSegs, paramValues, eq_comm]
    | cons s ss => simp [matchSegs]
  | cons p ps ih =>
    intro segs caps
    cases segs with
    | nil => simp [matchSegs]
    | cons s ss =>
      rw [List.forall₂_cons]
      unfold matchSegs paramValues SegmentFits
      by_cases hparam : isParam p = true
      · simp only [hparam, if_true]
        by_cases hs : s = []
        · simp [hs]
        · simp only [ne_eq, hs, not_false_eq_true, if_true, Option.map_eq_some', true_and]
          constructor
          · rintro ⟨caps', hc, rfl⟩
            obtain ⟨h1, h2⟩ := (ih ss caps').mp hc
            exact ⟨h1, by rw [h2]⟩
          · rintro ⟨h1, rfl⟩
            exact ⟨paramValues ps ss, (ih ss _).mpr ⟨h1, rfl⟩, rfl⟩
      · simp only [hparam, Bool.false_eq_true, if_false]
        by_cases hs : s = p
        · simp only [hs, if_true, true_and]
          exact ih ss caps
        · simp [hs]

/-- C11 as stated fails: the path `/widgets/` has as many segments as the
template `/widgets/:id`, the same literal segment, and its parameter value, the
empty text, contains no `/`; the pattern requires at least one character and
does not match. -/
theorem compilePath_rejects_empty_value :
    splitOn '/' (trimPrefix '/' "/widgets/:id".data) = ["widgets".data, ":id".data] ∧
      splitOn '/' (trimPrefix '/' "/widgets/".data) = ["widgets".data, []] ∧
      (∀ c ∈ ([] : List Char), c ≠ '/') ∧
      FindStringSubmatch (compilePath "/widgets/:id").1 "/widgets/" = none := by
  refine ⟨by decide, by decide, by simp, by decide⟩

/-- C11 (amended): for every template and every path, the matcher built by
`compilePath` gives exactly the result of the segment-wise comparison: it
matches when the path starts with `/`, has as many segments as the template has
parts, every literal part equals its segment and every parameter segment is
not empty (a segment never contains `/`), and then returns the parameter
segments in template order; it rejects every other path. -/
theorem compilePath_matches_segmentwise (tpl path : String) :
    matchToks (compilePath tpl).1 path.data = matchTemplate tpl path.data ∧
    FindStringSubmatch (compilePath tpl).1 path
      = (matchTemplate tpl path.data).map (fun caps => path :: caps.map String.mk) ∧
    (∀ rest caps, path.data = '/' :: rest →
      (matchTemplate tpl path.data = some caps ↔
        List.Forall₂ SegmentFits (splitOn '/' (trimPrefix '/' tpl.data)) (splitOn '/' rest) ∧
        caps = paramValues (splitOn '/' (trimPrefix '/' tpl.data)) (splitOn '/' rest))) ∧
    (∀ seg ∈ splitOn '/' (path.data.drop 1), ∀ c ∈ seg, c ≠ '/') ∧
    FindStringSubmatch (compilePath "/widgets/:id").1 "/widgets/42"
      = some ["/widgets/42", "42"] ∧
    FindStringSubmatch (compilePath "/a/:x/b/:y").1 "/a/1/b/2" = some ["/a/1/b/2", "1", "2"] ∧
    FindStringSubmatch (compilePath "/widgets/:id").1 "/gadgets/42" = none ∧
    FindStringSubmatch (compilePath "/widgets/:id").1 "/widgets/42/x" = none ∧
    FindStringSubmatch (compilePath "/widgets/:id").1 "/widgets" = none := by
  have hmain : matchToks (compilePath tpl).1 path.data = matchTemplate tpl path.data := by
    unfold compilePath matchTemplate
    cases hp : path.data with
    | nil => simp [matchToks]
    | cons x rest =>
      by_cases hx : x = '/'
      · subst hx
        simp only [matchToks, if_true]
        exact matchToks_compileParts _ (splitOn_ne_nil _ _)
          (splitOn_no_sep '/' _ _ (le_refl _)) rest
      · simp only [matchToks, if_neg hx]
        split
        · rename_i heq
          simp only [List.cons.injEq] at heq
          exact absurd heq.1 hx
        · rfl
  refine ⟨hmain, ?_, ?_, ?_, by decide, by decide, by decide, by decide, by decide⟩
  · unfold FindStringSubmatch
    rw [hmain]
  · intro rest caps hrest
    rw [hrest]
    unfold matchTemplate
    exact matchSegs_eq_some_iff _ _ _
  · exact splitOn_no_sep '/' _ _ (le_refl _)

/-! ### Parameter names and capture groups -/

theorem matchToks_length : ∀ (ts : List Tok) (xs : List Char) (caps : List (List Char)),
    matchToks ts xs = some caps → caps.length = groupCount ts := by
  intro ts
  induction ts with
  | nil =>
    intro xs caps h
    unfold matchToks at h
    split at h
    · cases h; rfl
    · cases h
  | cons t ts ih =>
    intro xs caps h
    cases t with
    | lit c =>
      cases xs with
      | nil => simp [matchToks] at h
      | cons x rest =>
        simp only [matchToks] at h
        split at h
        · simpa [groupCount] using ih rest caps h
        · cases h
    | group =>
      rw [matchToks_group_eq] at h
      obtain ⟨vr, _, hvr⟩ := List.exists_of_findSome?_eq_some h
      rw [Option.map_eq_some'] at hvr
      obtain ⟨caps', hc, rfl⟩ := hvr
      simp [groupCount, ih _ _ hc]

theorem groupCount_append (a b : List Tok) : groupCount (a ++ b) = groupCount a + groupCount b := by
  induction a with
  | nil => simp [groupCount]
  | cons t a ih =>
    cases t with
    | lit c => simpa [groupCount] using ih
    | group =>
      show groupCount (a ++ b) + 1 = groupCount a + 1 + groupCount b
      rw [ih]
      omega

theorem groupCount_lits (p : List Char) : groupCount (p.map Tok.lit) = 0 := by
  induction p with
  | nil => rfl
  | cons c p ih => simpa [groupCount] using ih

theorem groupCount_partToks (p : List Char) : groupCount (partToks p) = (partNames p).length := by
  unfold partToks partNames
  by_cases hp : isParam p = true
  · simp [hp, groupCount]
  · simp only [hp, Bool.false_eq_true, if_false, List.length_nil]
    exact groupCount_lits p

theorem compileParts_spec : ∀ parts : List (List Char),
    (compileParts parts).2 = (parts.filter isParam).map (fun p => String.mk (p.drop 1)) ∧
    groupCount (compileParts parts).1 = (compileParts parts).2.length := by
  intro parts
  induction parts with
  | nil => exact ⟨rfl, rfl⟩
  | cons p ps ih =>
    have hnames : partNames p = ([p].filter isParam).map (fun p => String.mk (p.drop 1)) := by
      unfold partNames
      by_cases hp : isParam p = true <;> simp [hp]
    cases ps with
    | nil =>
      refine ⟨?_, ?_⟩
      · simp only [compileParts]; exact hnames
      · simp only [compileParts]; exact groupCount_partToks p
    | cons q rest =>
      refine ⟨?_, ?_⟩
      · simp only [compileParts]
        rw [ih.1, hnames, ← List.map_append, ← List.filter_append]
        rfl
      · simp only [compileParts]
        rw [groupCount_append, List.length_append, groupCount_partToks]
        simp only [groupCount]
        rw [ih.2]

theorem bindParamsFrom_ok (m : List String) : ∀ (names : List String) (i : Nat)
    (params : List (String × String)), i + names.length + 1 ≤ m.length →
    ∃ ps, bindParamsFrom m i names params = .ok ps := by
  intro names
  induction names with
  | nil => intro i params _; exact ⟨params, rfl⟩
  | cons name rest ih =>
    intro i params h
    simp only [List.length_cons] at h
    have hlt : i + 1 < m.length := by omega
    unfold bindParamsFrom
    rw [List.get?_eq_get hlt]
    exact ih (i + 1) _ (by omega)

theorem buildRoutes_mem (compiles : String → Bool) : ∀ (rcs : List RouteCfg)
    (crs : List CompiledRoute), buildRoutes compiles rcs = .ok crs →
    ∀ cr ∈ crs, ∃ rc ∈ rcs, buildRoute compiles rc = .ok cr := by
  intro rcs
  induction rcs with
  | nil =>
    intro crs h cr hcr
    simp only [buildRoutes, Except.ok.injEq] at h
    subst h
    cases hcr
  | cons rc rest ih =>
    intro crs h cr hcr
    unfold buildRoutes at h
    cases hb : buildRoute compiles rc with
    | error e => rw [hb] at h; cases h
    | ok c =>
      rw [hb] at h
      cases hr : buildRoutes compiles rest with
      | error e => rw [hr] at h; cases h
      | ok cs =>
        rw [hr] at h
        simp only [Except.ok.injEq] at h
        subst h
        rcases List.mem_cons.mp hcr with rfl | hmem
        · exact ⟨rc, List.mem_cons_self _ _, hb⟩
        · obtain ⟨rc', hrc', hb'⟩ := ih cs hr cr hmem
          exact ⟨rc', List.mem_cons_of_mem _ hrc', hb'⟩

theorem buildRoute_fields (compiles : String → Bool) (rc : RouteCfg) (cr : CompiledRoute)
    (h : buildRoute compiles rc = .ok cr) :
    cr.PathRE = (compilePath rc.PathTemplate).1 ∧
    cr.ParamNames = (compilePath rc.PathTemplate).2 ∧
    cr.Scenarios = rc.Scenarios.map buildScenario ∧
    cr.Default = rc.Default.map buildDefault := by
  unfold buildRoute at h
  cases hs : buildSchema compiles rc with
  | error e => rw [hs] at h; cases h
  | ok sch =>
    rw [hs] at h
    simp only [Except.ok.injEq] at h
    subst h
    exact ⟨rfl, rfl, rfl, rfl⟩

/-- C12: the names that `compilePath` returns are the colon-prefixed parts of
the template without the colon, in template order; there are as many names as
groups in the pattern; a match has one entry more than there are names; hence
for every route of a table that `Build` returns and every path that its
pattern matches, the loop that reads `m[i+1]` for every name stays within
`m`; and `/widgets/:id` gives the names `["id"]`. -/
theorem compilePath_names_align (tpl : String) :
    (compilePath tpl).2
      = ((splitOn '/' (trimPrefix '/' tpl.data)).filter isParam).map
          (fun p => String.mk (p.drop 1)) ∧
    groupCount (compilePath tpl).1 = (compilePath tpl).2.length ∧
    (∀ (path : String) (m : List String),
      FindStringSubmatch (compilePath tpl).1 path = some m →
        m.length = (compilePath tpl).2.length + 1) ∧
    (∀ (compiles : String → Bool) (cfg : Config) (snap : Snapshot),
      Build compiles cfg = .ok snap → ∀ cr ∈ snap.Routes, ∀ (path : String) (m : List String),
        FindStringSubmatch cr.PathRE path = some m →
          m.length = cr.ParamNames.length + 1 ∧
          ∃ params, bindParams cr.ParamNames m = .ok params) ∧
    (compilePath "/widgets/:id").2 = ["id"] ∧
    (∃ snap, Build (fun _ => true) cfgWidgets = .ok snap ∧
      (snap.Routes.map (fun cr => cr.ParamNames)) = [["id"]]) := by
  have hspec := fun t : String => compileParts_spec (splitOn '/' (trimPrefix '/' t.data))
  have hcount : ∀ t : String, groupCount (compilePath t).1 = (compilePath t).2.length := by
    intro t
    simpa [compilePath, groupCount] using (hspec t).2
  have hlen : ∀ (t path : String) (m : List String),
      FindStringSubmatch (compilePath t).1 path = some m →
        m.length = (compilePath t).2.length + 1 := by
    intro t path m hm
    unfold FindStringSubmatch at hm
    rw [Option.map_eq_some'] at hm
    obtain ⟨caps, hc, rfl⟩ := hm
    have := matchToks_length _ _ _ hc
    simp [this, hcount t]
  refine ⟨(hspec tpl).1, hcount tpl, hlen tpl, ?_, by decide, ⟨_, rfl, by decide⟩⟩
  intro compiles cfg snap hb cr hcr path m hm
  unfold Build at hb
  cases hroutes : buildRoutes compiles cfg.Routes with
  | error e => rw [hroutes] at hb; cases hb
  | ok crs =>
    rw [hroutes] at hb
    simp only [Except.ok.injEq] at hb
    subst hb
    obtain ⟨rc, _, hrc⟩ := buildRoutes_mem compiles _ _ hroutes cr hcr
    obtain ⟨hre, hnames, _, _⟩ := buildRoute_fields compiles rc cr hrc
    rw [hre] at hm
    have hl := hlen rc.PathTemplate path m hm
    rw [hnames]
    refine ⟨hl, ?_⟩
    exact bindParamsFrom_ok m _ 0 [] (by omega)

/-! ### The defaults that `Build` applies -/

theorem dropWhile_eq_nil_iff_all (p : Char → Bool) (s : List Char) :
    s.dropWhile p = [] ↔ s.all p = true := by
  induction s with
  | nil => simp
  | cons c s ih =>
    by_cases hc : p c = true
    · simp [List.dropWhile_cons, hc, ih]
    · simp [List.dropWhile_cons, hc]

theorem trimBoth_eq_nil_iff (p : Char → Bool) (s : List Char) :
    trimBoth p s = [] ↔ s.all p = true := by
  unfold trimBoth
  rw [List.reverse_eq_nil_iff, dropWhile_eq_nil_iff_all]
  constructor
  · intro h
    rw [List.all_reverse] at h
    -- what is left after dropping a prefix satisfies `p` throughout, so it is empty
    have hd : s.dropWhile p = [] := by
      cases hdw : s.dropWhile p with
      | nil => rfl
      | cons y r =>
        have hy := dropWhile_head_not p s y r hdw
        rw [hdw] at h
        simp [hy] at h
    exact (dropWhile_eq_nil_iff_all p s).mp hd
  · intro h
    rw [(dropWhile_eq_nil_iff_all p s).mpr h]
    rfl

theorem ifEmpty_eq (v alt : String) : ifEmpty v alt = if isBlank v then alt else v := by
  unfold ifEmpty isBlank
  by_cases h : v.data.all isSpace = true
  · rw [if_pos ((trimBoth_eq_nil_iff _ _).mpr h), if_pos h]
  · rw [if_neg (fun h' => h ((trimBoth_eq_nil_iff _ _).mp h')), if_neg h]

theorem buildRoutes_forall₂ (compiles : String → Bool) : ∀ (rcs : List RouteCfg)
    (crs : List CompiledRoute), buildRoutes compiles rcs = .ok crs →
    List.Forall₂ (fun rc cr => buildRoute compiles rc = .ok cr) rcs crs := by
  intro rcs
  induction rcs with
  | nil =>
    intro crs h
    simp only [buildRoutes, Except.ok.injEq] at h
    subst h
    exact List.Forall₂.nil
  | cons rc rest ih =>
    intro crs h
    unfold buildRoutes at h
    cases hb : buildRoute compiles rc with
    | error e => rw [hb] at h; cases h
    | ok c =>
      rw [hb] at h
      cases hr : buildRoutes compiles rest with
      | error e => rw [hr] at h; cases h
      | ok cs =>
        rw [hr] at h
        simp only [Except.ok.injEq] at h
        subst h
        exact List.Forall₂.cons hb (ih cs hr)

/-- C13: for every configuration that `Build` compiles successfully, the
compiled routes correspond one-to-one and in order to the configured routes;
the scenarios of each route correspond one-to-one and in order to the
configured scenarios, each with the configured name and match rules, weight 1
if the configured weight is 0 and the configured weight otherwise, priority
100 if the configured priority is 0 and the configured priority otherwise; and
a configured default is compiled to a default with name `default` if the
configured name is blank, else the configured name, and status 200 if the
configured status is 0, else the configured status; without a configured
default there is no compiled one. -/
theorem Build_applies_defaults (compiles : String → Bool) (cfg : Config) (snap : Snapshot)
    (h : Build compiles cfg = .ok snap) :
    List.Forall₂ (fun rc cr =>
      List.Forall₂ (fun sc cs =>
          cs.Name = sc.Name ∧ cs.Match = sc.Match ∧
          cs.Weight = (if sc.Weight = 0 then 1 else sc.Weight) ∧
          cs.Priority = (if sc.Priority = 0 then 100 else sc.Priority))
        rc.Scenarios cr.Scenarios ∧
      (∀ d, rc.Default = some d → ∃ cd, cr.Default = some cd ∧
        cd.Name = (if isBlank d.Name then "default" else d.Name) ∧
        cd.Status = (if d.Status = 0 then 200 else d.Status)) ∧
      (rc.Default = none → cr.Default = none))
      cfg.Routes snap.Routes := by
  unfold Build at h
  cases hroutes : buildRoutes compiles cfg.Routes with
  | error e => rw [hroutes] at h; cases h
  | ok crs =>
    rw [hroutes] at h
    simp only [Except.ok.injEq] at h
    subst h
    refine List.Forall₂.imp ?_ (buildRoutes_forall₂ compiles _ _ hroutes)
    intro rc cr hrc
    obtain ⟨_, _, hsc, hdef⟩ := buildRoute_fields compiles rc cr hrc
    refine ⟨?_, ?_, ?_⟩
    · rw [hsc, List.forall₂_map_right_iff]
      exact List.forall₂_same.mpr (fun sc _ => ⟨rfl, rfl, rfl, rfl⟩)
    · intro d hd
      rw [hdef, hd]
      exact ⟨buildDefault d, rfl, ifEmpty_eq _ _, rfl⟩
    · intro hd
      rw [hdef, hd]
      rfl

/-- C13, an instance: a route with an all-default scenario, a scenario with
weight 5 and priority 7, and a default with a blank name. -/
theorem Build_applies_defaults_witness :
    Build (fun _ => true) cfgDefaults = .ok snapDefaults ∧
    (snapDefaults.Routes.map (fun cr =>
        (cr.Scenarios.map (fun cs => (cs.Name, cs.Weight, cs.Priority)),
          cr.Default.map (fun cd => (cd.Name, cd.Status)))))
      = [([("plain", 1, 100), ("vip", 5, 7)], some ("default", 200))] ∧
    List.Forall₂ (fun rc cr =>
      List.Forall₂ (fun sc cs =>
          cs.Name = sc.Name ∧ cs.Match = sc.Match ∧
          cs.Weight = (if sc.Weight = 0 then 1 else sc.Weight) ∧
          cs.Priority = (if sc.Priority = 0 then 100 else sc.Priority))
        rc.Scenarios cr.Scenarios ∧
      (∀ d, rc.Default = some d → ∃ cd, cr.Default = some cd ∧
        cd.Name = (if isBlank d.Name then "default" else d.Name) ∧
        cd.Status = (if d.Status = 0 then 200 else d.Status)) ∧
      (rc.Default = none → cr.Default = none))
      cfgDefaults.Routes snapDefaults.Routes :=
  ⟨rfl, by decide, Build_applies_defaults (fun _ => true) cfgDefaults snapDefaults rfl⟩

/-! ### Import and the active table -/

/-- C14: the active table after `handleImport` is the table before it whenever
the body cannot be read, the document does not decode, or `Build` returns an
error (and then no table); when the document decodes and `Build` succeeds the
active table is exactly the table `Build` returned; so the table changes only
through a successful `Build`. E.g. a schema that does not compile makes `Build`
fail with the route's method and path and leaves the table in place. -/
theorem handleImport_compile_then_swap (jsonUnmarshal yamlUnmarshal : Decoder)
    (compiles : String → Bool) (active : Snapshot) (req : ImportRequest) :
    (req.ReadOK = false →
      handleImport jsonUnmarshal yamlUnmarshal compiles active req = (active, 400)) ∧
    (decodeImport jsonUnmarshal yamlUnmarshal req = none →
      handleImport jsonUnmarshal yamlUnmarshal compiles active req = (active, 400)) ∧
    (∀ cfg e, decodeImport jsonUnmarshal yamlUnmarshal req = some cfg →
      Build compiles cfg = .error e →
      handleImport jsonUnmarshal yamlUnmarshal compiles active req = (active, 400)) ∧
    (∀ cfg snap, req.ReadOK = true →
      decodeImport jsonUnmarshal yamlUnmarshal req = some cfg →
      Build compiles cfg = .ok snap →
      handleImport jsonUnmarshal yamlUnmarshal compiles active req = (snap, 200)) ∧
    ((handleImport jsonUnmarshal yamlUnmarshal compiles active req).2 ≠ 200 →
      (handleImport jsonUnmarshal yamlUnmarshal compiles active req).1 = active) ∧
    ((handleImport jsonUnmarshal yamlUnmarshal compiles active req).2 = 200 →
      ∃ cfg, decodeImport jsonUnmarshal yamlUnmarshal req = some cfg ∧
        Build compiles cfg
          = .ok (handleImport jsonUnmarshal yamlUnmarshal compiles active req).1) ∧
    (Build (fun _ => false) cfgSchema = .error ⟨"post", "/orders"⟩ ∧
      handleImport (fun _ _ => (cfgSchema, true)) (fun _ c => (c, false)) (fun _ => false)
        snapInitial { ContentType := "application/json", Body := "doc" } = (snapInitial, 400)) := by
  refine ⟨?_, ?_, ?_, ?_, ?_, ?_, ⟨by rfl, by rfl⟩⟩
  · intro h
    simp [handleImport, h]
  · intro h
    unfold handleImport
    split
    · rfl
    · rw [h]
  · intro cfg e hd hb
    unfold handleImport
    split
    · rfl
    · rw [hd]
      simp only [hb]
  · intro cfg snap hr hd hb
    unfold handleImport
    rw [if_neg (by simp [hr]), hd]
    simp only [hb]
  · intro h
    by_cases hr : req.ReadOK = false
    · simp [handleImport, hr]
    · cases hd : decodeImport jsonUnmarshal yamlUnmarshal req with
      | none => simp [handleImport, hr, hd]
      | some cfg =>
        cases hb : Build compiles cfg with
        | error e => simp [handleImport, hr, hd, hb]
        | ok snap => simp [handleImport, hr, hd, hb] at h
  · intro h
    by_cases hr : req.ReadOK = false
    · simp [handleImport, hr] at h
    · cases hd : decodeImport jsonUnmarshal yamlUnmarshal req with
      | none => simp [handleImport, hr, hd] at h
      | some cfg =>
        cases hb : Build compiles cfg with
        | error e => simp [handleImport, hr, hd, hb] at h
        | ok snap =>
          refine ⟨cfg, rfl, ?_⟩
          simp [handleImport, hr, hd, hb]

/-- C18: the code on a request between whose middleware and handler one import
is handled. The key `DEMO_KEY` is checked against the initial table and
accepted; the handler loads the active table again and gets the imported one,
a different table whose key set does not hold `DEMO_KEY`. Without an import in
between the two tables are the same. -/
theorem request_sees_two_tables :
    (serveRequest decodeWidgets decodeWidgets (fun _ => true) snapInitial
        [{ ContentType := "application/json", Body := "widgets" }]
        "DEMO_KEY" true "GET" "/widgets/42").Status = none ∧
    (serveRequest decodeWidgets decodeWidgets (fun _ => true) snapInitial
        [{ ContentType := "application/json", Body := "widgets" }]
        "DEMO_KEY" true "GET" "/widgets/42").Checked.APIKeys = ["DEMO_KEY"] ∧
    ((serveRequest decodeWidgets decodeWidgets (fun _ => true) snapInitial
        [{ ContentType := "application/json", Body := "widgets" }]
        "DEMO_KEY" true "GET" "/widgets/42").Used.map (fun t => (t.Project, t.APIKeys)))
      = some ("shop", ["k1"]) ∧
    ((serveRequest decodeWidgets decodeWidgets (fun _ => true) snapInitial
        [{ ContentType := "application/json", Body := "widgets" }]
        "DEMO_KEY" true "GET" "/widgets/42").Checked.Project) = "demo" ∧
    ((serveRequest decodeWidgets decodeWidgets (fun _ => true) snapInitial []
        "DEMO_KEY" true "GET" "/widgets/42").Used.map (fun t => (t.Project, t.APIKeys)))
      = some ("demo", ["DEMO_KEY"]) := by
  refine ⟨by decide, by decide, by decide, by decide, by decide⟩

/-! ### Token replacement -/

theorem replaceFrom_skip (old new : List Char) : ∀ (xs rest : List Char),
    replaceFrom old new xs.length (xs ++ rest) = replaceFrom old new 0 rest := by
  intro xs
  induction xs with
  | nil => intro rest; rfl
  | cons x xs ih =>
    intro rest
    rw [List.length_cons, List.cons_append, replaceFrom]
    exact ih rest

theorem replaceFrom_match (old new : List Char) (hne : old ≠ []) (rest : List Char) :
    replaceFrom old new 0 (old ++ rest) = new ++ replaceFrom old new 0 rest := by
  cases old with
  | nil => exact absurd rfl hne
  | cons c cs =>
    have hp : (c :: cs).isPrefixOf (c :: (cs ++ rest)) = true := by
      rw [List.isPrefixOf_iff_prefix]
      exact List.prefix_append (c :: cs) rest
    show replaceFrom (c :: cs) new 0 (c :: (cs ++ rest)) = _
    rw [replaceFrom, if_pos hp]
    simp only [List.length_cons, Nat.add_sub_cancel]
    rw [replaceFrom_skip]

theorem replaceFrom_step (old new : List Char) (c : Char) (cs : List Char)
    (h : ¬ old <+: (c :: cs)) :
    replaceFrom old new 0 (c :: cs) = c :: replaceFrom old new 0 cs := by
  rw [replaceFrom, if_neg]
  rw [List.isPrefixOf_iff_prefix]
  exact h

theorem replaceFrom_plain (name new : List Char) : ∀ (c rest : List Char), plainText c = true →
    replaceFrom (tokenKey name).data new 0 (c ++ rest)
      = c ++ replaceFrom (tokenKey name).data new 0 rest := by
  intro c
  induction c with
  | nil => intro rest _; rfl
  | cons x xs ih =>
    intro rest h
    unfold plainText at h
    simp only [Bool.and_eq_true, Bool.or_eq_true, bne_iff_ne, ne_eq] at h
    obtain ⟨hx, hxs⟩ := h
    have hnp : ¬ (tokenKey name).data <+: (x :: (xs ++ rest)) := by
      intro hp
      unfold tokenKey at hp
      obtain ⟨hx1, hp'⟩ := List.cons_prefix_cons.mp hp
      rcases hx with hx | hx
      · exact hx hx1.symm
      · cases xs with
        | nil => simp at hx
        | cons d ds =>
          have hd' : d ≠ '{' := by simpa using hx
          rw [List.cons_append] at hp'
          obtain ⟨hd, _⟩ := List.cons_prefix_cons.mp hp'
          exact hd' hd.symm
    rw [List.cons_append, replaceFrom_step _ _ _ _ hnp, ih rest hxs]
    rfl

theorem plainText_of_no_open : ∀ xs : List Char, (∀ c ∈ xs, c ≠ '{') → plainText xs = true := by
  intro xs
  induction xs with
  | nil => intro _; rfl
  | cons x xs ih =>
    intro h
    unfold plainText
    simp only [Bool.and_eq_true, Bool.or_eq_true, bne_iff_ne, ne_eq]
    exact ⟨Or.inl (h x (List.mem_cons_self _ _)),
      ih (fun c hc => h c (List.mem_cons_of_mem _ hc))⟩

theorem braceFree_iff (n : List Char) : braceFree n = true ↔ ∀ c ∈ n, c ≠ '{' ∧ c ≠ '}' := by
  unfold braceFree
  simp [List.all_eq_true]

/-- Two names without `}` that differ give keys of which neither starts the
other's token. -/
theorem suffix_mismatch : ∀ (a b rest : List Char), (∀ c ∈ a, c ≠ '}') → (∀ c ∈ b, c ≠ '}') →
    a ≠ b → ¬ (a ++ ['}', '}']) <+: (b ++ '}' :: '}' :: rest) := by
  intro a
  induction a with
  | nil =>
    intro b rest _ hb hab hp
    cases b with
    | nil => exact hab rfl
    | cons y ys =>
      obtain ⟨h1, _⟩ := List.cons_prefix_cons.mp hp
      exact hb y (List.mem_cons_self _ _) h1.symm
  | cons x xs ih =>
    intro b rest ha hb hab hp
    cases b with
    | nil =>
      obtain ⟨h1, _⟩ := List.cons_prefix_cons.mp hp
      exact ha x (List.mem_cons_self _ _) h1
    | cons y ys =>
      obtain ⟨h1, h2⟩ := List.cons_prefix_cons.mp hp
      subst h1
      exact ih ys rest (fun c hc => ha c (List.mem_cons_of_mem _ hc))
        (fun c hc => hb c (List.mem_cons_of_mem _ hc)) (fun h => hab (by rw [h])) h2

theorem token_render_append (n rest : List Char) :
    (Item.token n).render ++ rest = '{' :: '{' :: (n ++ '}' :: '}' :: rest) := by
  simp [Item.render]

theorem tokenKey_data (name : List Char) :
    (tokenKey name).data = '{' :: '{' :: (name ++ ['}', '}']) := rfl

theorem replaceFrom_other_token (name new n rest : List Char) (hname : braceFree name = true)
    (hn : braceFree n = true) (hne : n ≠ name) :
    replaceFrom (tokenKey name).data new 0 ((Item.token n).render ++ rest)
      = (Item.token n).render ++ replaceFrom (tokenKey name).data new 0 rest := by
  have hname' := (braceFree_iff name).mp hname
  have hn' := (braceFree_iff n).mp hn
  have hnp : ¬ (tokenKey name).data <+: ('{' :: ('{' :: (n ++ '}' :: '}' :: rest))) := by
    intro hp
    rw [tokenKey_data] at hp
    obtain ⟨_, hp1⟩ := List.cons_prefix_cons.mp hp
    obtain ⟨_, hp2⟩ := List.cons_prefix_cons.mp hp1
    exact suffix_mismatch name n rest (fun c hc => (hname' c hc).2) (fun c hc => (hn' c hc).2)
      (fun h => hne h.symm) hp2
  have hplain : plainText ('{' :: (n ++ ['}', '}'])) = true := by
    have htail : plainText (n ++ ['}', '}']) = true := by
      apply plainText_of_no_open
      intro c hc
      rcases List.mem_append.mp hc with h | h
      · exact (hn' c h).1
      · simp only [List.mem_cons, List.mem_singleton, List.not_mem_nil, or_false, or_self] at h
        rw [h]; decide
    unfold plainText
    simp only [Bool.and_eq_true, Bool.or_eq_true, bne_iff_ne, ne_eq, htail, and_true]
    right
    cases n with
    | nil => decide
    | cons y ys =>
      simpa using (hn' y (List.mem_cons_self _ _)).1
  have hsplit : '{' :: (n ++ '}' :: '}' :: rest) = ('{' :: (n ++ ['}', '}'])) ++ rest := by
    simp
  rw [token_render_append, replaceFrom_step _ _ _ _ hnp, hsplit,
    replaceFrom_plain name new _ rest hplain, token_render_append]
  simp

/-- One `ReplaceAll` of a token key on a well-formed text replaces exactly the
tokens of that name. -/
theorem replaceFrom_items (name new : List Char) (hname : braceFree name = true) :
    ∀ items : List Item, (∀ it ∈ items, it.wellFormed = true) →
    replaceFrom (tokenKey name).data new 0 (renderItems items)
      = renderItems (items.map (substOne name new)) := by
  intro items
  induction items with
  | nil => intro _; rfl
  | cons it items ih =>
    intro hwf
    have hrest := ih (fun x hx => hwf x (List.mem_cons_of_mem _ hx))
    have hit := hwf it (List.mem_cons_self _ _)
    unfold renderItems at hrest ⊢
    rw [List.map_cons, List.flatMap_cons, List.flatMap_cons]
    cases it with
    | text c =>
      rw [show (Item.text c).render = c from rfl, replaceFrom_plain name new c _ hit, hrest]
      rfl
    | token n =>
      by_cases hn : n = name
      · subst hn
        have hkey : (Item.token n).render = (tokenKey n).data := rfl
        rw [hkey, replaceFrom_match _ _ (by simp [tokenKey]), hrest]
        simp [substOne, Item.render]
      · rw [replaceFrom_other_token name new n _ hname hit hn, hrest]
        simp [substOne, hn]

theorem tokenKey_inj (a b : List Char) (h : tokenKey a = tokenKey b) : a = b := by
  have hd := congrArg String.data h
  rw [tokenKey_data, tokenKey_data] at hd
  simp only [List.cons.injEq, true_and] at hd
  exact List.append_cancel_right hd

theorem ReplaceAll_items (name : List Char) (v : String) (hname : braceFree name = true)
    (items : List Item) (hwf : ∀ it ∈ items, it.wellFormed = true) :
    ReplaceAll (String.mk (renderItems items)) (tokenKey name) v
      = String.mk (renderItems (items.map (substOne name v.data))) := by
  unfold ReplaceAll
  rw [if_neg (by simp [tokenKey])]
  rw [replaceFrom_items name v.data hname items hwf]

theorem substOne_wellFormed (name v : List Char) (hv : plainText v = true) (it : Item)
    (h : it.wellFormed = true) : (substOne name v it).wellFormed = true := by
  cases it with
  | text c => exact h
  | token n =>
    by_cases hn : n = name
    · simp only [substOne, hn, if_true]
      exact hv
    · simp only [substOne, hn, if_false]
      exact h

/-- The replacements applied one after the other to a well-formed text give
the text in which every token has been replaced by the value of the first
entry for its key. -/
theorem applyRepl_items : ∀ (entries : List (String × String)),
    (∀ kv ∈ entries, ∃ name, braceFree name = true ∧ kv.1 = tokenKey name ∧
      plainText kv.2.data = true) →
    ∀ items : List Item, (∀ it ∈ items, it.wellFormed = true) →
    applyRepl entries (String.mk (renderItems items))
      = String.mk (renderItems
          (items.map (substAll (fun n => strMapGet entries (tokenKey n))))) := by
  intro entries
  induction entries with
  | nil =>
    intro _ items _
    have : items.map (substAll (fun n => strMapGet [] (tokenKey n))) = items := by
      conv_rhs => rw [← List.map_id items]
      apply List.map_congr_left
      intro it _
      cases it <;> rfl
    rw [this]
    rfl
  | cons kv rest ih =>
    intro hent items hwf
    obtain ⟨name, hname, hkey, hval⟩ := hent kv (List.mem_cons_self _ _)
    have hstep : applyRepl (kv :: rest) (String.mk (renderItems items))
        = applyRepl rest (ReplaceAll (String.mk (renderItems items)) kv.1 kv.2) := rfl
    rw [hstep, hkey, ReplaceAll_items name kv.2 hname items hwf]
    rw [ih (fun x hx => hent x (List.mem_cons_of_mem _ hx)) _
      (by
        intro it hit
        rw [List.mem_map] at hit
        obtain ⟨it0, hit0, rfl⟩ := hit
        exact substOne_wellFormed name kv.2.data hval it0 (hwf it0 hit0))]
    rw [List.map_map]
    congr 2
    apply List.map_congr_left
    intro it _
    cases it with
    | text c => rfl
    | token n =>
      by_cases hn : n = name
      · subst hn
        have : strMapGet (kv :: rest) (tokenKey n) = some kv.2 := by
          obtain ⟨k, v⟩ := kv
          simp only at hkey
          simp [strMapGet, hkey]
        simp [substOne, substAll, this]
      · have hkne : ¬ kv.1 = tokenKey n := by
          rw [hkey]
          intro h
          exact hn (tokenKey_inj _ _ h).symm
        have : strMapGet (kv :: rest) (tokenKey n) = strMapGet rest (tokenKey n) := by
          obtain ⟨k, v⟩ := kv
          simp only at hkne
          simp [strMapGet, hkne]
        simp [substOne, substAll, hn, this]

/-! ### The replacement map -/

theorem strMapGet_strMapSet (k v : String) : ∀ (m : List (String × String)) (k' : String),
    strMapGet (strMapSet m k v) k' = if k = k' then some v else strMapGet m k' := by
  intro m
  induction m with
  | nil => intro k'; simp [strMapSet, strMapGet]
  | cons e m ih =>
    intro k'
    obtain ⟨ke, ve⟩ := e
    unfold strMapSet
    by_cases h : ke = k
    · subst h
      by_cases h' : ke = k' <;> simp [strMapGet, h']
    · rw [if_neg h]
      by_cases h' : ke = k'
      · subst h'
        have : ¬ k = ke := fun e => h e.symm
        simp [strMapGet, this]
      · simp [strMapGet, h', ih k']

theorem keys_strMapSet (k v : String) : ∀ m : List (String × String),
    (strMapSet m k v).map Prod.fst
      = if k ∈ m.map Prod.fst then m.map Prod.fst else m.map Prod.fst ++ [k] := by
  intro m
  induction m with
  | nil => simp [strMapSet]
  | cons e m ih =>
    obtain ⟨ke, ve⟩ := e
    unfold strMapSet
    by_cases h : ke = k
    · subst h; simp
    · have hk : ¬ k = ke := fun e => h e.symm
      rw [if_neg h]
      simp only [List.map_cons, List.mem_cons, hk, false_or, ih]
      split <;> simp

theorem nodup_keys_strMapSet (k v : String) (m : List (String × String))
    (h : (m.map Prod.fst).Nodup) : ((strMapSet m k v).map Prod.fst).Nodup := by
  rw [keys_strMapSet]
  split
  · exact h
  · rename_i hk
    exact List.Nodup.append h (List.nodup_singleton k) (by
      intro a ha hb
      simp only [List.mem_singleton] at hb
      subst hb
      exact hk ha)

theorem mem_strMapSet (k v : String) : ∀ (m : List (String × String)) (x : String × String),
    x ∈ strMapSet m k v → x ∈ m ∨ x = (k, v) := by
  intro m
  induction m with
  | nil => intro x hx; simp [strMapSet] at hx; exact Or.inr hx
  | cons e m ih =>
    intro x hx
    obtain ⟨ke, ve⟩ := e
    unfold strMapSet at hx
    split at hx
    · rcases List.mem_cons.mp hx with h | h
      · exact Or.inr h
      · exact Or.inl (List.mem_cons_of_mem _ h)
    · rcases List.mem_cons.mp hx with h | h
      · exact Or.inl (by rw [h]; exact List.mem_cons_self _ _)
      · rcases ih x h with h' | h'
        · exact Or.inl (List.mem_cons_of_mem _ h')
        · exact Or.inr h'

theorem foldl_strMapSet_facts : ∀ (entries m : List (String × String)),
    (m.map Prod.fst).Nodup →
    ((entries.foldl (fun m kv => strMapSet m kv.1 kv.2) m).map Prod.fst).Nodup ∧
    ∀ x ∈ entries.foldl (fun m kv => strMapSet m kv.1 kv.2) m, x ∈ m ∨ x ∈ entries := by
  intro entries
  induction entries with
  | nil => intro m h; exact ⟨h, fun x hx => Or.inl hx⟩
  | cons e entries ih =>
    intro m h
    obtain ⟨h1, h2⟩ := ih (strMapSet m e.1 e.2) (nodup_keys_strMapSet _ _ _ h)
    refine ⟨h1, ?_⟩
    intro x hx
    rcases h2 x hx with h' | h'
    · rcases mem_strMapSet _ _ _ _ h' with h'' | h''
      · exact Or.inl h''
      · exact Or.inr (by rw [h'']; exact List.mem_cons_self _ _)
    · exact Or.inr (List.mem_cons_of_mem _ h')

theorem strMapGet_eq_some_of_mem : ∀ (m : List (String × String)) (k v : String),
    (m.map Prod.fst).Nodup → (k, v) ∈ m → strMapGet m k = some v := by
  intro m
  induction m with
  | nil => intro k v _ h; cases h
  | cons e m ih =>
    intro k v hnd hmem
    obtain ⟨ke, ve⟩ := e
    simp only [List.map_cons, List.nodup_cons] at hnd
    rcases List.mem_cons.mp hmem with h | h
    · simp only [Prod.mk.injEq] at h
      obtain ⟨rfl, rfl⟩ := h
      simp [strMapGet]
    · have hne : ¬ ke = k := by
        intro e
        subst e
        exact hnd.1 (List.mem_map.mpr ⟨(ke, v), h, rfl⟩)
      simp only [strMapGet, hne, if_false]
      exact ih k v hnd.2 h

theorem mem_of_strMapGet : ∀ (m : List (String × String)) (k v : String),
    strMapGet m k = some v → (k, v) ∈ m := by
  intro m
  induction m with
  | nil => intro k v h; cases h
  | cons e m ih =>
    intro k v h
    obtain ⟨ke, ve⟩ := e
    unfold strMapGet at h
    split at h
    · rename_i hk
      simp only [Option.some.injEq] at h
      subst hk; subst h
      exact List.mem_cons_self _ _
    · exact List.mem_cons_of_mem _ (ih k v h)

/-- The value read for a key does not depend on the order of the entries of a
map. -/
theorem strMapGet_perm (m σ : List (String × String)) (hnd : (m.map Prod.fst).Nodup)
    (hp : σ.Perm m) (k : String) : strMapGet σ k = strMapGet m k := by
  have hnd' : (σ.map Prod.fst).Nodup := (hp.map Prod.fst).nodup_iff.mpr hnd
  cases h : strMapGet m k with
  | some v =>
    exact strMapGet_eq_some_of_mem σ k v hnd' (hp.mem_iff.mpr (mem_of_strMapGet m k v h))
  | none =>
    cases h' : strMapGet σ k with
    | none => rfl
    | some v =>
      have := strMapGet_eq_some_of_mem m k v hnd (hp.mem_iff.mp (mem_of_strMapGet σ k v h'))
      rw [h] at this
      cases this

theorem lookupLast_cons (ke ve : String) (rest : List (String × String)) (k : String) :
    lookupLast ((ke, ve) :: rest) k
      = orElseOpt (lookupLast rest k) (if ke = k then some ve else none) := by
  rw [lookupLast]
  unfold orElseOpt
  cases lookupLast rest k <;> rfl

theorem lookupLast_append (a b : List (String × String)) (k : String) :
    lookupLast (a ++ b) k = orElseOpt (lookupLast b k) (lookupLast a k) := by
  induction a with
  | nil =>
    rw [List.nil_append]
    unfold orElseOpt
    cases lookupLast b k <;> rfl
  | cons e a ih =>
    obtain ⟨ke, ve⟩ := e
    rw [List.cons_append, lookupLast_cons, lookupLast_cons, ih]
    unfold orElseOpt
    cases lookupLast b k <;> rfl

theorem strMapGet_foldl : ∀ (entries m : List (String × String)) (k : String),
    strMapGet (entries.foldl (fun m kv => strMapSet m kv.1 kv.2) m) k
      = orElseOpt (lookupLast entries k) (strMapGet m k) := by
  intro entries
  induction entries with
  | nil => intro m k; rfl
  | cons e entries ih =>
    intro m k
    obtain ⟨ke, ve⟩ := e
    rw [List.foldl_cons, ih, strMapGet_strMapSet, lookupLast_cons]
    unfold orElseOpt
    cases lookupLast entries k with
    | some w => rfl
    | none => by_cases h : ke = k <;> simp [h]

theorem stripPre_eq_some_iff : ∀ (p n k : List Char), stripPre p n = some k ↔ n = p ++ k := by
  intro p
  induction p with
  | nil => intro n k; simp [stripPre, eq_comm]
  | cons c cs ih =>
    intro n k
    cases n with
    | nil => simp [stripPre]
    | cons x xs =>
      unfold stripPre
      by_cases h : c = x
      · subst h
        simp [ih xs k]
      · have : ¬ x = c := fun e => h e.symm
        simp [h, this]

theorem wrap_eq_tokenKey (cls k : String) :
    String.mk ('{' :: '{' :: cls.data) ++ k ++ "\x7d\x7d" = tokenKey (cls.data ++ k.data) := by
  apply String.ext
  simp [tokenKey, String.data_append]

/-- The last entry for the key of a token among the entries of one class is
the value of the class for the token's name. -/
theorem lookupLast_class (cls : String) : ∀ (pairs : List (String × String)) (n : List Char),
    lookupLast (pairs.map
        (fun kv => (String.mk ('{' :: '{' :: cls.data) ++ kv.1 ++ "\x7d\x7d", kv.2))) (tokenKey n)
      = classValue cls pairs n := by
  intro pairs
  induction pairs with
  | nil =>
    intro n
    unfold classValue
    cases stripPre cls.data n <;> rfl
  | cons e pairs ih =>
    intro n
    obtain ⟨ke, ve⟩ := e
    have ih' := ih n
    unfold classValue at ih' ⊢
    rw [List.map_cons, lookupLast_cons, ih']
    show orElseOpt _ (if String.mk ('{' :: '{' :: cls.data) ++ ke ++ "\x7d\x7d" = tokenKey n
      then some ve else none) = _
    rw [wrap_eq_tokenKey]
    cases hs : stripPre cls.data n with
    | none =>
      have hne : ¬ tokenKey (cls.data ++ ke.data) = tokenKey n := by
        intro h
        have := tokenKey_inj _ _ h
        have h2 := (stripPre_eq_some_iff cls.data n ke.data).mpr this.symm
        rw [hs] at h2
        cases h2
      simp [hne, orElseOpt]
    | some k =>
      have hn := (stripPre_eq_some_iff cls.data n k).mp hs
      have hiff : tokenKey (cls.data ++ ke.data) = tokenKey n ↔ ke = String.mk k := by
        constructor
        · intro h
          have := tokenKey_inj _ _ h
          rw [hn] at this
          exact String.ext (List.append_cancel_left this)
        · intro h
          rw [hn, h]
      simp only []
      rw [lookupLast_cons]
      unfold orElseOpt
      cases lookupLast pairs (String.mk k) with
      | some w => rfl
      | none =>
        by_cases hk : ke = String.mk k
        · rw [if_pos (hiff.mpr hk), if_pos hk]
        · have : ¬ tokenKey (cls.data ++ ke.data) = tokenKey n := fun h => hk (hiff.mp h)
          rw [if_neg this, if_neg hk]

theorem firstValues_map (f : String → String) (m : List (String × List String)) :
    m.filterMap (fun kv => kv.2.head?.map (fun v => (f kv.1, v)))
      = (firstValues m).map (fun kv => (f kv.1, kv.2)) := by
  unfold firstValues
  rw [List.map_filterMap]
  congr 1
  funext kv
  cases kv.2.head? <;> rfl

theorem replEntries_eq (now : String) (params : List (String × String))
    (query header : List (String × List String)) (env : List (String × String))
    (body : Option (List (String × GoVal))) :
    replEntries now params query header env body =
      [(tokenKey "now.iso".data, now)]
      ++ params.map (fun kv => (String.mk ('{' :: '{' :: "params.".data) ++ kv.1 ++ "\x7d\x7d", kv.2))
      ++ (firstValues query).map
          (fun kv => (String.mk ('{' :: '{' :: "query.".data) ++ kv.1 ++ "\x7d\x7d", kv.2))
      ++ (headerValues header).map
          (fun kv => (String.mk ('{' :: '{' :: "header.".data) ++ kv.1 ++ "\x7d\x7d", kv.2))
      ++ env.map (fun kv => (String.mk ('{' :: '{' :: "env.".data) ++ kv.1 ++ "\x7d\x7d", kv.2))
      ++ (match body with
          | some b => [(tokenKey "body".data, String.mk (jsonMarshal (.obj b)))]
          | none => []) := by
  unfold replEntries
  rw [firstValues_map (fun k => "\x7b\x7bquery." ++ k ++ "\x7d\x7d"),
    firstValues_map (fun k => "\x7b\x7bheader." ++ ToLower k ++ "\x7d\x7d")]
  unfold headerValues
  rw [List.map_map]
  rfl

/-- What the map `repl` holds for the key of a token is the value of the
token's name. -/
theorem strMapGet_replMap (now : String) (params : List (String × String))
    (query header : List (String × List String)) (env : List (String × String))
    (body : Option (List (String × GoVal))) (n : List Char) :
    strMapGet (replMap now params query header env body) (tokenKey n)
      = tokenValue now params query header env body n := by
  unfold replMap
  rw [strMapGet_foldl, replEntries_eq]
  simp only [lookupLast_append, lookupLast_class]
  have hnil : strMapGet [] (tokenKey n) = none := rfl
  have hnow : lookupLast [(tokenKey "now.iso".data, now)] (tokenKey n)
      = if n = "now.iso".data then some now else none := by
    by_cases h : n = "now.iso".data
    · simp [lookupLast, h]
    · have : ¬ tokenKey "now.iso".data = tokenKey n := fun e => h (tokenKey_inj _ _ e).symm
      simp [lookupLast, h, this]
  have hbody : lookupLast (match body with
        | some b => [(tokenKey "body".data, String.mk (jsonMarshal (.obj b)))]
        | none => []) (tokenKey n)
      = if n = "body".data then body.map (fun b => String.mk (jsonMarshal (.obj b)))
        else none := by
    cases body with
    | none => simp [lookupLast]
    | some b =>
      by_cases h : n = "body".data
      · simp [lookupLast, h]
      · have : ¬ tokenKey "body".data = tokenKey n := fun e => h (tokenKey_inj _ _ e).symm
        simp [lookupLast, h, this]
  rw [hnil, hnow, hbody]
  unfold tokenValue
  generalize (if n = "body".data then
    Option.map (fun b => String.mk (jsonMarshal (GoVal.obj b))) body else none) = a
  generalize classValue "env." env n = b
  generalize classValue "header." (headerValues header) n = c
  generalize classValue "query." (firstValues query) n = d
  generalize classValue "params." params n = e
  generalize (if n = "now.iso".data then some now else none) = f
  cases a <;> cases b <;> cases c <;> cases d <;> cases e <;> cases f <;> rfl

/-! ### The entries of the replacement map are tokens with plain values -/

theorem toLowerChar_ne_brace (c b : Char) (hb : b = '{' ∨ b = '}') (h : c ≠ b) :
    toLowerChar c ≠ b := by
  unfold toLowerChar
  split
  · rename_i hr
    have hc : c = Char.ofNat c.toNat := (Char.ofNat_toNat c).symm
    generalize c.toNat = n at hr hc
    obtain ⟨h1, h2⟩ := hr
    rcases hb with rfl | rfl <;> interval_cases n <;> decide
  · exact h

theorem braceFree_ToLower (k : String) (h : braceFree k.data = true) :
    braceFree (ToLower k).data = true := by
  rw [braceFree_iff] at h ⊢
  intro c hc
  unfold ToLower at hc
  obtain ⟨d, hd, rfl⟩ := List.mem_map.mp hc
  exact ⟨toLowerChar_ne_brace d '{' (Or.inl rfl) (h d hd).1,
    toLowerChar_ne_brace d '}' (Or.inr rfl) (h d hd).2⟩

theorem braceFree_append (a b : List Char) (ha : braceFree a = true) (hb : braceFree b = true) :
    braceFree (a ++ b) = true := by
  unfold braceFree at *
  rw [List.all_append, ha, hb]
  rfl

theorem plainPairs_headerValues (header : List (String × List String))
    (h : plainPairs (firstValues header) = true) : plainPairs (headerValues header) = true := by
  unfold plainPairs headerValues at *
  rw [List.all_eq_true] at h ⊢
  intro kv hkv
  obtain ⟨p, hp, rfl⟩ := List.mem_map.mp hkv
  have := h p hp
  simp only [Bool.and_eq_true] at this ⊢
  exact ⟨braceFree_ToLower p.1 this.1, this.2⟩

theorem class_entries_tokens (cls : String) (hcls : braceFree cls.data = true)
    (pairs : List (String × String)) (hp : plainPairs pairs = true) :
    ∀ kv ∈ pairs.map (fun kv => (String.mk ('{' :: '{' :: cls.data) ++ kv.1 ++ "\x7d\x7d", kv.2)),
      ∃ name, braceFree name = true ∧ kv.1 = tokenKey name ∧ plainText kv.2.data = true := by
  intro kv hkv
  obtain ⟨p, hpm, rfl⟩ := List.mem_map.mp hkv
  unfold plainPairs at hp
  rw [List.all_eq_true] at hp
  have := hp p hpm
  simp only [Bool.and_eq_true] at this
  exact ⟨cls.data ++ p.1.data, braceFree_append _ _ hcls this.1, wrap_eq_tokenKey cls p.1, this.2⟩

/-- Under plain inputs every assignment to `repl` has the key of a token whose
name holds no brace, and a plain value. -/
theorem replEntries_tokens (now : String) (params : List (String × String))
    (query header : List (String × List String)) (env : List (String × String))
    (body : Option (List (String × GoVal)))
    (hin : plainInputs now params query header env body = true) :
    ∀ kv ∈ replEntries now params query header env body,
      ∃ name, braceFree name = true ∧ kv.1 = tokenKey name ∧ plainText kv.2.data = true := by
  unfold plainInputs at hin
  simp only [Bool.and_eq_true] at hin
  obtain ⟨⟨⟨⟨⟨hnow, hparams⟩, hquery⟩, hheader⟩, henv⟩, hbody⟩ := hin
  intro kv hkv
  rw [replEntries_eq] at hkv
  simp only [List.mem_append] at hkv
  rcases hkv with ((((h | h) | h) | h) | h) | h
  · simp only [List.mem_singleton] at h
    subst h
    exact ⟨"now.iso".data, by decide, rfl, hnow⟩
  · exact class_entries_tokens "params." (by decide) params hparams kv h
  · exact class_entries_tokens "query." (by decide) _ hquery kv h
  · exact class_entries_tokens "header." (by decide) _ (plainPairs_headerValues header hheader) kv h
  · exact class_entries_tokens "env." (by decide) env henv kv h
  · cases body with
    | none => cases h
    | some b =>
      simp only [List.mem_singleton] at h
      subst h
      exact ⟨"body".data, by decide, rfl, hbody⟩

/-- The rendering of a well-formed text under plain inputs, for every order of
iteration over the map `repl`: every token that has a value is replaced by its
value, and everything else stays. -/
theorem RenderTokens_items (order : List (String × String) → List (String × String))
    (horder : IterOrder order) (now : String) (params : List (String × String))
    (query header : List (String × List String)) (env : List (String × String))
    (body : Option (List (String × GoVal)))
    (hin : plainInputs now params query header env body = true)
    (items : List Item) (hwf : ∀ it ∈ items, it.wellFormed = true) :
    RenderTokens order now (String.mk (renderItems items)) params query header env body
      = String.mk (renderItems
          (items.map (substAll (tokenValue now params query header env body)))) := by
  unfold RenderTokens
  have hfacts := foldl_strMapSet_facts (replEntries now params query header env body) []
    List.nodup_nil
  have hperm := horder (replMap now params query header env body)
  rw [applyRepl_items _ _ items hwf]
  · have hval : (fun n => strMapGet (order (replMap now params query header env body))
        (tokenKey n)) = tokenValue now params query header env body := by
      funext n
      rw [strMapGet_perm _ _ hfacts.1 hperm]
      exact strMapGet_replMap now params query header env body n
    rw [hval]
  · intro kv hkv
    have hm := hperm.mem_iff.mp hkv
    rcases hfacts.2 kv hm with h | h
    · cases h
    · exact replEntries_tokens now params query header env body hin kv h

/-! ### The values of the token classes -/

theorem tokenValue_params (now : String) (params : List (String × String))
    (query header : List (String × List String)) (env : List (String × String))
    (body : Option (List (String × GoVal))) (k : List Char) :
    tokenValue now params query header env body ("params.".data ++ k)
      = lookupLast params (String.mk k) := by
  have e : "params.".data = ['p', 'a', 'r', 'a', 'm', 's', '.'] := rfl
  simp only [tokenValue, classValue, stripPre, orElseOpt, e]
  simp
  cases lookupLast params (String.mk k) <;> rfl

theorem tokenValue_query (now : String) (params : List (String × String))
    (query header : List (String × List String)) (env : List (String × String))
    (body : Option (List (String × GoVal))) (k : List Char) :
    tokenValue now params query header env body ("query.".data ++ k)
      = lookupLast (firstValues query) (String.mk k) := by
  have e : "query.".data = ['q', 'u', 'e', 'r', 'y', '.'] := rfl
  simp only [tokenValue, classValue, stripPre, orElseOpt, e]
  simp
  cases lookupLast (firstValues query) (String.mk k) <;> rfl

theorem tokenValue_header (now : String) (params : List (String × String))
    (query header : List (String × List String)) (env : List (String × String))
    (body : Option (List (String × GoVal))) (k : List Char) :
    tokenValue now params query header env body ("header.".data ++ k)
      = lookupLast (headerValues header) (String.mk k) := by
  have e : "header.".data = ['h', 'e', 'a', 'd', 'e', 'r', '.'] := rfl
  simp only [tokenValue, classValue, stripPre, orElseOpt, e]
  simp
  cases lookupLast (headerValues header) (String.mk k) <;> rfl

theorem tokenValue_env (now : String) (params : List (String × String))
    (query header : List (String × List String)) (env : List (String × String))
    (body : Option (List (String × GoVal))) (k : List Char) :
    tokenValue now params query header env body ("env.".data ++ k)
      = lookupLast env (String.mk k) := by
  have e : "env.".data = ['e', 'n', 'v', '.'] := rfl
  simp only [tokenValue, classValue, stripPre, orElseOpt, e]
  simp
  cases lookupLast env (String.mk k) <;> rfl

theorem tokenValue_body (now : String) (params : List (String × String))
    (query header : List (String × List String)) (env : List (String × String))
    (body : Option (List (String × GoVal))) :
    tokenValue now params query header env body "body".data
      = body.map (fun b => String.mk (jsonMarshal (.obj b))) := by
  simp only [tokenValue, classValue, orElseOpt]
  have e1 : stripPre "env.".data "body".data = none := by decide
  have e2 : stripPre "header.".data "body".data = none := by decide
  have e3 : stripPre "query.".data "body".data = none := by decide
  have e4 : stripPre "params.".data "body".data = none := by decide
  have e5 : ¬ "body".data = "now.iso".data := by decide
  rw [e1, e2, e3, e4, if_neg e5]
  simp only [if_true]
  cases body <;> rfl

theorem tokenValue_other (now : String) (params : List (String × String))
    (query header : List (String × List String)) (env : List (String × String))
    (body : Option (List (String × GoVal))) (n : List Char)
    (h0 : n ≠ "body".data) (h1 : stripPre "env.".data n = none)
    (h2 : stripPre "header.".data n = none) (h3 : stripPre "query.".data n = none)
    (h4 : stripPre "params.".data n = none) (h5 : n ≠ "now.iso".data) :
    tokenValue now params query header env body n = none := by
  simp only [tokenValue, classValue, orElseOpt]
  rw [h1, h2, h3, h4, if_neg h0, if_neg h5]

theorem iterOrder_id : IterOrder id := fun m => List.Perm.refl m

theorem iterOrder_reverse : IterOrder List.reverse := fun m => List.reverse_perm m

/-! ### Header names -/

theorem lookupLast_none_of_no_key : ∀ (pairs : List (String × String)) (k : String),
    (∀ kv ∈ pairs, kv.1 ≠ k) → lookupLast pairs k = none := by
  intro pairs
  induction pairs with
  | nil => intro k _; rfl
  | cons e pairs ih =>
    intro k h
    obtain ⟨ke, ve⟩ := e
    rw [lookupLast_cons, ih k (fun kv hkv => h kv (List.mem_cons_of_mem _ hkv))]
    have hne : ¬ ke = k := h (ke, ve) (List.mem_cons_self _ _)
    rw [if_neg hne]
    rfl

theorem lookupLast_of_unique : ∀ (pairs : List (String × String)) (k v : String),
    (∃ kv ∈ pairs, kv.1 = k) → (∀ kv ∈ pairs, kv.1 = k → kv.2 = v) →
    lookupLast pairs k = some v := by
  intro pairs
  induction pairs with
  | nil => intro k v h _; obtain ⟨kv, hkv, _⟩ := h; cases hkv
  | cons e pairs ih =>
    intro k v hex hall
    obtain ⟨ke, ve⟩ := e
    rw [lookupLast_cons]
    by_cases hrest : ∃ kv ∈ pairs, kv.1 = k
    · rw [ih k v hrest (fun kv hkv => hall kv (List.mem_cons_of_mem _ hkv))]
      rfl
    · have hnone : lookupLast pairs k = none :=
        lookupLast_none_of_no_key pairs k (fun kv hkv he => hrest ⟨kv, hkv, he⟩)
      obtain ⟨kv, hkv, hk⟩ := hex
      rcases List.mem_cons.mp hkv with h | h
      · subst h
        have hv : ve = v := hall (ke, ve) (List.mem_cons_self _ _) hk
        have hk' : ke = k := hk
        rw [hnone, if_pos hk', hv]
        rfl
      · exact absurd ⟨kv, h, hk⟩ hrest

theorem toLowerChar_not_upper (c : Char) :
    ¬ (65 ≤ (toLowerChar c).toNat ∧ (toLowerChar c).toNat ≤ 90) := by
  unfold toLowerChar
  split
  · rename_i hr
    have hc : c = Char.ofNat c.toNat := (Char.ofNat_toNat c).symm
    generalize c.toNat = n at hr hc
    obtain ⟨h1, h2⟩ := hr
    interval_cases n <;> decide
  · rename_i hr
    exact hr

theorem hasUpper_ToLower (k : String) : hasUpper (ToLower k) = false := by
  unfold hasUpper ToLower
  rw [Bool.eq_false_iff]
  intro h
  rw [List.any_eq_true] at h
  obtain ⟨c, hc, hu⟩ := h
  obtain ⟨d, _, rfl⟩ := List.mem_map.mp hc
  simp only [Bool.and_eq_true, decide_eq_true_eq] at hu
  exact toLowerChar_not_upper d hu

theorem mem_headerValues (header : List (String × List String)) (kv : String × String) :
    kv ∈ headerValues header ↔
      ∃ e ∈ header, e.2.head? = some kv.2 ∧ ToLower e.1 = kv.1 := by
  unfold headerValues firstValues
  simp only [List.mem_map, List.mem_filterMap, Option.map_eq_some']
  constructor
  · rintro ⟨p, ⟨e, he, w, hw, rfl⟩, rfl⟩
    exact ⟨e, he, hw, rfl⟩
  · rintro ⟨e, he, hw, hk⟩
    exact ⟨(e.1, kv.2), ⟨e, he, kv.2, hw, rfl⟩, by rw [hk]⟩

/-- A header that is the only one of its lower-case name gives the token of
that lower-case name its first value. -/
theorem header_value_lower (header : List (String × List String)) (H v : String)
    (vs : List String) (hmem : (H, v :: vs) ∈ header)
    (huniq : ∀ kv ∈ header, ToLower kv.1 = ToLower H → kv = (H, v :: vs)) :
    lookupLast (headerValues header) (ToLower H) = some v := by
  apply lookupLast_of_unique
  · exact ⟨(ToLower H, v), (mem_headerValues header _).mpr ⟨(H, v :: vs), hmem, rfl, rfl⟩, rfl⟩
  · intro kv hkv hk
    obtain ⟨e, he, hw, hl⟩ := (mem_headerValues header kv).mp hkv
    have := huniq e he (by rw [hl, hk])
    subst this
    simp only [List.head?_cons, Option.some.injEq] at hw
    exact hw.symm

/-- No header token whose name has an upper-case letter has a value. -/
theorem header_value_upper (header : List (String × List String)) (N : String)
    (hN : hasUpper N = true) : lookupLast (headerValues header) N = none := by
  apply lookupLast_none_of_no_key
  intro kv hkv he
  obtain ⟨e, _, _, hl⟩ := (mem_headerValues header kv).mp hkv
  have := hasUpper_ToLower e.1
  rw [hl, he, hN] at this
  cases this

/-! ### Rendering -/

/-- C15 as stated fails: the names `a`, `b` and the values `b`, `a` hold no
`{{` or `}}` and the text holds no current-time token. The recognised tokens
that occur in the text are `{{params.a}}` and `{{params.b}}`, once each, so the
text with each occurrence replaced by its value is `{{params.b}} {{params.a}}`.
`RenderTokens` applies the replacements one after the other to the whole text,
so a token that a replacement completes is replaced too: it gives
`a {{params.a}}` when `{{params.a}}` is taken first, `{{params.b}} b` when
`{{params.b}}` is, and the stated text under no order. -/
theorem RenderTokens_rescans_nested_token :
    plainInputs "T" [("a", "b"), ("b", "a")] [] [] [] none = true ∧
    containsSub "{{now.iso}}".data "{{params.{{params.a}}}} {{params.{{params.b}}}}".data
      = false ∧
    RenderTokens id "T" "{{params.{{params.a}}}} {{params.{{params.b}}}}"
      [("a", "b"), ("b", "a")] [] [] [] none = "a {{params.a}}" ∧
    RenderTokens List.reverse "T" "{{params.{{params.a}}}} {{params.{{params.b}}}}"
      [("a", "b"), ("b", "a")] [] [] [] none = "{{params.b}} b" ∧
    (∀ order, IterOrder order →
      RenderTokens order "T" "{{params.{{params.a}}}} {{params.{{params.b}}}}"
        [("a", "b"), ("b", "a")] [] [] [] none ≠ "{{params.b}} {{params.a}}") := by
  refine ⟨by decide, by decide, by decide, by decide, ?_⟩
  intro order horder
  have hall : ∀ σ ∈ List.permutations' (replMap "T" [("a", "b"), ("b", "a")] [] [] [] none),
      applyRepl σ "{{params.{{params.a}}}} {{params.{{params.b}}}}"
        ≠ "{{params.b}} {{params.a}}" := by decide
  exact hall _ (List.mem_permutations'.mpr (horder _))

/-- C15 (amended): for every text that is a sequence of stretches of plain text
(no `{{`, no `{` at the end) and of tokens `{{name}}` whose names hold no brace,
and inputs whose names hold no brace and whose values are plain text, under
every order of iteration over the replacement map: `RenderTokens` returns the
text in which every token that has a value is replaced by its value and all the
rest is unchanged. The token `params.k` has the value of the path parameter
`k`, `query.k` the first value of the query parameter `k`, `env.k` the value of
the environment entry `k`, `body` the JSON text of the body when there is one;
`foo.bar` has no value and stays as written; and
`hello {{params.name}}, body={{body}}` with the parameter `name` = `Ann` and the
body `{"x":1}` gives `hello Ann, body={"x":1}`. -/
theorem RenderTokens_replaces_tokens (order : List (String × String) → List (String × String))
    (horder : IterOrder order) (now : String) (params : List (String × String))
    (query header : List (String × List String)) (env : List (String × String))
    (body : Option (List (String × GoVal)))
    (hin : plainInputs now params query header env body = true)
    (items : List Item) (hwf : ∀ it ∈ items, it.wellFormed = true) :
    RenderTokens order now (String.mk (renderItems items)) params query header env body
      = String.mk (renderItems
          (items.map (substAll (tokenValue now params query header env body)))) ∧
    (∀ k, tokenValue now params query header env body ("params.".data ++ k)
      = lookupLast params (String.mk k)) ∧
    (∀ k, tokenValue now params query header env body ("query.".data ++ k)
      = lookupLast (firstValues query) (String.mk k)) ∧
    (∀ k, tokenValue now params query header env body ("env.".data ++ k)
      = lookupLast env (String.mk k)) ∧
    tokenValue now params query header env body "body".data
      = body.map (fun b => String.mk (jsonMarshal (.obj b))) ∧
    substAll (tokenValue now params query header env body) (.token "foo.bar".data)
      = .token "foo.bar".data ∧
    RenderTokens order now "hello {{params.name}}, body={{body}}" [("name", "Ann")] [] [] []
      (some [("x", jsonNumber 1)]) = "hello Ann, body=\x7b\"x\":1\x7d" := by
  refine ⟨RenderTokens_items order horder now params query header env body hin items hwf,
    tokenValue_params now params query header env body,
    tokenValue_query now params query header env body,
    tokenValue_env now params query header env body,
    tokenValue_body now params query header env body, ?_, ?_⟩
  · have h := tokenValue_other now params query header env body "foo.bar".data
      (by decide) (by decide) (by decide) (by decide) (by decide) (by decide)
    simp only [substAll, h]
  · have hnow : plainText now.data = true := by
      unfold plainInputs at hin
      simp only [Bool.and_eq_true] at hin
      exact hin.1.1.1.1.1
    have hex : plainInputs now [("name", "Ann")] [] [] [] (some [("x", jsonNumber 1)])
        = true := by
      unfold plainInputs
      rw [hnow]
      decide
    have h := RenderTokens_items order horder now [("name", "Ann")] [] [] []
      (some [("x", jsonNumber 1)]) hex
      [.text "hello ".data, .token "params.name".data, .text ", body=".data,
        .token "body".data] (by decide)
    have e1 : tokenValue now [("name", "Ann")] [] [] [] (some [("x", jsonNumber 1)])
        "params.name".data = some "Ann" :=
      tokenValue_params now [("name", "Ann")] [] [] [] (some [("x", jsonNumber 1)]) "name".data
    have e2 := tokenValue_body now [("name", "Ann")] [] [] [] (some [("x", jsonNumber 1)])
    simp only [List.map, substAll, e1, e2] at h
    exact h

/-- C15 (amended), an instance: the text `{{params.id}}/{{foo.bar}}?q={{query.q}}`
with the parameter `id` = `42` and the query value `q` = `x`. -/
theorem RenderTokens_replaces_tokens_witness :
    IterOrder id ∧
    plainInputs "T" [("id", "42")] [("q", ["x", "y"])] [] [] none = true ∧
    (∀ it ∈ [Item.token "params.id".data, .text "/".data, .token "foo.bar".data,
        .text "?q=".data, .token "query.q".data], it.wellFormed = true) ∧
    RenderTokens id "T" "{{params.id}}/{{foo.bar}}?q={{query.q}}"
      [("id", "42")] [("q", ["x", "y"])] [] [] none = "42/{{foo.bar}}?q=x" :=
  ⟨iterOrder_id, by decide, by decide,
    (RenderTokens_replaces_tokens id iterOrder_id "T" [("id", "42")] [("q", ["x", "y"])] [] []
      none (by decide)
      [Item.token "params.id".data, .text "/".data, .token "foo.bar".data,
        .text "?q=".data, .token "query.q".data] (by decide)).1.trans (by decide)⟩

/-- C16 as stated fails: the request has the header `X-Debug` with the value
`1`; `X-DEBUG` and `x-debug` differ from its name only in letter case. Only the
token of the lower-case spelling is replaced: `{{header.X-Debug}}` and
`{{header.X-DEBUG}}` stay as written, under both orders of the two entries of
the replacement map. -/
theorem RenderTokens_header_token_lower_only :
    ToLower "X-DEBUG" = ToLower "X-Debug" ∧ ToLower "x-debug" = ToLower "X-Debug" ∧
    replMap "T" [] [] [("X-Debug", ["1"])] [] none
      = [("{{now.iso}}", "T"), ("{{header.x-debug}}", "1")] ∧
    RenderTokens id "T" "{{header.X-Debug}} {{header.X-DEBUG}} {{header.x-debug}}"
      [] [] [("X-Debug", ["1"])] [] none = "{{header.X-Debug}} {{header.X-DEBUG}} 1" ∧
    RenderTokens List.reverse "T" "{{header.X-Debug}} {{header.X-DEBUG}} {{header.x-debug}}"
      [] [] [("X-Debug", ["1"])] [] none = "{{header.X-Debug}} {{header.X-DEBUG}} 1" := by
  refine ⟨by decide, by decide, by decide, by decide, by decide⟩

/-- C16 (amended): for a text that is a sequence of stretches of plain text and
of tokens whose names hold no brace, inputs whose names hold no brace and whose
values are plain text, and every order of iteration over the replacement map:
if `H` is a request header with the first value `v`, and the only header of its
lower-case name, then `RenderTokens` replaces every occurrence of the token
`{{header.n}}`, `n` the lower-case spelling of the name of `H`, by `v`; a token
`{{header.N}}` whose name `N` has an upper-case letter stays as written. -/
theorem RenderTokens_header_lower_case
    (order : List (String × String) → List (String × String))
    (horder : IterOrder order) (now : String) (params : List (String × String))
    (query header : List (String × List String)) (env : List (String × String))
    (body : Option (List (String × GoVal)))
    (hin : plainInputs now params query header env body = true)
    (items : List Item) (hwf : ∀ it ∈ items, it.wellFormed = true)
    (H v : String) (vs : List String) (hmem : (H, v :: vs) ∈ header)
    (huniq : ∀ kv ∈ header, ToLower kv.1 = ToLower H → kv = (H, v :: vs)) :
    RenderTokens order now (String.mk (renderItems items)) params query header env body
      = String.mk (renderItems
          (items.map (substAll (tokenValue now params query header env body)))) ∧
    substAll (tokenValue now params query header env body)
        (.token ("header.".data ++ (ToLower H).data)) = .text v.data ∧
    (∀ N : String, hasUpper N = true →
      substAll (tokenValue now params query header env body)
        (.token ("header.".data ++ N.data)) = .token ("header.".data ++ N.data)) := by
  refine ⟨RenderTokens_items order horder now params query header env body hin items hwf,
    ?_, ?_⟩
  · have h : tokenValue now params query header env body
        ("header.".data ++ (ToLower H).data) = some v := by
      rw [tokenValue_header]
      exact header_value_lower header H v vs hmem huniq
    simp only [substAll, h]
  · intro N hN
    have h : tokenValue now params query header env body ("header.".data ++ N.data)
        = none := by
      rw [tokenValue_header]
      exact header_value_upper header N hN
    simp only [substAll, h]

/-- C16 (amended), an instance: the header `X-Debug` with the values `1` and
`2`, and a text with the tokens `{{header.x-debug}}` and `{{header.X-Debug}}`. -/
theorem RenderTokens_header_lower_case_witness :
    IterOrder List.reverse ∧
    plainInputs "T" [] [] [("X-Debug", ["1", "2"]), ("Accept", ["*/*"])] [] none = true ∧
    (∀ it ∈ [Item.token "header.x-debug".data, .text " or ".data,
        .token "header.X-Debug".data], it.wellFormed = true) ∧
    ("X-Debug", ["1", "2"]) ∈ [("X-Debug", ["1", "2"]), ("Accept", ["*/*"])] ∧
    (∀ kv ∈ [("X-Debug", ["1", "2"]), ("Accept", ["*/*"])],
      ToLower kv.1 = ToLower "X-Debug" → kv = ("X-Debug", ["1", "2"])) ∧
    RenderTokens List.reverse "T" "{{header.x-debug}} or {{header.X-Debug}}" [] []
      [("X-Debug", ["1", "2"]), ("Accept", ["*/*"])] [] none = "1 or {{header.X-Debug}}" :=
  ⟨iterOrder_reverse, by decide, by decide, by decide, by decide,
    (RenderTokens_header_lower_case List.reverse iterOrder_reverse "T" [] []
      [("X-Debug", ["1", "2"]), ("Accept", ["*/*"])] [] none (by decide)
      [Item.token "header.x-debug".data, .text " or ".data, .token "header.X-Debug".data]
      (by decide) "X-Debug" "1" ["2"] (by decide) (by decide)).1.trans (by decide)⟩

/-- C20: the code on the text `{{query.q}}` for a request whose query value `q`
is the text `{{env.K}}`, with the environment entry `K` = `secret`. The
replacement map holds `{{query.q}}` and `{{env.K}}`; when the iteration yields
`{{query.q}}` before `{{env.K}}` the value put in is replaced in turn and the
output is `secret`, and when it yields `{{env.K}}` first the output is
`{{env.K}}`: two orders of iteration, two outputs. -/
theorem RenderTokens_order_changes_output :
    IterOrder id ∧ IterOrder List.reverse ∧
    replMap "T" [] [("q", ["{{env.K}}"])] [] [("K", "secret")] none
      = [("{{now.iso}}", "T"), ("{{query.q}}", "{{env.K}}"), ("{{env.K}}", "secret")] ∧
    RenderTokens id "T" "{{query.q}}" [] [("q", ["{{env.K}}"])] [] [("K", "secret")] none
      = "secret" ∧
    RenderTokens List.reverse "T" "{{query.q}}" [] [("q", ["{{env.K}}"])] []
      [("K", "secret")] none = "{{env.K}}" := by
  refine ⟨iterOrder_id, iterOrder_reverse, by decide, by decide, by decide⟩

/-! ### The key set of a compiled table -/

theorem Build_APIKeys (compiles : String → Bool) (cfg : Config) (snap : Snapshot)
    (h : Build compiles cfg = .ok snap) : snap.APIKeys = [cfg.APIKey] := by
  unfold Build at h
  cases hroutes : buildRoutes compiles cfg.Routes with
  | error e => rw [hroutes] at h; cases h
  | ok crs =>
    rw [hroutes] at h
    simp only [Except.ok.injEq] at h
    subst h
    rfl

theorem requireRuntimeKey_unauthorized (snap : Snapshot) (key : String) (allow : Bool) :
    (requireRuntimeKey snap key allow).2 = some 401 ↔ key ∉ snap.APIKeys := by
  unfold requireRuntimeKey
  by_cases hk : snap.APIKeys.contains key = true
  · have hmem : key ∈ snap.APIKeys := by
      rw [List.contains_iff_exists_mem_beq] at hk
      obtain ⟨a, ha, hb⟩ := hk
      rw [beq_iff_eq] at hb
      rw [hb]
      exact ha
    simp only [hk, Bool.true_eq_false, if_false]
    constructor
    · intro h
      split at h <;> simp at h
    · intro h
      exact absurd hmem h
  · have hk' : snap.APIKeys.contains key = false := by simpa using hk
    have hmem : key ∉ snap.APIKeys := by
      intro hm
      apply hk
      rw [List.contains_iff_exists_mem_beq]
      exact ⟨key, hm, by simp⟩
    simp only [hk', if_true]
    exact ⟨fun _ => hmem, fun _ => trivial⟩

theorem requireRuntimeKey_pass (snap : Snapshot) (key : String)
    (hk : key ∈ snap.APIKeys) (allow : Bool) (hl : snap.RateLimit ≤ 0 ∨ allow = true) :
    (requireRuntimeKey snap key allow).2 = none := by
  have hc : snap.APIKeys.contains key = true := by
    rw [List.contains_iff_exists_mem_beq]
    exact ⟨key, hk, by simp⟩
  unfold requireRuntimeKey
  simp only [hc, Bool.true_eq_false, if_false]
  rcases hl with h | h
  · have : ¬ (snap.RateLimit > 0 ∧ allow = false) := fun hh => by omega
    rw [if_neg this]
  · have : ¬ (snap.RateLimit > 0 ∧ allow = false) := fun hh => by
      rw [h] at hh
      exact Bool.noConfusion hh.2
    rw [if_neg this]

/-- C21: for every table that `Build` returns, the key set is the singleton of
the configured `api_key`; `requireRuntimeKey` answers 401 exactly when the
value of the header `x-mocksmith-key`, the empty text when the header is
absent, differs from the configured `api_key`; so when no `api_key` is
configured (the empty text) the key check lets through exactly the requests
whose key is absent or empty, and these pass the middleware whenever the rate
limit is off or the limiter allows the request. -/
theorem Build_key_set_and_check (compiles : String → Bool) (cfg : Config) (snap : Snapshot)
    (h : Build compiles cfg = .ok snap) :
    snap.APIKeys = [cfg.APIKey] ∧
    (∀ k, k ∈ snap.APIKeys ↔ k = cfg.APIKey) ∧
    (∀ header allow,
      (requireRuntimeKey snap (GetHeader header "x-mocksmith-key") allow).2 = some 401 ↔
        GetHeader header "x-mocksmith-key" ≠ cfg.APIKey) ∧
    (∀ header, valuesGet header "X-Mocksmith-Key" = [] →
      GetHeader header "x-mocksmith-key" = "") ∧
    (∀ header v vs, valuesGet header "X-Mocksmith-Key" = v :: vs →
      GetHeader header "x-mocksmith-key" = v) ∧
    (cfg.APIKey = "" → ∀ header allow,
      ((requireRuntimeKey snap (GetHeader header "x-mocksmith-key") allow).2 ≠ some 401 ↔
        GetHeader header "x-mocksmith-key" = "")) ∧
    (cfg.APIKey = "" → ∀ header allow, (snap.RateLimit ≤ 0 ∨ allow = true) →
      ((requireRuntimeKey snap (GetHeader header "x-mocksmith-key") allow).2 = none ↔
        GetHeader header "x-mocksmith-key" = "")) := by
  have hkeys := Build_APIKeys compiles cfg snap h
  have hmem : ∀ k, k ∈ snap.APIKeys ↔ k = cfg.APIKey := by
    intro k
    rw [hkeys, List.mem_singleton]
  have hcanon : CanonicalHeaderKey "x-mocksmith-key" = "X-Mocksmith-Key" := by decide
  have h401 : ∀ header allow,
      (requireRuntimeKey snap (GetHeader header "x-mocksmith-key") allow).2 = some 401 ↔
        GetHeader header "x-mocksmith-key" ≠ cfg.APIKey := by
    intro header allow
    rw [requireRuntimeKey_unauthorized, hmem]
  refine ⟨hkeys, hmem, h401, ?_, ?_, ?_, ?_⟩
  · intro header hv
    unfold GetHeader
    rw [hcanon, hv]
  · intro header v vs hv
    unfold GetHeader
    rw [hcanon, hv]
  · intro hno header allow
    rw [Ne, h401, hno, not_not]
  · intro hno header allow hl
    constructor
    · intro hpass
      by_contra hne
      have h4 := (h401 header allow).mpr (by rw [hno]; exact hne)
      rw [hpass] at h4
      cases h4
    · intro hk
      exact requireRuntimeKey_pass snap _ ((hmem _).mpr (by rw [hk, hno])) allow hl

/-- C21, an instance: a document without `api_key`; a request without the
header passes, a request with the key `DEMO_KEY` gets 401. -/
theorem Build_key_set_and_check_witness :
    Build (fun _ => true) cfgOpen = .ok snapOpen ∧ cfgOpen.APIKey = "" ∧
    snapOpen.APIKeys = [""] ∧
    (requireRuntimeKey snapOpen (GetHeader [("Accept", ["*/*"])] "x-mocksmith-key") true).2
      = none ∧
    (requireRuntimeKey snapOpen
      (GetHeader [("X-Mocksmith-Key", ["DEMO_KEY"])] "x-mocksmith-key") true).2 = some 401 :=
  ⟨rfl, rfl, (Build_key_set_and_check (fun _ => true) cfgOpen snapOpen rfl).1,
    ((Build_key_set_and_check (fun _ => true) cfgOpen snapOpen rfl).2.2.2.2.2.2 rfl
      [("Accept", ["*/*"])] true (Or.inr rfl)).mpr (by decide),
    ((Build_key_set_and_check (fun _ => true) cfgOpen snapOpen rfl).2.2.1
      [("X-Mocksmith-Key", ["DEMO_KEY"])] true).mpr (by decide)⟩

end Mocksmith
